import Mathlib

/-!
ObjectTalk: multi-prototype objects.

A shallow embedding of `lib/object-talk.js`: the proxy handler (`get`, `set`,
`ownKeys`) and the factory `newObject`, over an explicit heap of host objects.

Scope of the host model.
* Property keys are strings; symbol keys are not part of the model. Every
  property is a writable, enumerable, configurable data property, except the
  built-in `length` of arrays and the built-in `length` and `name` of
  functions, and the accessor `__proto__` of `Object.prototype`, whose getter
  and setter read and replace the `[[Prototype]]` of the receiver. Objects are
  extensible. The built-in objects hold only the links between prototype
  objects and constructors.
* Numbers are integers. Property reads on primitive receivers (booleans,
  numbers, strings) would go through wrapper prototypes that are not part of
  the heap; such reads answer `Err.unmodelled`.
* `value instanceof Set` and `value instanceof Array` walk the prototype chain
  of the value for the built-in `Set.prototype` and `Array.prototype`; the
  property `prototype` of both constructors is not writable.
* Unbounded recursion of the host (a cyclic prototype graph) is cut by a fuel
  counter and answers `Err.outOfFuel`.
-/

namespace ObjectTalk

/-- Host values. `ref a` is a reference to the heap object at address `a`. -/
inductive Val where
  | undef
  | null
  | bool (b : Bool)
  | num (n : Int)
  | str (s : String)
  | ref (a : Nat)
  deriving DecidableEq, Repr

/-- The internal shape of a heap object. `proxy t` is `new Proxy(t, handler)`;
`closure name t` is the arrow function `x => this[name](t, x)` built by
`handler.get`; `builtin` is a host function whose body is not modelled; `base`
is `Object.prototype`, an ordinary object that carries the accessor property
`__proto__`. -/
inductive Kind where
  | plain
  | set (members : List Val)
  | array (elems : List Val)
  | proxy (target : Nat)
  | closure (name : String) (target : Nat)
  | builtin
  | base
  deriving DecidableEq, Repr

/-- A heap object: its kind, its own string-keyed data properties in creation
order, and its `[[Prototype]]` (`none` is `null`). -/
structure Obj where
  kind : Kind
  fields : List (String × Val)
  proto : Option Nat
  deriving DecidableEq, Repr

/-- The heap: the object at address `a` is the `a`-th entry. -/
abbrev Heap := List Obj

/-- Abrupt completions. `protoError` is the
`Error("prototypes must be Set or Array object")` thrown by `handler.set`. -/
inductive Err where
  | typeError
  | protoError
  | outOfFuel
  | unmodelled
  deriving DecidableEq, Repr

/-- Address of `Object.prototype`, the universal base object. -/
def objectProto : Nat := 0

/-- Address of `Function.prototype`. -/
def functionProto : Nat := 1

/-- Address of `Set.prototype`. -/
def setProto : Nat := 2

/-- Address of `Array.prototype`. -/
def arrayProto : Nat := 3

/-- Address of the built-in constructor `Object`. -/
def objectCtor : Nat := 4

/-- Read a key in an association list of properties. -/
def assocGet : List (String × Val) → String → Option Val
  | [], _ => none
  | (k', v) :: fs, k => if k' = k then some v else assocGet fs k

/-- Write a key in an association list of properties: an existing entry keeps
its position, a new one goes last. -/
def assocSet : List (String × Val) → String → Val → List (String × Val)
  | [], k, v => [(k, v)]
  | (k', v') :: fs, k, v =>
    if k' = k then (k', v) :: fs else (k', v') :: assocSet fs k v

/-- The index properties `0 .. n-1` of an array, starting at index `i`. -/
def indexProps : Nat → List Val → List (String × Val)
  | _, [] => []
  | i, v :: vs => (toString i, v) :: indexProps (i + 1) vs

/-- The own properties the host gives an object because of its kind. The entry
of `Object.prototype` is the key of its accessor `__proto__`: the value beside
it is never read, a read or write of that property runs the accessor. -/
def exoticProps : Kind → List (String × Val)
  | .array es => indexProps 0 es ++ [("length", .num es.length)]
  | .closure _ _ => [("length", .num 1), ("name", .str "")]
  | .base => [("__proto__", .undef)]
  | _ => []

/-- Whether the own property `name` of an object is the accessor `__proto__` of
`Object.prototype`. -/
def isAccessor (ob : Obj) (name : String) : Bool :=
  match ob.kind with
  | .base => decide (name = "__proto__")
  | _ => false

/-- All own properties of a non-proxy object. -/
def ownProps (ob : Obj) : List (String × Val) :=
  exoticProps ob.kind ++ ob.fields

/-- Insertion into a `Set`: a value already present is not added again. -/
def setAdd (s : List Val) (x : Val) : List Val :=
  if x ∈ s then s else s ++ [x]

/-- The members of `new Set(xs)`: `xs` with later duplicates dropped. -/
def setFromList (xs : List Val) : List Val :=
  xs.foldl setAdd []

/-- The result of a property read before allocation: a value, or the request to
allocate the closure `x => this[name](target, x)`. -/
inductive Res where
  | val (v : Val)
  | fresh (name : String) (target : Nat)
  deriving DecidableEq, Repr

/-- The values produced by `for (let p of x)`. Sets and arrays are iterable;
`undefined`, `null`, booleans, numbers and functions raise a TypeError. Whether
another object is iterable depends on a symbol-keyed property it may inherit,
and the iteration of a string on its code units: neither is modelled. -/
def iterate (h : Heap) : Res → Except Err (List Val)
  | .val (.ref a) =>
    match h[a]? with
    | some ob =>
      match ob.kind with
      | .set ms => .ok ms
      | .array es => .ok es
      | .closure _ _ => .error .typeError
      | .builtin => .error .typeError
      | _ => .error .unmodelled
    | none => .error .unmodelled
  | .val (.str _) => .error .unmodelled
  | _ => .error .typeError

/-- The loop of `handler.get`: the first `p[name]` that is not `undefined`. -/
def firstDefined (f : Val → Except Err Res) : List Val → Except Err (Option Res)
  | [] => .ok none
  | p :: ps =>
    match f p with
    | .error e => .error e
    | .ok (.val .undef) => firstDefined f ps
    | .ok r => .ok (some r)

/-- The value `p[name]` for a member `p` of the prototype list, given the
host's `[[Get]]` on objects. Reading a property of `undefined` or `null` raises
a TypeError. -/
def memberGet (getP : Nat → String → Except Err Res) (name : String) : Val → Except Err Res
  | .ref b => getP b name
  | .undef => .error .typeError
  | .null => .error .typeError
  | _ => .error .unmodelled

/-- The body of `handler.get(target, name)` (lines 4-18), given the host's
`[[Get]]` on objects for the reads `target.__prototypeList`, `p[name]` and
`target[name]`. -/
def handler.getWith (getP : Nat → String → Except Err Res) (h : Heap) (target : Nat)
    (name : String) : Except Err Res :=
  if name = "addPrototype" ∨ name = "removePrototype" then
    .ok (.fresh name target)
  else if name = "prototypes" then
    getP target "__prototypeList"
  else
    match getP target "__prototypeList" with
    | .error e => .error e
    | .ok l =>
      match iterate h l with
      | .error e => .error e
      | .ok ms =>
        match firstDefined (memberGet getP name) ms with
        | .error e => .error e
        | .ok (some r) => .ok r
        | .ok none => getP target name

/-- The call `Reflect.getPrototypeOf(o)` on the object at address `a`; a proxy
without that trap answers for its target. -/
def getPrototypeOf : Nat → Heap → Nat → Except Err Val
  | 0, _, _ => .error .outOfFuel
  | fuel + 1, h, a =>
    match h[a]? with
    | none => .error .unmodelled
    | some ob =>
      match ob.kind with
      | .proxy t => getPrototypeOf fuel h t
      | _ =>
        match ob.proto with
        | none => .ok .null
        | some q => .ok (.ref q)

/-- The host's `[[Get]]` on the object at address `a` with receiver `r`: a
proxy runs the `get` trap on its target (the trap drops the receiver and reads
`p[name]` and `target[name]` afresh); any other object answers from its own
properties and then from its `[[Prototype]]`. The getter of the accessor
`__proto__` answers `Object.getPrototypeOf(r)`. -/
def getFrom : Nat → Heap → Nat → String → Nat → Except Err Res
  | 0, _, _, _, _ => .error .outOfFuel
  | fuel + 1, h, a, name, r =>
    match h[a]? with
    | none => .error .unmodelled
    | some ob =>
      match ob.kind with
      | .proxy t => handler.getWith (fun b n => getFrom fuel h b n b) h t name
      | _ =>
        match assocGet (ownProps ob) name with
        | some v =>
          if isAccessor ob name then
            match getPrototypeOf (fuel + 1) h r with
            | .error e => .error e
            | .ok w => .ok (.val w)
          else .ok (.val v)
        | none =>
          match ob.proto with
          | none => .ok (.val .undef)
          | some q => getFrom fuel h q name r

/-- The read `a[name]` of a property of the object at address `a`: the host's
`[[Get]]` with the object itself as receiver. -/
def getProp (fuel : Nat) (h : Heap) (a : Nat) (name : String) : Except Err Res :=
  getFrom fuel h a name a

/-- The trap `handler.get(target, name)`. -/
def handler.get (fuel : Nat) (h : Heap) (target : Nat) (name : String) : Except Err Res :=
  handler.getWith (fun b n => getProp fuel h b n) h target name

/-- The function object allocated for `x => this[name](target, x)`. -/
def closureObj (name : String) (target : Nat) : Obj :=
  { kind := .closure name target, fields := [], proto := some functionProto }

/-- The expression `o[name]` for an object value: `Get(o, name)`. A closure
requested by the trap is allocated at the next free address. -/
def Get (fuel : Nat) (h : Heap) (a : Nat) (name : String) : Except Err (Val × Heap) :=
  match getProp fuel h a name with
  | .error e => .error e
  | .ok (.val v) => .ok (v, h)
  | .ok (.fresh n t) => .ok (.ref h.length, h ++ [closureObj n t])

/-- Create or overwrite the own data property `k` of the receiver `r`
(`CreateDataProperty` or `[[DefineOwnProperty]]` with a new value). Like every
write below, an abrupt completion carries the heap as it is at the throw. -/
def defineOwn (h : Heap) (r : Nat) (k : String) (v : Val) : Except (Err × Heap) Heap :=
  match h[r]? with
  | none => .error (.unmodelled, h)
  | some ob =>
    match ob.kind with
    | .plain => .ok (h.set r { ob with fields := assocSet ob.fields k v })
    | .set _ => .ok (h.set r { ob with fields := assocSet ob.fields k v })
    | .base =>
      if k = "__proto__" then .error (.unmodelled, h)
      else .ok (h.set r { ob with fields := assocSet ob.fields k v })
    | _ => .error (.unmodelled, h)

/-- The loop of `OrdinarySetPrototypeOf(r, p)`: whether the prototype chain of
the object at `p` holds the object at `r`. The loop stops at `null` and at a
proxy. -/
def reaches : Nat → Heap → Nat → Nat → Except Err Bool
  | 0, _, _, _ => .error .outOfFuel
  | fuel + 1, h, p, r =>
    if p = r then .ok true
    else
      match h[p]? with
      | none => .error .unmodelled
      | some pb =>
        match pb.kind with
        | .proxy _ => .ok false
        | _ =>
          match pb.proto with
          | none => .ok false
          | some q => reaches fuel h q r

/-- The host's `[[SetPrototypeOf]]` on the ordinary object at `r`, as the
setter of `__proto__` calls it: a new `[[Prototype]]` that would close a cycle
is refused with a TypeError, and so is any change of the `[[Prototype]]` of
`Object.prototype`. -/
def setPrototypeOf (fuel : Nat) (h : Heap) (r : Nat) (np : Option Nat) :
    Except (Err × Heap) Heap :=
  match h[r]? with
  | none => .error (.unmodelled, h)
  | some rb =>
    match rb.kind with
    | .proxy _ => .error (.unmodelled, h)
    | .base => if rb.proto = np then .ok h else .error (.typeError, h)
    | _ =>
      if rb.proto = np then .ok h
      else
        match np with
        | none => .ok (h.set r { rb with proto := none })
        | some q =>
          match reaches fuel h q r with
          | .error e => .error (e, h)
          | .ok true => .error (.typeError, h)
          | .ok false => .ok (h.set r { rb with proto := some q })

/-- The setter of the accessor `__proto__`, called with the receiver `r` as
`this`: an object or `null` becomes the `[[Prototype]]` of `r`, any other value
is dropped. -/
def protoSetter (fuel : Nat) (h : Heap) (r : Nat) : Val → Except (Err × Heap) Heap
  | .ref q => setPrototypeOf fuel h r (some q)
  | .null => setPrototypeOf fuel h r none
  | _ => .ok h

/-- The loop of `OrdinaryHasInstance`: whether the prototype object at `P` is
on the prototype chain of the object at `a`, the object itself not counted. -/
def inheritsFrom : Nat → Heap → Nat → Nat → Except Err Bool
  | 0, _, _, _ => .error .outOfFuel
  | fuel + 1, h, a, P =>
    match getPrototypeOf (fuel + 1) h a with
    | .error e => .error e
    | .ok (.ref q) => if q = P then .ok true else inheritsFrom fuel h q P
    | .ok _ => .ok false

/-- The test `v instanceof C` for a built-in constructor `C` whose prototype
object is at `P`: false of a value that is not an object. -/
def instanceOf (fuel : Nat) (h : Heap) (v : Val) (P : Nat) : Except Err Bool :=
  match v with
  | .ref a => inheritsFrom fuel h a P
  | _ => .ok false

/-- The Set object built by `new Set(value)` from the elements of an array. -/
def setObj (ms : List Val) : Obj :=
  { kind := .set ms, fields := [], proto := some setProto }

/-- The elements `new Set(value)` iterates: those of an Array object. The
iteration of another object that inherits from `Array.prototype` reads its
`length` and index properties; it is not modelled. -/
def arrayElems (h : Heap) : Val → Except Err (List Val)
  | .ref b =>
    match h[b]? with
    | none => .error .unmodelled
    | some vb =>
      match vb.kind with
      | .array es => .ok es
      | _ => .error .unmodelled
  | _ => .error .unmodelled

/-- The body of `handler.set(target, property, value, receiver)` (lines 19-32),
given the host's `[[Set]]` for `target.__prototypeList = ...` and for
`Reflect.set(target, property, value, receiver)`, whose boolean result the
source drops. -/
def handler.setWith (setP : Heap → Nat → String → Val → Nat → Except (Err × Heap) Heap)
    (fuel : Nat) (h : Heap) (target : Nat) (property : String) (value : Val) (receiver : Nat) :
    Except (Err × Heap) Heap :=
  if property = "prototypes" then
    match instanceOf fuel h value setProto with
    | .error e => .error (e, h)
    | .ok true => setP h target "__prototypeList" value target
    | .ok false =>
      match instanceOf fuel h value arrayProto with
      | .error e => .error (e, h)
      | .ok true =>
        match arrayElems h value with
        | .error e => .error (e, h)
        | .ok es =>
          setP (h ++ [setObj (setFromList es)]) target "__prototypeList" (.ref h.length) target
      | .ok false => .error (.protoError, h)
  else
    setP h target property value receiver

/-- The host's `[[Set]]` on the object at address `a` with receiver `r`: a
proxy runs the `set` trap on its target; any other object that has the property
or ends the chain writes the receiver's own property, otherwise the write goes
on to its `[[Prototype]]`. A write that finds the accessor `__proto__` calls its
setter on the receiver and writes no property. -/
def setProp : Nat → Heap → Nat → String → Val → Nat → Except (Err × Heap) Heap
  | 0, h, _, _, _, _ => .error (.outOfFuel, h)
  | fuel + 1, h, a, k, v, r =>
    match h[a]? with
    | none => .error (.unmodelled, h)
    | some ob =>
      match ob.kind with
      | .proxy t => handler.setWith (fun h' b n w q => setProp fuel h' b n w q) fuel h t k v r
      | .closure _ _ =>
        match assocGet (exoticProps ob.kind) k with
        | some _ => .error (.unmodelled, h)
        | none =>
          match assocGet ob.fields k with
          | some _ => defineOwn h r k v
          | none =>
            match ob.proto with
            | none => defineOwn h r k v
            | some q => setProp fuel h q k v r
      | _ =>
        match assocGet (ownProps ob) k with
        | some _ => if isAccessor ob k then protoSetter fuel h r v else defineOwn h r k v
        | none =>
          match ob.proto with
          | none => defineOwn h r k v
          | some q => setProp fuel h q k v r

/-- The trap `handler.set(target, property, value, receiver)`. -/
def handler.set (fuel : Nat) (h : Heap) (target : Nat) (property : String) (value : Val)
    (receiver : Nat) : Except (Err × Heap) Heap :=
  handler.setWith (fun h' b n w q => setProp fuel h' b n w q) fuel h target property value
    receiver

/-- The statement `o[k] = v` for an object value: `Set(o, k, v)`. -/
def Set (fuel : Nat) (h : Heap) (o : Nat) (k : String) (v : Val) : Except (Err × Heap) Heap :=
  setProp fuel h o k v o

/-- The members of `new Set(keys)` for a list of names, in first-seen order. -/
def dedupKeys (ks : List String) : List String :=
  ks.foldl (fun acc k => if k ∈ acc then acc else acc ++ [k]) []

/-- The inner loop of `handler.ownKeys`:
`while (o !== Object.prototype) { keys = keys.concat(Reflect.ownKeys(o)); o = Reflect.getPrototypeOf(o) }`.
`Reflect.ownKeys` raises a TypeError on a value that is not an object. -/
def walkChain (keysOf : Nat → Except Err (List String)) (protoOf : Nat → Except Err Val) :
    Nat → Val → List String → Except Err (List String)
  | 0, _, _ => .error .outOfFuel
  | n + 1, o, keys =>
    if o = .ref objectProto then .ok keys
    else
      match o with
      | .ref a =>
        match keysOf a with
        | .error e => .error e
        | .ok ks =>
          match protoOf a with
          | .error e => .error e
          | .ok o' => walkChain keysOf protoOf n o' (keys ++ ks)
      | _ => .error .typeError

/-- The outer loop of `handler.ownKeys` over the members of the prototype
list. -/
def collectKeys (walk : Val → List String → Except Err (List String)) :
    List Val → List String → Except Err (List String)
  | [], keys => .ok keys
  | o :: os, keys =>
    match walk o keys with
    | .error e => .error e
    | .ok keys' => collectKeys walk os keys'

/-- The body of `handler.ownKeys(target)` (lines 33-43), given the host's
`Reflect.ownKeys` on objects. The variable `keys` is read before the argument
of `concat` is evaluated, so a nested run of the trap does not disturb it. -/
def handler.ownKeysWith (keysOf : Nat → Except Err (List String)) (fuel : Nat) (h : Heap)
    (target : Nat) : Except Err (List String) :=
  match getProp fuel h target "__prototypeList" with
  | .error e => .error e
  | .ok l =>
    match iterate h l with
    | .error e => .error e
    | .ok ms =>
      match collectKeys (walkChain keysOf (getPrototypeOf fuel h) fuel) ms [] with
      | .error e => .error e
      | .ok keys => .ok (dedupKeys (keys ++ ["prototypes"]))

/-- The call `Reflect.ownKeys(o)` on the object at address `a`: a proxy runs
the `ownKeys` trap on its target, any other object lists its own properties. -/
def ownPropertyKeys : Nat → Heap → Nat → Except Err (List String)
  | 0, _, _ => .error .outOfFuel
  | fuel + 1, h, a =>
    match h[a]? with
    | none => .error .unmodelled
    | some ob =>
      match ob.kind with
      | .proxy t => handler.ownKeysWith (fun b => ownPropertyKeys fuel h b) fuel h t
      | _ => .ok ((ownProps ob).map Prod.fst)

/-- The trap `handler.ownKeys(target)`. -/
def handler.ownKeys (fuel : Nat) (h : Heap) (target : Nat) : Except Err (List String) :=
  handler.ownKeysWith (fun b => ownPropertyKeys fuel h b) fuel h target

/-- The call `f(x)` of a function value. The only function bodies in the heap
are the closures `x => this[name](target, x)`, where `this` is `handler`: its
own members are `get`, `set` and `ownKeys`, every other name is read from
`Object.prototype` (`this.__proto__` is `Object.prototype` itself), and the
member found is called with `target` as its first argument. Calling a value
that is not a function raises a TypeError. -/
def callClosure : Nat → Heap → Val → Val → Except Err (Val × Heap)
  | 0, _, _, _ => .error .outOfFuel
  | fuel + 1, h, f, _ =>
    match f with
    | .ref a =>
      match h[a]? with
      | none => .error .unmodelled
      | some ob =>
        match ob.kind with
        | .closure name target =>
          if name = "get" ∨ name = "set" ∨ name = "ownKeys" then .error .unmodelled
          else if name = "__proto__" then callClosure fuel h (.ref objectProto) (.ref target)
          else
            match getProp fuel h objectProto name with
            | .error e => .error e
            | .ok (.fresh _ _) => .error .unmodelled
            | .ok (.val m) => callClosure fuel h m (.ref target)
        | .builtin => .error .unmodelled
        | _ => .error .typeError
    | _ => .error .typeError

/-- The test `typeof v === 'object'`: true of `null` and of every object that
is not a function. -/
def typeofObject (h : Heap) : Val → Bool
  | .null => true
  | .ref a =>
    match h[a]? with
    | none => false
    | some ob =>
      match ob.kind with
      | .closure _ _ => false
      | .builtin => false
      | _ => true
  | _ => false

/-- The own enumerable properties of a non-proxy object, the ones
`Object.assign` copies. -/
def enumProps (ob : Obj) : List (String × Val) :=
  match ob.kind with
  | .array es => indexProps 0 es ++ ob.fields
  | .closure _ _ => ob.fields
  | _ => ob.fields

/-- The writes `o[k] = v` that `Object.assign(o, _from)` performs, one for each
own enumerable property of the source. -/
def assignAll (fuel : Nat) : Heap → Nat → List (String × Val) → Except (Err × Heap) Heap
  | h, _, [] => .ok h
  | h, o, (k, v) :: ps =>
    match Set fuel h o k v with
    | .error e => .error e
    | .ok h' => assignAll fuel h' o ps

/-- The call `Object.assign(o, _from)`: `null` is skipped, an object has its own
enumerable properties written to `o`. -/
def objectAssign (fuel : Nat) (h : Heap) (o : Nat) : Val → Except (Err × Heap) Heap
  | .ref a =>
    match h[a]? with
    | none => .error (.unmodelled, h)
    | some ob =>
      match ob.kind with
      | .proxy _ => .error (.unmodelled, h)
      | _ => assignAll fuel h o (enumProps ob)
  | _ => .ok h

/-- The factory `newObject(from)` (lines 46-55). The Set, the target
`{__prototypeList: new Set()}`, the proxy `p` and `o = Object.create(p)` are
allocated at the next four addresses, and the literal `{}` after them when
`from` is not of type object. -/
def newObject (fuel : Nat) (h : Heap) (frm : Val) : Except Err (Val × Heap) :=
  let s := h.length
  let t := s + 1
  let p := s + 2
  let o := s + 3
  let h1 := h ++ [setObj [],
    { kind := .plain, fields := [("__prototypeList", .ref s)], proto := some objectProto },
    { kind := .proxy t, fields := [], proto := none },
    { kind := .plain, fields := [], proto := some p }]
  let _from := if typeofObject h frm then frm else .ref (s + 4)
  let h2 := if typeofObject h frm then h1
    else h1 ++ [{ kind := .plain, fields := [], proto := some objectProto }]
  match objectAssign fuel h2 o _from with
  | .error e => .error e.1
  | .ok h3 =>
    match _from with
    | .ref a =>
      match Get fuel h3 a "constructor" with
      | .error e => .error e
      | .ok (c, h4) =>
        if c ≠ .ref objectCtor then
          match Get fuel h4 o "addPrototype" with
          | .error e => .error e
          | .ok (f, h5) =>
            match Get fuel h5 objectCtor "getPrototypeFor" with
            | .error e => .error e
            | .ok (g, h6) =>
              match callClosure fuel h6 g _from with
              | .error e => .error e
              | .ok (x, h7) =>
                match callClosure fuel h7 f x with
                | .error e => .error e
                | .ok (_, h8) => .ok (.ref o, h8)
        else .ok (.ref o, h4)
    | _ => .error .typeError

/-- The key enumeration of the object at `o`: `Reflect.ownKeys(o)`, the names
of the own properties of `o`; `Object.keys(o)` lists the same names when they are all
enumerable. A composite object is an ordinary object: its keys are those of its
own properties, and the `ownKeys` trap of the proxy it inherits from is not
asked for them. -/
def Enumerate (fuel : Nat) (h : Heap) (o : Nat) : Except Err (List String) :=
  ownPropertyKeys fuel h o

/-- The list the `ownKeys` trap computes for the proxy the object at `o`
inherits from: `Reflect.ownKeys(Object.getPrototypeOf(o))`. -/
def proxyKeys (fuel : Nat) (h : Heap) (o : Nat) : Except Err (List String) :=
  match h[o]? with
  | none => .error .unmodelled
  | some ob =>
    match ob.proto with
    | none => .error .unmodelled
    | some p =>
      match h[p]? with
      | none => .error .unmodelled
      | some pb =>
        match pb.kind with
        | .proxy t => handler.ownKeys fuel h t
        | _ => .error .unmodelled

/-- Address of the built-in constructor `Function`. -/
def functionCtor : Nat := 5

/-- Address of the built-in constructor `Set`. -/
def setCtor : Nat := 6

/-- Address of the built-in constructor `Array`. -/
def arrayCtor : Nat := 7

/-- A heap holding the built-in objects only: `Object.prototype`,
`Function.prototype`, `Set.prototype`, `Array.prototype` and the constructors
`Object`, `Function`, `Set`, `Array`, each with the `constructor` and
`prototype` links between them. -/
def stdHeap : Heap :=
  [ { kind := .base, fields := [("constructor", .ref objectCtor)], proto := none },
    { kind := .builtin, fields := [("constructor", .ref functionCtor)],
      proto := some objectProto },
    { kind := .plain, fields := [("constructor", .ref setCtor)], proto := some objectProto },
    { kind := .array [], fields := [("constructor", .ref arrayCtor)],
      proto := some objectProto },
    { kind := .builtin, fields := [("prototype", .ref objectProto)],
      proto := some functionProto },
    { kind := .builtin, fields := [("prototype", .ref functionProto)],
      proto := some functionProto },
    { kind := .builtin, fields := [("prototype", .ref setProto)], proto := some functionProto },
    { kind := .builtin, fields := [("prototype", .ref arrayProto)],
      proto := some functionProto } ]

/-- The own fields of the object at address `a` (none when it is absent). -/
def fieldsOf (h : Heap) (a : Nat) : List (String × Val) :=
  match h[a]? with
  | some ob => ob.fields
  | none => []

/-- The members of the Set object at address `s`, in insertion order. -/
def membersOf (h : Heap) (s : Nat) : List Val :=
  match h[s]? with
  | some ob =>
    match ob.kind with
    | .set ms => ms
    | _ => []
  | none => []

/-- The value `p[name]` read from a member `p` of a prototype list. -/
def lookup (fuel : Nat) (h : Heap) (p : Val) (name : String) : Except Err Res :=
  memberGet (fun b n => getProp fuel h b n) name p

/-- The object at `o` is a composite object as `newObject` builds it: a plain
object without an own field `prototypes`, inheriting from the proxy at `p`,
whose target at `t` is a plain object holding in `__prototypeList` the Set
object at `s`. -/
structure Composite (h : Heap) (o p t s : Nat) : Prop where
  obj : ∃ ob, h[o]? = some ob ∧ ob.kind = .plain ∧ ob.proto = some p
  noOwn : assocGet (fieldsOf h o) "prototypes" = none
  proxy : ∃ pb, h[p]? = some pb ∧ pb.kind = .proxy t
  target : ∃ tb, h[t]? = some tb ∧ tb.kind = .plain ∧
    assocGet tb.fields "__prototypeList" = some (.ref s)
  targetProto : ∃ tb, h[t]? = some tb ∧ tb.proto = some objectProto
  list : ∃ sb ms, h[s]? = some sb ∧ sb.kind = .set ms
  apart : o ≠ t

/-- The universal base object `Object.prototype` is in the heap and ends every
prototype chain. -/
def StdBase (h : Heap) : Prop :=
  ∃ bb, h[objectProto]? = some bb ∧ bb.kind = .base ∧ bb.proto = none

/-- The members of a sequence with duplicates removed in first-seen order, as
the specification words the conversion of a sequence to a set. -/
def firstSeen : List Val → List Val
  | [] => []
  | x :: xs => x :: (firstSeen xs).filter (fun y => decide (y ≠ x))

/-- Whether a value is a Set object or an Array object, as the specification
words the values that `prototypes` accepts. -/
def isSetOrArray (h : Heap) : Val → Bool
  | .ref a =>
    match h[a]? with
    | some ob =>
      match ob.kind with
      | .set _ => true
      | .array _ => true
      | _ => false
    | none => false
  | _ => false

/-- The heap after the own field `k` of the object at `o` is written. -/
def writeField (h : Heap) (o : Nat) (k : String) (v : Val) : Heap :=
  match h[o]? with
  | some ob => h.set o { ob with fields := assocSet ob.fields k v }
  | none => h

/-- A heap with a composite object at 11 whose prototype list holds
`p1 = {k: undefined}` at 12 and `p2 = {k: 1}` at 13. -/
def skipHeap : Heap :=
  stdHeap ++
  [ setObj [.ref 12, .ref 13],
    { kind := .plain, fields := [("__prototypeList", .ref 8)], proto := some objectProto },
    { kind := .proxy 9, fields := [], proto := none },
    { kind := .plain, fields := [], proto := some 10 },
    { kind := .plain, fields := [("k", .undef)], proto := some objectProto },
    { kind := .plain, fields := [("k", .num 1)], proto := some objectProto } ]

/-- A heap with a composite object at 11 whose prototype list holds
`p0 = {k: 0}` at 12, `p1 = {k: 1, prototypes: 1}` at 13 and
`p2 = {k: 2, prototypes: 2}` at 14. -/
def threeHeap : Heap :=
  stdHeap ++
  [ setObj [.ref 12, .ref 13, .ref 14],
    { kind := .plain, fields := [("__prototypeList", .ref 8)], proto := some objectProto },
    { kind := .proxy 9, fields := [], proto := none },
    { kind := .plain, fields := [], proto := some 10 },
    { kind := .plain, fields := [("k", .num 0)], proto := some objectProto },
    { kind := .plain, fields := [("k", .num 1), ("prototypes", .num 1)],
      proto := some objectProto },
    { kind := .plain, fields := [("k", .num 2), ("prototypes", .num 2)],
      proto := some objectProto } ]

/-- A heap with a composite object at 11 with an empty prototype list, the
plain objects `p1 = {a, b}` at 12 and `p2 = {b, c}` at 13, the array
`[p1, p2, p1]` at 14 and the Set `{p2, p1}` at 15. -/
def seqHeap : Heap :=
  stdHeap ++
  [ setObj [],
    { kind := .plain, fields := [("__prototypeList", .ref 8)], proto := some objectProto },
    { kind := .proxy 9, fields := [], proto := none },
    { kind := .plain, fields := [], proto := some 10 },
    { kind := .plain, fields := [("a", .num 1), ("b", .num 2)], proto := some objectProto },
    { kind := .plain, fields := [("b", .num 3), ("c", .num 4)], proto := some objectProto },
    { kind := .array [.ref 12, .ref 13, .ref 12], fields := [], proto := some arrayProto },
    setObj [.ref 13, .ref 12] ]

/-- The seed has no own enumerable property named `__proto__` (an object
literal or a constructor does not create one; `JSON.parse` and a computed key
can). -/
def SeedLacksProto (h : Heap) (seed : Val) : Prop :=
  ∀ a sb, seed = .ref a → h[a]? = some sb → assocGet (enumProps sb) "__proto__" = none

/-- The heaps in which `o` is an object returned by `newObject` for a seed
without own enumerable property `__proto__` and then written by any sequence of
`Set(o, k, v)` on names other than `__proto__`. -/
inductive Reachable (o : Nat) : Heap → Prop
  | create (fuel : Nat) (h0 : Heap) (seed : Val) (h : Heap) :
      SeedLacksProto h0 seed → newObject fuel h0 seed = .ok (.ref o, h) → Reachable o h
  | write (fuel : Nat) (h : Heap) (k : String) (v : Val) (h' : Heap) :
      Reachable o h → k ≠ "__proto__" → Set fuel h o k v = .ok h' → Reachable o h'

/-- The object at `o` is wired to the interception policy as `newObject` leaves
it: a plain object without an own field `prototypes`, inheriting from the proxy
at `p`, whose target at `t` is a plain object holding the value `L` in
`__prototypeList`. -/
structure Wired (h : Heap) (o p t : Nat) (L : Val) : Prop where
  obj : ∃ ob, h[o]? = some ob ∧ ob.kind = .plain ∧ ob.proto = some p
  noOwn : assocGet (fieldsOf h o) "prototypes" = none
  proxy : ∃ pb, h[p]? = some pb ∧ pb.kind = .proxy t
  target : ∃ tb, h[t]? = some tb ∧ tb.kind = .plain ∧
    assocGet tb.fields "__prototypeList" = some L
  apart : o ≠ t

/-- A heap with `q = {prototypes: 1}` at 8 and at 9 the seed
`{"__proto__": q}` as `JSON.parse` builds it, with `__proto__` an own data
property. -/
def protoKeyHeap : Heap :=
  stdHeap ++
  [ { kind := .plain, fields := [("prototypes", .num 1)], proto := some objectProto },
    { kind := .plain, fields := [("__proto__", .ref 8)], proto := some objectProto } ]

/-- A heap with `q = {prototypes: 1}` at 8 and the array `[q]` at 9. -/
def seedHeap : Heap :=
  stdHeap ++
  [ { kind := .plain, fields := [("prototypes", .num 1)], proto := some objectProto },
    { kind := .array [.ref 8], fields := [], proto := some arrayProto } ]

/-- The heap `seedHeap` after `o = newObject()` and `o.prototypes = [q]`: the
composite object is at 13 and its prototype list, the Set `{q}`, at 15. -/
def seedHeapAfter : Heap :=
  seedHeap ++
  [ setObj [],
    { kind := .plain, fields := [("__prototypeList", .ref 15)], proto := some objectProto },
    { kind := .proxy 11, fields := [], proto := none },
    { kind := .plain, fields := [], proto := some 12 },
    { kind := .plain, fields := [], proto := some objectProto },
    setObj [.ref 8] ]

/-- The own key names of the object a value refers to. -/
def ownKeyNames (h : Heap) : Val → List String
  | .ref a => (fieldsOf h a).map Prod.fst
  | _ => []

/-- A member of a prototype list that is a plain object: an ordinary object
whose `[[Prototype]]` is `Object.prototype`. -/
def PlainMember (h : Heap) (v : Val) : Prop :=
  ∃ a ob, v = .ref a ∧ h[a]? = some ob ∧ ob.kind = .plain ∧ ob.proto = some objectProto

/-- A heap with a composite object at 11 whose prototype list holds
`p1 = {a, b}` at 12 and `p2 = {b, c}` at 13. -/
def unionHeap : Heap :=
  stdHeap ++
  [ setObj [.ref 12, .ref 13],
    { kind := .plain, fields := [("__prototypeList", .ref 8)], proto := some objectProto },
    { kind := .proxy 9, fields := [], proto := none },
    { kind := .plain, fields := [], proto := some 10 },
    { kind := .plain, fields := [("a", .num 1), ("b", .num 2)], proto := some objectProto },
    { kind := .plain, fields := [("b", .num 3), ("c", .num 4)], proto := some objectProto } ]

/-- The target at `t` is a plain object whose `__prototypeList` is a Set
object with members `ms`. -/
def TargetList (h : Heap) (t : Nat) (ms : List Val) : Prop :=
  ∃ tb s sb, h[t]? = some tb ∧ tb.kind = .plain ∧
    assocGet tb.fields "__prototypeList" = some (.ref s) ∧ h[s]? = some sb ∧ sb.kind = .set ms

/-- The name `k` is an own key of an object reachable from the value `v`
through the prototype graph, below the universal base object: an own key of the
object `v` refers to, a key reachable from its `[[Prototype]]`, or, at a proxy
of a composite object, a key reachable from a member of its prototype list. -/
inductive KeyReach (h : Heap) : Val → String → Prop
  | own (a : Nat) (ob : Obj) (k : String) :
      a ≠ objectProto → h[a]? = some ob → (∀ t, ob.kind ≠ .proxy t) →
      k ∈ (ownProps ob).map Prod.fst → KeyReach h (.ref a) k
  | up (a : Nat) (ob : Obj) (q : Nat) (k : String) :
      a ≠ objectProto → h[a]? = some ob → (∀ t, ob.kind ≠ .proxy t) →
      ob.proto = some q → KeyReach h (.ref q) k → KeyReach h (.ref a) k
  | member (a : Nat) (ob : Obj) (t : Nat) (ms : List Val) (v : Val) (k : String) :
      a ≠ objectProto → h[a]? = some ob → ob.kind = .proxy t → TargetList h t ms →
      v ∈ ms → KeyReach h v k → KeyReach h (.ref a) k

/-- The prototype graph below the value `v` is finite, acyclic and made of
objects whose host chains end at the universal base object. -/
inductive Grounded (h : Heap) : Val → Prop
  | base : Grounded h (.ref objectProto)
  | obj (a : Nat) (ob : Obj) (q : Nat) :
      a ≠ objectProto → h[a]? = some ob → (∀ t, ob.kind ≠ .proxy t) →
      ob.proto = some q → Grounded h (.ref q) → Grounded h (.ref a)
  | proxy (a : Nat) (ob : Obj) (t : Nat) (ms : List Val) (tb : Obj) (q : Nat) :
      a ≠ objectProto → h[a]? = some ob → ob.kind = .proxy t → TargetList h t ms →
      h[t]? = some tb → tb.proto = some q →
      (∀ v, v ∈ ms → Grounded h v) → Grounded h (.ref q) → Grounded h (.ref a)

/-- The inner loop of `handler.ownKeys` started at `v` completes whenever the
fuel of the trap and of the loop are at least `N`. -/
def WalkOk (h : Heap) (v : Val) (N : Nat) : Prop :=
  ∀ f n, N ≤ f → N ≤ n → ∀ keys, ∃ ks,
    walkChain (fun b => ownPropertyKeys f h b) (getPrototypeOf f h) n v keys = .ok ks

/-- A heap with a composite object at 11 holding the own field `k` and listing
itself as its only prototype. -/
def cycleHeap : Heap :=
  stdHeap ++
  [ setObj [.ref 11],
    { kind := .plain, fields := [("__prototypeList", .ref 8)], proto := some objectProto },
    { kind := .proxy 9, fields := [], proto := none },
    { kind := .plain, fields := [("k", .num 1)], proto := some 10 } ]

/-- A heap with a composite object at 11 whose only prototype is
`Object.prototype`. -/
def baseHeap : Heap :=
  stdHeap ++
  [ setObj [.ref objectProto],
    { kind := .plain, fields := [("__prototypeList", .ref 8)], proto := some objectProto },
    { kind := .proxy 9, fields := [], proto := none },
    { kind := .plain, fields := [], proto := some 10 } ]

/-- A heap with a composite object at 11 whose prototypes are the instance at 12
of a shape with prototype object `{greet}` at 13, and the composite object at
17 with own field `x`, whose own prototype is the plain object `{deep}` at
18. -/
def graphHeap : Heap :=
  stdHeap ++
  [ setObj [.ref 12, .ref 17],
    { kind := .plain, fields := [("__prototypeList", .ref 8)], proto := some objectProto },
    { kind := .proxy 9, fields := [], proto := none },
    { kind := .plain, fields := [], proto := some 10 },
    { kind := .plain, fields := [("own", .num 1)], proto := some 13 },
    { kind := .plain, fields := [("greet", .num 2)], proto := some objectProto },
    setObj [.ref 18],
    { kind := .plain, fields := [("__prototypeList", .ref 14)], proto := some objectProto },
    { kind := .proxy 15, fields := [], proto := none },
    { kind := .plain, fields := [("x", .num 3)], proto := some 16 },
    { kind := .plain, fields := [("deep", .num 4)], proto := some objectProto } ]

/-- The heap after the writes `o[k] = v` of a list of properties that all go
to own fields of `o`. -/
def assignHeap (h : Heap) (o : Nat) (ps : List (String × Val)) : Heap :=
  ps.foldl (fun hh kv => writeField hh o kv.1 kv.2) h

/-- The fields of an object after a list of properties is written to it. -/
def assignFields (fs : List (String × Val)) (ps : List (String × Val)) : List (String × Val) :=
  ps.foldl (fun acc kv => assocSet acc kv.1 kv.2) fs

/-- The universal base object of the heap links to the constructor `Object`. -/
def BaseCtor (h : Heap) : Prop :=
  assocGet (fieldsOf h objectProto) "constructor" = some (.ref objectCtor)

/-- A heap with the plain seed `s = {x: 1, y: 2}` at 8. -/
def plainSeedHeap : Heap :=
  stdHeap ++
  [ { kind := .plain, fields := [("x", .num 1), ("y", .num 2)], proto := some objectProto } ]

/-- A heap with `q = {x: 1}` at 8, the array `[q]` at 9, the plain seed
`s = {prototypes: [q]}` at 10 and the plain seed `{prototypes: 5}` at 11. -/
def protoSeedHeap : Heap :=
  stdHeap ++
  [ { kind := .plain, fields := [("x", .num 1)], proto := some objectProto },
    { kind := .array [.ref 8], fields := [], proto := some arrayProto },
    { kind := .plain, fields := [("prototypes", .ref 9)], proto := some objectProto },
    { kind := .plain, fields := [("prototypes", .num 5)], proto := some objectProto } ]

/-- The heap after the allocations of `newObject`: the Set, the target
`{__prototypeList: new Set()}`, the proxy and the object created from it. -/
def allocHeap (h : Heap) : Heap :=
  h ++ [setObj [],
    { kind := .plain, fields := [("__prototypeList", .ref h.length)], proto := some objectProto },
    { kind := .proxy (h.length + 1), fields := [], proto := none },
    { kind := .plain, fields := [], proto := some (h.length + 2) }]

/-- A heap with a custom shape: its constructor function at 8, its prototype
object `{constructor, greet}` at 9, and an instance `{x: 1}` of the shape at
10. -/
def shapeHeap : Heap :=
  stdHeap ++
  [ { kind := .builtin, fields := [("prototype", .ref 9)], proto := some functionProto },
    { kind := .plain, fields := [("constructor", .ref 8), ("greet", .num 2)],
      proto := some objectProto },
    { kind := .plain, fields := [("x", .num 1)], proto := some 9 } ]

/-- The name `k` is defined nowhere below the value `v`, and the graph below
`v` is finite and acyclic: `v` refers to an object without own property `k`
whose `[[Prototype]]` is `null` or again such an object, or to the proxy of a
composite object whose target and whose prototype-list members are all such
objects. -/
inductive Absent (h : Heap) (k : String) : Val → Prop
  | leaf (a : Nat) (ob : Obj) :
      h[a]? = some ob → (∀ t, ob.kind ≠ .proxy t) → assocGet (ownProps ob) k = none →
      ob.proto = none → Absent h k (.ref a)
  | up (a : Nat) (ob : Obj) (q : Nat) :
      h[a]? = some ob → (∀ t, ob.kind ≠ .proxy t) → assocGet (ownProps ob) k = none →
      ob.proto = some q → Absent h k (.ref q) → Absent h k (.ref a)
  | proxy (a : Nat) (ob : Obj) (t : Nat) (ms : List Val) :
      h[a]? = some ob → ob.kind = .proxy t → TargetList h t ms →
      (∀ v, v ∈ ms → Absent h k v) → Absent h k (.ref t) → Absent h k (.ref a)

/-- Whether the object at `t` has the shape of a target built by `newObject`:
a plain object inheriting from `Object.prototype` whose `__prototypeList` is a
Set object. -/
def targetStd (h : Heap) (t : Nat) : Bool :=
  match h[t]? with
  | some tb =>
    match tb.kind, tb.proto, assocGet tb.fields "__prototypeList" with
    | .plain, some q, some (.ref s) =>
      decide (q = objectProto) &&
        (match h[s]? with
         | some sb =>
           match sb.kind with
           | .set _ => true
           | _ => false
         | none => false)
    | _, _, _ => false
  | none => false

/-- Whether an object, if it is a proxy, has a target of the standard shape. -/
def proxyStd (h : Heap) (ob : Obj) : Bool :=
  match ob.kind with
  | .proxy t => targetStd h t
  | _ => true

/-- Every proxy of the heap has a target of the shape `newObject` builds and
the `set` trap keeps. -/
def ProxiesStd (h : Heap) : Prop :=
  h.all (proxyStd h) = true

/-- A heap with a composite object at 11 holding the own field `mine`, whose
prototype list holds `p1 = {a, b}` at 12 and `p2 = {b, c}` at 13. -/
def ownHeap : Heap :=
  stdHeap ++
  [ setObj [.ref 12, .ref 13],
    { kind := .plain, fields := [("__prototypeList", .ref 8)], proto := some objectProto },
    { kind := .proxy 9, fields := [], proto := none },
    { kind := .plain, fields := [("mine", .num 9)], proto := some 10 },
    { kind := .plain, fields := [("a", .num 1), ("b", .num 2)], proto := some objectProto },
    { kind := .plain, fields := [("b", .num 3), ("c", .num 4)], proto := some objectProto } ]

/-- The graph below the value `v` is finite and acyclic: `v` refers to an
object whose host prototype chain ends, or to the proxy of a composite object
whose target and whose prototype-list members are all such objects. -/
inductive Acyclic (h : Heap) : Val → Prop
  | leaf (a : Nat) (ob : Obj) :
      h[a]? = some ob → (∀ t, ob.kind ≠ .proxy t) → ob.proto = none → Acyclic h (.ref a)
  | up (a : Nat) (ob : Obj) (q : Nat) :
      h[a]? = some ob → (∀ t, ob.kind ≠ .proxy t) → ob.proto = some q →
      Acyclic h (.ref q) → Acyclic h (.ref a)
  | proxy (a : Nat) (ob : Obj) (t : Nat) (ms : List Val) :
      h[a]? = some ob → ob.kind = .proxy t → TargetList h t ms →
      (∀ v, v ∈ ms → Acyclic h v) → Acyclic h (.ref t) → Acyclic h (.ref a)

/-- Whether an object, if it is a proxy, has a target without own field `k`. -/
def targetLacks (h : Heap) (k : String) (ob : Obj) : Bool :=
  match ob.kind with
  | .proxy t =>
    match h[t]? with
    | some tb => (assocGet tb.fields k).isNone
    | none => true
  | _ => true

/-- No private target of a proxy of the heap has an own field `k`. -/
def TargetsLack (h : Heap) (k : String) : Prop :=
  h.all (targetLacks h k) = true

/-- A heap with a composite object at 11 whose only prototype is the empty
plain object `{}` at 12. -/
def bareHeap : Heap :=
  stdHeap ++
  [ setObj [.ref 12],
    { kind := .plain, fields := [("__prototypeList", .ref 8)], proto := some objectProto },
    { kind := .proxy 9, fields := [], proto := none },
    { kind := .plain, fields := [], proto := some 10 },
    { kind := .plain, fields := [], proto := some objectProto } ]

/-- A heap with a composite object at 11 with an empty prototype list and the
object `Object.create(Set.prototype)` at 12. -/
def instHeap : Heap :=
  stdHeap ++
  [ setObj [],
    { kind := .plain, fields := [("__prototypeList", .ref 8)], proto := some objectProto },
    { kind := .proxy 9, fields := [], proto := none },
    { kind := .plain, fields := [], proto := some 10 },
    { kind := .plain, fields := [], proto := some setProto } ]

/-- A heap with a composite object at 11 whose only prototype is the object
`Object.create(null)` at 12 with the own field `k = 1`. -/
def nullHeap : Heap :=
  stdHeap ++
  [ setObj [.ref 12],
    { kind := .plain, fields := [("__prototypeList", .ref 8)], proto := some objectProto },
    { kind := .proxy 9, fields := [], proto := none },
    { kind := .plain, fields := [], proto := some 10 },
    { kind := .plain, fields := [("k", .num 1)], proto := none } ]

/-- A heap with the seed `{"__proto__": 5}` at 8 as `JSON.parse` builds it,
with `__proto__` an own data property. -/
def protoNumHeap : Heap :=
  stdHeap ++
  [ { kind := .plain, fields := [("__proto__", .num 5)], proto := some objectProto } ]

/-! ## Theorems -/

theorem assocGet_assocSet_same (fs : List (String × Val)) (k : String) (v : Val) :
    assocGet (assocSet fs k v) k = some v := by
  induction fs with
  | nil => simp [assocSet, assocGet]
  | cons x xs ih =>
    obtain ⟨k', v'⟩ := x
    by_cases hk : k' = k
    · simp [assocSet, assocGet, hk]
    · simp [assocSet, assocGet, hk, ih]

theorem assocGet_assocSet_other (fs : List (String × Val)) (k k2 : String) (v : Val)
    (hne : k2 ≠ k) : assocGet (assocSet fs k v) k2 = assocGet fs k2 := by
  have hne' : ¬ k = k2 := fun e => hne e.symm
  induction fs with
  | nil => simp [assocSet, assocGet, hne']
  | cons x xs ih =>
    obtain ⟨k', v'⟩ := x
    by_cases hk : k' = k
    · subst hk
      simp [assocSet, assocGet, hne']
    · by_cases hk2 : k' = k2
      · subst hk2
        simp [assocSet, assocGet, hk]
      · simp [assocSet, assocGet, hk, hk2, ih]

/-- An object that is not `Object.prototype` has no accessor property. -/
theorem isAccessor_of_kind (ob : Obj) (name : String) (hk : ob.kind ≠ .base) :
    isAccessor ob name = false := by
  unfold isAccessor
  cases hkind : ob.kind with
  | base => exact absurd hkind hk
  | _ => rfl

/-- No object has an accessor property under a name other than `__proto__`. -/
theorem isAccessor_of_name (ob : Obj) (name : String) (hn : name ≠ "__proto__") :
    isAccessor ob name = false := by
  unfold isAccessor
  cases ob.kind <;> simp [hn]

/-- A read that finds a data property on a non-proxy object answers with it,
whatever the receiver. -/
theorem getFrom_own (n : Nat) (h : Heap) (a : Nat) (ob : Obj) (name : String) (v : Val) (r : Nat)
    (ha : h[a]? = some ob) (hk : ∀ t, ob.kind ≠ .proxy t)
    (hv : assocGet (ownProps ob) name = some v) (hacc : isAccessor ob name = false) :
    getFrom (n + 1) h a name r = .ok (.val v) := by
  unfold getFrom
  simp only [ha]
  cases hkind : ob.kind with
  | proxy t => exact absurd hkind (hk t)
  | _ => simp [hv, hacc]

/-- A read that finds the accessor `__proto__` answers with the
`[[Prototype]]` of the receiver. -/
theorem getFrom_accessor (n : Nat) (h : Heap) (a : Nat) (ob : Obj) (name : String) (r : Nat)
    (ha : h[a]? = some ob) (hacc : isAccessor ob name = true) :
    getFrom (n + 1) h a name r =
      match getPrototypeOf (n + 1) h r with
      | .error e => .error e
      | .ok w => .ok (.val w) := by
  have hkb : ob.kind = .base := by
    unfold isAccessor at hacc
    cases hkind : ob.kind <;> simp [hkind] at hacc
    rfl
  have hn : name = "__proto__" := by
    unfold isAccessor at hacc
    simpa [hkb] using hacc
  conv_lhs => unfold getFrom
  simp [ha, hkb, hn, ownProps, exoticProps, assocGet, isAccessor]

/-- A read on a non-proxy object that lacks the property goes on to its
prototype with the same receiver. -/
theorem getFrom_up (n : Nat) (h : Heap) (a q : Nat) (ob : Obj) (name : String) (r : Nat)
    (ha : h[a]? = some ob) (hk : ∀ t, ob.kind ≠ .proxy t)
    (hv : assocGet (ownProps ob) name = none) (hp : ob.proto = some q) :
    getFrom (n + 1) h a name r = getFrom n h q name r := by
  conv_lhs => unfold getFrom
  simp only [ha]
  cases hkind : ob.kind with
  | proxy t => exact absurd hkind (hk t)
  | _ => simp [hv, hp]

/-- A read on a proxy runs the trap on its target, whatever the receiver. -/
theorem getFrom_proxy (n : Nat) (h : Heap) (a t : Nat) (ob : Obj) (name : String) (r : Nat)
    (ha : h[a]? = some ob) (hk : ob.kind = .proxy t) :
    getFrom (n + 1) h a name r = handler.get n h t name := by
  conv_lhs => unfold getFrom
  simp only [ha, hk, handler.get]
  rfl

/-- A read on a non-proxy object that has the data property answers with
it. -/
theorem getProp_own (n : Nat) (h : Heap) (a : Nat) (ob : Obj) (name : String) (v : Val)
    (ha : h[a]? = some ob) (hk : ∀ t, ob.kind ≠ .proxy t)
    (hv : assocGet (ownProps ob) name = some v) (hacc : isAccessor ob name = false) :
    getProp (n + 1) h a name = .ok (.val v) :=
  getFrom_own n h a ob name v a ha hk hv hacc

/-- A read on a non-proxy object that lacks the property goes on to its
prototype. -/
theorem getProp_up (n : Nat) (h : Heap) (a q : Nat) (ob : Obj) (name : String)
    (ha : h[a]? = some ob) (hk : ∀ t, ob.kind ≠ .proxy t)
    (hv : assocGet (ownProps ob) name = none) (hp : ob.proto = some q) :
    getProp (n + 1) h a name = getFrom n h q name a :=
  getFrom_up n h a q ob name a ha hk hv hp

/-- A read on a proxy runs the trap on its target. -/
theorem getProp_proxy (n : Nat) (h : Heap) (a t : Nat) (ob : Obj) (name : String)
    (ha : h[a]? = some ob) (hk : ob.kind = .proxy t) :
    getProp (n + 1) h a name = handler.get n h t name :=
  getFrom_proxy n h a t ob name a ha hk

/-- The loop stops at the first member whose read is not `undefined`; the
members after it are not read. -/
theorem firstDefined_skip (f : Val → Except Err Res) (pre rest : List Val) (p1 : Val) (r : Res)
    (hpre : ∀ q ∈ pre, f q = .ok (.val .undef)) (hp1 : f p1 = .ok r)
    (hr : r ≠ .val .undef) : firstDefined f (pre ++ p1 :: rest) = .ok (some r) := by
  induction pre with
  | nil =>
    cases r with
    | fresh a b => simp only [List.nil_append, firstDefined, hp1]
    | val w =>
      cases w with
      | undef => exact absurd rfl hr
      | _ => simp only [List.nil_append, firstDefined, hp1]
  | cons q qs ih =>
    have hq : f q = .ok (.val .undef) := hpre q (List.mem_cons_self _ _)
    simp only [List.cons_append, firstDefined, hq]
    exact ih (fun x hx => hpre x (List.mem_cons_of_mem _ hx))

/-- The trap reads the prototype list of a composite object's target. -/
theorem getProp_protoList (n : Nat) (h : Heap) (o p t s : Nat) (hc : Composite h o p t s) :
    getProp (n + 1) h t "__prototypeList" = .ok (.val (.ref s)) := by
  obtain ⟨tb, ht, htk, htf⟩ := hc.target
  refine getProp_own n h t tb _ _ ht (fun t' => by simp [htk]) ?_
    (isAccessor_of_kind _ _ (by simp [htk]))
  simp [ownProps, exoticProps, htk, htf]

/-- Iterating the prototype list of a composite object yields its members. -/
theorem iterate_protoList (h : Heap) (o p t s : Nat) (hc : Composite h o p t s) :
    iterate h (.val (.ref s)) = .ok (membersOf h s) := by
  obtain ⟨sb, ms, hs, hsk⟩ := hc.list
  simp [iterate, membersOf, hs, hsk]

/-- A read of a name that is not an own field of a composite object runs the
trap on its target. -/
theorem Get_to_trap (n : Nat) (h : Heap) (o p t s : Nat) (k : String)
    (hc : Composite h o p t s) (hown : assocGet (fieldsOf h o) k = none) :
    getProp (n + 2) h o k = handler.get n h t k := by
  obtain ⟨ob, ho, hok, hop⟩ := hc.obj
  obtain ⟨pb, hp, hpk⟩ := hc.proxy
  have hf : fieldsOf h o = ob.fields := by simp [fieldsOf, ho]
  rw [getProp_up (n + 1) h o p ob k ho (fun t' => by simp [hok])
    (by simpa [ownProps, exoticProps, hok, hf] using hown) hop]
  exact getFrom_proxy n h p t pb k o hp hpk

/-- C1 (amended): for a composite object `o` without an own field `k`, where
`k` is none of `prototypes`, `addPrototype`, `removePrototype`, whose prototype
list is `pre ++ p1 :: rest` with `q[k]` undefined for every `q` of `pre` and
`p1[k]` a value `v` other than `undefined`, `Get(o, k)` is `v`, whatever the
members `rest` after `p1` are: they are not consulted. -/
theorem first_match_precedence (n : Nat) (h : Heap) (o p t s : Nat) (k : String) (v : Val)
    (pre rest : List Val) (p1 : Val)
    (hc : Composite h o p t s)
    (hms : membersOf h s = pre ++ p1 :: rest)
    (hown : assocGet (fieldsOf h o) k = none)
    (hk : k ≠ "prototypes" ∧ k ≠ "addPrototype" ∧ k ≠ "removePrototype")
    (hpre : ∀ q ∈ pre, lookup n h q k = .ok (.val .undef))
    (hp1 : lookup n h p1 k = .ok (.val v))
    (hv : v ≠ .undef) :
    Get (n + 2) h o k = .ok (v, h) := by
  obtain ⟨hk1, hk2, hk3⟩ := hk
  cases n with
  | zero =>
    cases p1 <;> simp [lookup, memberGet, getProp, getFrom] at hp1
  | succ m =>
    have hfd := firstDefined_skip (memberGet (fun b n => getProp (m + 1) h b n) k) pre rest p1
      (.val v) hpre hp1 (by simpa using hv)
    simp only [Get, Get_to_trap (m + 1) h o p t s k hc hown, handler.get, handler.getWith,
      hk1, hk2, hk3, or_self, if_false, getProp_protoList m h o p t s hc,
      iterate_protoList h o p t s hc, hms, hfd]

/-- Witness for C1 on `skipHeap` read at `k`: `pre` is `[{k: undefined}]`,
whose read is undefined, and `p1 = {k: 1}` is the first match. -/
theorem first_match_precedence_witness : Get 3 skipHeap 11 "k" = .ok (.num 1, skipHeap) :=
  first_match_precedence 1 skipHeap 11 10 9 8 "k" (.num 1) [.ref 12] [] (.ref 13)
    ⟨⟨_, rfl, rfl, rfl⟩, rfl, ⟨_, rfl, rfl⟩, ⟨_, rfl, rfl, rfl⟩, ⟨_, rfl, rfl⟩,
      ⟨_, _, rfl, rfl⟩, by decide⟩
    rfl rfl (by decide)
    (fun q hq => by
      have hq' : q = Val.ref 12 := by simpa using hq
      subst hq'
      rfl)
    rfl (by simp)

/-- C1 as stated fails. On `skipHeap` the list is `[p1, p2]` with
`p1 = {k: undefined}` and `p2 = {k: 1}`, and `Get(o, k)` is `p2`'s value. On
`threeHeap` the list is `[p0, p1, p2]`, `p1` and `p2` define `k` and
`prototypes` with different values, and `Get(o, k)` is `p0`'s value while
`Get(o, prototypes)` is the prototype list itself. -/
theorem first_match_counterexample :
    (membersOf skipHeap 8 = [.ref 12, .ref 13] ∧
      assocGet (fieldsOf skipHeap 11) "k" = none ∧
      assocGet (fieldsOf skipHeap 12) "k" = some .undef ∧
      assocGet (fieldsOf skipHeap 13) "k" = some (.num 1) ∧
      Get 3 skipHeap 11 "k" = .ok (.num 1, skipHeap)) ∧
    (membersOf threeHeap 8 = [.ref 12, .ref 13, .ref 14] ∧
      assocGet (fieldsOf threeHeap 11) "k" = none ∧
      assocGet (fieldsOf threeHeap 13) "k" = some (.num 1) ∧
      assocGet (fieldsOf threeHeap 14) "k" = some (.num 2) ∧
      Get 3 threeHeap 11 "k" = .ok (.num 0, threeHeap) ∧
      assocGet (fieldsOf threeHeap 11) "prototypes" = none ∧
      assocGet (fieldsOf threeHeap 13) "prototypes" = some (.num 1) ∧
      assocGet (fieldsOf threeHeap 14) "prototypes" = some (.num 2) ∧
      Get 3 threeHeap 11 "prototypes" = .ok (.ref 8, threeHeap)) := by
  refine ⟨⟨rfl, rfl, rfl, rfl, ?_⟩, rfl, rfl, rfl, rfl, ?_, rfl, rfl, rfl, ?_⟩ <;> rfl

/-- A write on a plain object writes the receiver when the object has the
property or ends the chain, and goes on to the prototype otherwise. -/
theorem setProp_plain (n : Nat) (h : Heap) (a : Nat) (ob : Obj) (k : String) (v : Val) (r : Nat)
    (ha : h[a]? = some ob) (hk : ob.kind = .plain) :
    setProp (n + 1) h a k v r =
      match assocGet ob.fields k with
      | some _ => defineOwn h r k v
      | none =>
        match ob.proto with
        | none => defineOwn h r k v
        | some q => setProp n h q k v r := by
  conv_lhs => unfold setProp
  simp only [ha, hk, ownProps, exoticProps, List.nil_append, isAccessor]
  cases assocGet ob.fields k <;> simp

/-- A write of a name other than `__proto__` on `Object.prototype` writes the
receiver when the object has the property or ends the chain. -/
theorem setProp_base (n : Nat) (h : Heap) (a : Nat) (ob : Obj) (k : String) (v : Val) (r : Nat)
    (ha : h[a]? = some ob) (hk : ob.kind = .base) (hn : k ≠ "__proto__") :
    setProp (n + 1) h a k v r =
      match assocGet ob.fields k with
      | some _ => defineOwn h r k v
      | none =>
        match ob.proto with
        | none => defineOwn h r k v
        | some q => setProp n h q k v r := by
  have hn' : ¬ "__proto__" = k := fun e => hn e.symm
  conv_lhs => unfold setProp
  simp only [ha, hk, ownProps, exoticProps, List.cons_append, List.nil_append, assocGet, hn',
    if_false, isAccessor, hn, decide_False]
  cases assocGet ob.fields k <;> simp

/-- A write on a proxy runs the trap on its target. -/
theorem setProp_proxy (n : Nat) (h : Heap) (a t : Nat) (ob : Obj) (k : String) (v : Val) (r : Nat)
    (ha : h[a]? = some ob) (hk : ob.kind = .proxy t) :
    setProp (n + 1) h a k v r = handler.set n h t k v r := by
  conv_lhs => unfold setProp
  simp only [ha, hk, handler.set]

/-- Writing an own property of a plain receiver. -/
theorem defineOwn_plain (h : Heap) (r : Nat) (ob : Obj) (k : String) (v : Val)
    (hr : h[r]? = some ob) (hk : ob.kind = .plain) :
    defineOwn h r k v = .ok (writeField h r k v) := by
  simp [defineOwn, writeField, hr, hk]

/-- A write of a name other than `prototypes` and `__proto__` on a composite
object over a standard base object succeeds and writes the own field of the
object. -/
theorem Set_field (n : Nat) (h : Heap) (o p t s : Nat) (k : String) (v : Val)
    (hc : Composite h o p t s) (hb : StdBase h) (hk : k ≠ "prototypes")
    (hk2 : k ≠ "__proto__") :
    Set (n + 4) h o k v = .ok (writeField h o k v) := by
  obtain ⟨ob, ho, hok, hop⟩ := hc.obj
  obtain ⟨pb, hp, hpk⟩ := hc.proxy
  obtain ⟨tb, ht, htk, -⟩ := hc.target
  obtain ⟨tb', ht', htp⟩ := hc.targetProto
  obtain ⟨bb, hbb, hbk, hbp⟩ := hb
  have htt : tb' = tb := by rw [ht] at ht'; exact (Option.some.inj ht').symm
  subst htt
  have hd := defineOwn_plain h o ob k v ho hok
  rw [Set, setProp_plain (n + 3) h o ob k v o ho hok]
  cases assocGet ob.fields k with
  | some w => exact hd
  | none =>
    simp only [hop]
    rw [setProp_proxy (n + 2) h p t pb k v o hp hpk]
    simp only [handler.set, handler.setWith, hk, if_false]
    rw [setProp_plain (n + 1) h t tb' k v o ht htk]
    cases assocGet tb'.fields k with
    | some w => exact hd
    | none =>
      simp only [htp]
      rw [setProp_base n h objectProto bb k v o hbb hbk hk2]
      cases assocGet bb.fields k with
      | some w => exact hd
      | none => simp only [hbp]; exact hd

/-- After an own field is written, a read of it answers the value written. -/
theorem Get_writeField (m : Nat) (h : Heap) (o : Nat) (ob : Obj) (k : String) (v : Val)
    (ho : h[o]? = some ob) (hok : ob.kind = .plain) :
    Get (m + 1) (writeField h o k v) o k = .ok (v, writeField h o k v) := by
  have hlt : o < h.length := by
    rcases Nat.lt_or_ge o h.length with hl | hl
    · exact hl
    · rw [List.getElem?_eq_none hl] at ho; cases ho
  have hw : (writeField h o k v)[o]? = some { ob with fields := assocSet ob.fields k v } := by
    simp [writeField, ho, List.getElem?_set_self, hlt]
  have := getProp_own m (writeField h o k v) o _ k v hw (fun t' => by simp [hok])
    (by simp [ownProps, exoticProps, hok, assocGet_assocSet_same])
    (isAccessor_of_kind _ _ (by simp [hok]))
  simp [Get, this]

/-- C2 (amended): for every composite object `o` over a standard base object,
every name `k` other than `prototypes` and `__proto__` and every value `v`,
`Set(o, k, v)` succeeds and a following `Get(o, k)` returns `v`, whatever the
prototype list holds. -/
theorem own_field_shadowing (n m : Nat) (h : Heap) (o p t s : Nat) (k : String) (v : Val)
    (hc : Composite h o p t s) (hb : StdBase h) (hk : k ≠ "prototypes")
    (hk2 : k ≠ "__proto__") :
    ∃ h', Set (n + 4) h o k v = .ok h' ∧ Get (m + 1) h' o k = .ok (v, h') := by
  obtain ⟨ob, ho, hok, -⟩ := hc.obj
  exact ⟨writeField h o k v, Set_field n h o p t s k v hc hb hk hk2,
    Get_writeField m h o ob k v ho hok⟩

/-- Witness for C2 on `threeHeap`, whose prototypes all define `k`. -/
theorem own_field_shadowing_witness :
    ∃ h', Set 4 threeHeap 11 "k" (.num 7) = .ok h' ∧ Get 1 h' 11 "k" = .ok (.num 7, h') :=
  own_field_shadowing 0 0 threeHeap 11 10 9 8 "k" (.num 7)
    ⟨⟨_, rfl, rfl, rfl⟩, rfl, ⟨_, rfl, rfl⟩, ⟨_, rfl, rfl, rfl⟩, ⟨_, rfl, rfl⟩,
      ⟨_, _, rfl, rfl⟩, by decide⟩
    ⟨_, rfl, rfl, rfl⟩ (by decide) (by decide)

/-- C2 as stated fails at the name `__proto__`. On `seqHeap`, where the
prototype list of the composite object `o` at 11 is empty, the write
`o['__proto__'] = 7` reaches the accessor of `Object.prototype`, whose setter
drops a value that is neither an object nor `null`: the heap is unchanged, `o`
has no own field `__proto__`, and the read `o['__proto__']`, which the trap
answers from its target, is `Object.prototype`, not 7. -/
theorem own_field_shadowing_counterexample :
    Set 4 seqHeap 11 "__proto__" (.num 7) = .ok seqHeap ∧
      assocGet (fieldsOf seqHeap 11) "__proto__" = none ∧
      Get 4 seqHeap 11 "__proto__" = .ok (.ref objectProto, seqHeap) := by
  refine ⟨rfl, rfl, rfl⟩

theorem lt_of_get (h : Heap) (a : Nat) (ob : Obj) (ha : h[a]? = some ob) : a < h.length := by
  rcases Nat.lt_or_ge a h.length with hl | hl
  · exact hl
  · rw [List.getElem?_eq_none hl] at ha; cases ha

theorem writeField_at (h : Heap) (o : Nat) (ob : Obj) (k : String) (v : Val)
    (ho : h[o]? = some ob) :
    (writeField h o k v)[o]? = some { ob with fields := assocSet ob.fields k v } := by
  simp [writeField, ho, List.getElem?_set_self, lt_of_get h o ob ho]

theorem writeField_other (h : Heap) (o a : Nat) (k : String) (v : Val) (hne : a ≠ o) :
    (writeField h o k v)[a]? = h[a]? := by
  unfold writeField
  cases h[o]? with
  | none => rfl
  | some ob => simp [List.getElem?_set_ne (Ne.symm hne)]

theorem append_get (h l : Heap) (a : Nat) (ob : Obj) (ha : h[a]? = some ob) :
    (h ++ l)[a]? = some ob := by
  rw [List.getElem?_append_left (lt_of_get h a ob ha)]; exact ha

/-- Two addresses holding objects of different kinds are different. -/
theorem ne_of_kind (h : Heap) (a b : Nat) (x y : Obj) (ha : h[a]? = some x) (hb : h[b]? = some y)
    (hk : x.kind ≠ y.kind) : a ≠ b := by
  intro e; subst e; rw [ha] at hb; cases hb; exact hk rfl

/-- Allocation keeps a composite object composite. -/
theorem Composite_append (h l : Heap) (o p t s : Nat) (hc : Composite h o p t s) :
    Composite (h ++ l) o p t s := by
  obtain ⟨ob, ho, hok, hop⟩ := hc.obj
  obtain ⟨pb, hp, hpk⟩ := hc.proxy
  obtain ⟨tb, ht, htk, htf⟩ := hc.target
  obtain ⟨tb', ht', htp⟩ := hc.targetProto
  obtain ⟨sb, ms, hs, hsk⟩ := hc.list
  refine ⟨⟨ob, append_get h l o ob ho, hok, hop⟩, ?_, ⟨pb, append_get h l p pb hp, hpk⟩,
    ⟨tb, append_get h l t tb ht, htk, htf⟩, ⟨tb', append_get h l t tb' ht', htp⟩,
    ⟨sb, ms, append_get h l s sb hs, hsk⟩, hc.apart⟩
  have := hc.noOwn
  simp only [fieldsOf, ho] at this
  simp only [fieldsOf, append_get h l o ob ho]
  exact this

/-- Replacing the prototype list of the target by a Set object keeps a
composite object composite, with the new list. -/
theorem Composite_setList (h : Heap) (o p t s b : Nat) (sb : Obj) (ms : List Val)
    (hc : Composite h o p t s) (hb : h[b]? = some sb) (hbk : sb.kind = .set ms) :
    Composite (writeField h t "__prototypeList" (.ref b)) o p t b := by
  obtain ⟨ob, ho, hok, hop⟩ := hc.obj
  obtain ⟨pb, hp, hpk⟩ := hc.proxy
  obtain ⟨tb, ht, htk, htf⟩ := hc.target
  obtain ⟨tb', ht', htp⟩ := hc.targetProto
  have hpt : p ≠ t := ne_of_kind h p t pb tb hp ht (by simp [hpk, htk])
  have hbt : b ≠ t := ne_of_kind h b t sb tb hb ht (by simp [hbk, htk])
  have htt : tb' = tb := by rw [ht] at ht'; exact (Option.some.inj ht').symm
  subst htt
  refine ⟨⟨ob, ?_, hok, hop⟩, ?_, ⟨pb, ?_, hpk⟩, ⟨_, writeField_at h t tb' _ _ ht, htk, ?_⟩,
    ⟨_, writeField_at h t tb' _ _ ht, htp⟩, ⟨sb, ms, ?_, hbk⟩, hc.apart⟩
  · rw [writeField_other h t o _ _ hc.apart]; exact ho
  · have := hc.noOwn
    simp only [fieldsOf, ho] at this
    simp only [fieldsOf, writeField_other h t o _ _ hc.apart, ho]
    exact this
  · rw [writeField_other h t p _ _ hpt]; exact hp
  · exact assocGet_assocSet_same _ _ _
  · rw [writeField_other h t b _ _ hbt]; exact hb

/-- Writing an own field other than `prototypes` keeps a composite object
composite. -/
theorem Composite_writeField (h : Heap) (o p t s : Nat) (k : String) (v : Val)
    (hc : Composite h o p t s) (hk : k ≠ "prototypes") :
    Composite (writeField h o k v) o p t s := by
  obtain ⟨ob, ho, hok, hop⟩ := hc.obj
  obtain ⟨pb, hp, hpk⟩ := hc.proxy
  obtain ⟨tb, ht, htk, htf⟩ := hc.target
  obtain ⟨tb', ht', htp⟩ := hc.targetProto
  obtain ⟨sb, ms, hs, hsk⟩ := hc.list
  have hpo : p ≠ o := ne_of_kind h p o pb ob hp ho (by simp [hpk, hok])
  have hso : s ≠ o := ne_of_kind h s o sb ob hs ho (by simp [hsk, hok])
  have hto : t ≠ o := Ne.symm hc.apart
  refine ⟨⟨_, writeField_at h o ob k v ho, hok, hop⟩, ?_, ⟨pb, ?_, hpk⟩, ⟨tb, ?_, htk, htf⟩,
    ⟨tb', ?_, htp⟩, ⟨sb, ms, ?_, hsk⟩, hc.apart⟩
  · have := hc.noOwn
    simp only [fieldsOf, ho] at this
    simp only [fieldsOf, writeField_at h o ob k v ho]
    rw [assocGet_assocSet_other _ _ _ _ (Ne.symm hk)]
    exact this
  · rw [writeField_other h o p _ _ hpo]; exact hp
  · rw [writeField_other h o t _ _ hto]; exact ht
  · rw [writeField_other h o t _ _ hto]; exact ht'
  · rw [writeField_other h o s _ _ hso]; exact hs

/-- Reading `prototypes` on a composite object answers its prototype list. -/
theorem Get_prototypes (m : Nat) (h : Heap) (o p t s : Nat) (hc : Composite h o p t s) :
    Get (m + 3) h o "prototypes" = .ok (.ref s, h) := by
  have h1 := Get_to_trap (m + 1) h o p t s "prototypes" hc hc.noOwn
  have h2 := getProp_protoList m h o p t s hc
  have e1 : ¬ ("prototypes" = "addPrototype" ∨ "prototypes" = "removePrototype") := by decide
  simp only [Get, h1, handler.get, handler.getWith, e1, if_false, if_true, h2]

theorem foldl_setAdd (xs acc : List Val) :
    xs.foldl setAdd acc = acc ++ (firstSeen xs).filter (fun y => decide (y ∉ acc)) := by
  induction xs generalizing acc with
  | nil => simp [firstSeen]
  | cons x xs ih =>
    simp only [List.foldl_cons, firstSeen]
    rw [ih]
    by_cases hx : x ∈ acc
    · have e1 : setAdd acc x = acc := by simp [setAdd, hx]
      rw [e1, List.filter_cons]
      simp only [hx, not_true_eq_false, decide_False, Bool.false_eq_true, if_false,
        List.filter_filter]
      congr 1
      apply List.filter_congr
      intro y _
      by_cases hy : y ∈ acc
      · simp [hy]
      · have : y ≠ x := fun e => hy (e ▸ hx)
        simp [hy, this]
    · have e1 : setAdd acc x = acc ++ [x] := by simp [setAdd, hx]
      rw [e1, List.filter_cons]
      simp only [hx, not_false_eq_true, decide_True, if_true, List.filter_filter,
        List.append_assoc, List.singleton_append]
      congr 2
      apply List.filter_congr
      intro y _
      by_cases hy : y ∈ acc
      · simp [hy]
      · by_cases hyx : y = x
        · simp [hyx]
        · simp [hy, hyx]

/-- The code's `new Set(xs)` is the specification's first-seen deduplication. -/
theorem setFromList_eq_firstSeen (xs : List Val) : setFromList xs = firstSeen xs := by
  simp [setFromList, foldl_setAdd]

/-- A write of `prototypes` on a composite object runs the `set` trap on the
target with that name. -/
theorem Set_to_trap (n : Nat) (h : Heap) (o p t s : Nat) (X : Val) (hc : Composite h o p t s) :
    Set (n + 2) h o "prototypes" X = handler.set n h t "prototypes" X o := by
  obtain ⟨ob, ho, hok, hop⟩ := hc.obj
  obtain ⟨pb, hp, hpk⟩ := hc.proxy
  have hno := hc.noOwn
  simp only [fieldsOf, ho] at hno
  rw [Set, setProp_plain (n + 1) h o ob _ X o ho hok]
  simp only [hno, hop]
  exact setProp_proxy n h p t pb _ X o hp hpk

/-- The assignment `target.__prototypeList = value` on the target of a
composite object. -/
theorem setProp_protoList (n : Nat) (h : Heap) (o p t s : Nat) (X : Val)
    (hc : Composite h o p t s) :
    setProp (n + 1) h t "__prototypeList" X t = .ok (writeField h t "__prototypeList" X) := by
  obtain ⟨tb, ht, htk, htf⟩ := hc.target
  rw [setProp_plain n h t tb _ X t ht htk]
  simp only [htf]
  exact defineOwn_plain h t tb _ X ht htk

/-- Assigning a value that is an instance of `Set` to `prototypes` stores that
value. -/
theorem Set_prototypes_set (n : Nat) (h : Heap) (o p t s : Nat) (X : Val)
    (hc : Composite h o p t s) (hs : instanceOf (n + 1) h X setProto = .ok true) :
    Set (n + 3) h o "prototypes" X = .ok (writeField h t "__prototypeList" X) := by
  rw [Set_to_trap (n + 1) h o p t s _ hc]
  simp only [handler.set, handler.setWith, if_true, hs]
  exact setProp_protoList n h o p t s _ hc

/-- Assigning an Array object that is an instance of `Array` and not of `Set`
to `prototypes` stores a new Set object built from its elements. -/
theorem Set_prototypes_array (n : Nat) (h : Heap) (o p t s : Nat) (X : Val) (es : List Val)
    (hc : Composite h o p t s) (hs : instanceOf (n + 1) h X setProto = .ok false)
    (ha : instanceOf (n + 1) h X arrayProto = .ok true) (he : arrayElems h X = .ok es) :
    Set (n + 3) h o "prototypes" X =
      .ok (writeField (h ++ [setObj (setFromList es)]) t "__prototypeList" (.ref h.length)) := by
  rw [Set_to_trap (n + 1) h o p t s _ hc]
  simp only [handler.set, handler.setWith, if_true, hs, ha, he]
  exact setProp_protoList n _ o p t s _ (Composite_append h _ o p t s hc)

/-- Assigning a value that is an instance of neither `Set` nor `Array` to
`prototypes` throws before any write. -/
theorem Set_prototypes_other (n : Nat) (h : Heap) (o p t s : Nat) (X : Val)
    (hc : Composite h o p t s) (hs : instanceOf (n + 1) h X setProto = .ok false)
    (ha : instanceOf (n + 1) h X arrayProto = .ok false) :
    Set (n + 3) h o "prototypes" X = .error (.protoError, h) := by
  rw [Set_to_trap (n + 1) h o p t s _ hc]
  simp only [handler.set, handler.setWith, if_true, hs, ha]

/-- Assigning an instance of `Array` that is no Array object to `prototypes`:
its iteration by `new Set` is outside the model, and the write answers so
before any change. -/
theorem Set_prototypes_unmodelled (n : Nat) (h : Heap) (o p t s : Nat) (X : Val) (e : Err)
    (hc : Composite h o p t s) (hs : instanceOf (n + 1) h X setProto = .ok false)
    (ha : instanceOf (n + 1) h X arrayProto = .ok true) (he : arrayElems h X = .error e) :
    Set (n + 3) h o "prototypes" X = .error (e, h) := by
  rw [Set_to_trap (n + 1) h o p t s _ hc]
  simp only [handler.set, handler.setWith, if_true, hs, ha, he]

theorem membersOf_writeField (h : Heap) (t b : Nat) (k : String) (v : Val) (hne : b ≠ t) :
    membersOf (writeField h t k v) b = membersOf h b := by
  simp [membersOf, writeField_other h t b k v hne]

/-- The composite-object facts of the example heaps, whose object is at 11. -/
theorem seqHeap_composite : Composite seqHeap 11 10 9 8 :=
  ⟨⟨_, rfl, rfl, rfl⟩, rfl, ⟨_, rfl, rfl⟩, ⟨_, rfl, rfl, rfl⟩, ⟨_, rfl, rfl⟩,
    ⟨_, _, rfl, rfl⟩, by decide⟩

/-- C3 (amended): for every composite object `o`, after
`Set(o, 'prototypes', x)` with `x` an Array object of elements `es` that is an
instance of `Array` and not of `Set` (`Array.prototype` is on its prototype
chain, `Set.prototype` is not), `Get(o, 'prototypes')` yields a Set object
whose members are `es` with duplicates removed in first-seen order; with `x` a
Set object of members `ms` that is an instance of `Set`, it yields `x` itself,
with the same members in the same order. -/
theorem prototypes_round_trip (n m : Nat) (h : Heap) (o p t s a : Nat) (ab : Obj)
    (hc : Composite h o p t s) (ha : h[a]? = some ab) :
    (∀ es, ab.kind = .array es → instanceOf (n + 1) h (.ref a) setProto = .ok false →
      instanceOf (n + 1) h (.ref a) arrayProto = .ok true →
      ∃ h' s', Set (n + 3) h o "prototypes" (.ref a) = .ok h' ∧
        Get (m + 3) h' o "prototypes" = .ok (.ref s', h') ∧
        membersOf h' s' = firstSeen es) ∧
    (∀ ms, ab.kind = .set ms → instanceOf (n + 1) h (.ref a) setProto = .ok true →
      ∃ h', Set (n + 3) h o "prototypes" (.ref a) = .ok h' ∧
        Get (m + 3) h' o "prototypes" = .ok (.ref a, h') ∧
        membersOf h' a = ms) := by
  obtain ⟨tb, ht, htk, -⟩ := hc.target
  constructor
  · intro es hes hs1 hs2
    have hc1 := Composite_append h [setObj (setFromList es)] o p t s hc
    have hnew : (h ++ [setObj (setFromList es)])[h.length]? = some (setObj (setFromList es)) :=
      List.getElem?_concat_length h _
    have hc2 := Composite_setList _ o p t s h.length _ (setFromList es) hc1 hnew rfl
    have hne : h.length ≠ t := Nat.ne_of_gt (lt_of_get h t tb ht)
    have hel : arrayElems h (.ref a) = .ok es := by simp [arrayElems, ha, hes]
    refine ⟨_, h.length, Set_prototypes_array n h o p t s _ es hc hs1 hs2 hel,
      Get_prototypes m _ o p t h.length hc2, ?_⟩
    rw [membersOf_writeField _ t h.length _ _ hne, ← setFromList_eq_firstSeen]
    simp [membersOf, hnew, setObj]
  · intro ms hms hs1
    have hc2 := Composite_setList h o p t s a ab ms hc ha hms
    have hne : a ≠ t := ne_of_kind h a t ab tb ha ht (by simp [hms, htk])
    refine ⟨_, Set_prototypes_set n h o p t s _ hc hs1,
      Get_prototypes m _ o p t a hc2, ?_⟩
    rw [membersOf_writeField _ t a _ _ hne]
    simp [membersOf, ha, hms]

/-- Witness for C3 on `seqHeap`: the array `[p1, p2, p1]` is read back as the
set `{p1, p2}` in that order. -/
theorem prototypes_round_trip_witness :
    ∃ h' s', Set 5 seqHeap 11 "prototypes" (.ref 14) = .ok h' ∧
      Get 3 h' 11 "prototypes" = .ok (.ref s', h') ∧
      membersOf h' s' = [.ref 12, .ref 13] :=
  (prototypes_round_trip 2 0 seqHeap 11 10 9 8 14 _ seqHeap_composite rfl).1 _ rfl rfl rfl

/-- C3 as stated fails for a sequence that is not an instance of `Array`. On
`seqHeap` the built-in `Array.prototype` is an Array object, the empty
sequence, whose `[[Prototype]]` is `Object.prototype`: it is an instance of
neither `Set` nor `Array`, the write `o.prototypes = Array.prototype` throws,
and a following `Get(o, 'prototypes')` still yields the previous list. -/
theorem prototypes_round_trip_counterexample :
    (∃ ab, seqHeap[arrayProto]? = some ab ∧ ab.kind = .array [] ∧
      ab.proto = some objectProto) ∧
    instanceOf 3 seqHeap (.ref arrayProto) setProto = .ok false ∧
    instanceOf 3 seqHeap (.ref arrayProto) arrayProto = .ok false ∧
    Set 5 seqHeap 11 "prototypes" (.ref arrayProto) = .error (.protoError, seqHeap) ∧
    Get 3 seqHeap 11 "prototypes" = .ok (.ref 8, seqHeap) :=
  ⟨⟨_, rfl, rfl, rfl⟩, rfl, rfl, rfl, rfl⟩

/-- C4 (amended): for every composite object `o` and every value `X` for which
the two tests `X instanceof Set` and `X instanceof Array` complete,
`Set(o, 'prototypes', X)` throws the error of the trap if and only if `X` is an
instance of neither `Set` nor `Array`, that is, neither `Set.prototype` nor
`Array.prototype` is on the prototype chain of `X`; an instance of `Set`, and
an Array object that is an instance of `Array`, are accepted; and whenever the
write fails, the heap at the throw is the heap before the call. -/
theorem invalid_assignment_rejection (n : Nat) (h : Heap) (o p t s : Nat) (X : Val)
    (bs ba : Bool) (hc : Composite h o p t s)
    (hs : instanceOf (n + 1) h X setProto = .ok bs)
    (ha : instanceOf (n + 1) h X arrayProto = .ok ba) :
    ((∃ h', Set (n + 3) h o "prototypes" X = .error (.protoError, h')) ↔
      (bs = false ∧ ba = false)) ∧
    (bs = true → ∃ h', Set (n + 3) h o "prototypes" X = .ok h') ∧
    (bs = false → ba = true → ∀ es, arrayElems h X = .ok es →
      ∃ h', Set (n + 3) h o "prototypes" X = .ok h') ∧
    (∀ e h', Set (n + 3) h o "prototypes" X = .error (e, h') → h' = h) := by
  cases bs with
  | true =>
    have hr := Set_prototypes_set n h o p t s X hc hs
    refine ⟨⟨fun ⟨h', he⟩ => ?_, fun hf => by simp at hf⟩, fun _ => ⟨_, hr⟩,
      (fun hf => by cases hf), ?_⟩
    · rw [hr] at he; cases he
    · intro e h' he
      rw [hr] at he; cases he
  | false =>
    cases ba with
    | false =>
      have hr := Set_prototypes_other n h o p t s X hc hs ha
      refine ⟨⟨fun _ => ⟨rfl, rfl⟩, fun _ => ⟨_, hr⟩⟩, (fun hf => by cases hf),
        (fun _ hf => by cases hf), ?_⟩
      intro e h' he
      rw [hr] at he
      injection he with he
      injection he with h1 h2
      exact h2.symm
    | true =>
      cases hel : arrayElems h X with
      | ok es =>
        have hr := Set_prototypes_array n h o p t s X es hc hs ha hel
        refine ⟨⟨fun ⟨h', he⟩ => ?_, fun hf => by simp at hf⟩, (fun hf => by cases hf),
          (fun _ _ _ _ => ⟨_, hr⟩), ?_⟩
        · rw [hr] at he; cases he
        · intro e h' he
          rw [hr] at he; cases he
      | error e0 =>
        have hr := Set_prototypes_unmodelled n h o p t s X e0 hc hs ha hel
        have he0 : e0 = .unmodelled := by
          unfold arrayElems at hel
          split at hel
          · split at hel
            · injection hel with hel; exact hel.symm
            · split at hel
              · cases hel
              · injection hel with hel; exact hel.symm
          · injection hel with hel; exact hel.symm
        subst he0
        refine ⟨⟨fun ⟨h', he⟩ => ?_, fun hf => by simp at hf⟩, (fun hf => by cases hf),
          (fun _ _ es hes => by cases hes), ?_⟩
        · rw [hr] at he
          injection he with he
          injection he with h1 h2
          cases h1
        · intro e h' he
          rw [hr] at he
          injection he with he
          injection he with h1 h2
          exact h2.symm

/-- Witness for C4 on `seqHeap` with `X = 42`. -/
theorem invalid_assignment_rejection_witness :
    ((∃ h', Set 3 seqHeap 11 "prototypes" (.num 42) = .error (.protoError, h')) ↔
      (false = false ∧ false = false)) ∧
    (false = true → ∃ h', Set 3 seqHeap 11 "prototypes" (.num 42) = .ok h') ∧
    (false = false → false = true → ∀ es, arrayElems seqHeap (.num 42) = .ok es →
      ∃ h', Set 3 seqHeap 11 "prototypes" (.num 42) = .ok h') ∧
    (∀ e h', Set 3 seqHeap 11 "prototypes" (.num 42) = .error (e, h') → h' = seqHeap) :=
  invalid_assignment_rejection 0 seqHeap 11 10 9 8 (.num 42) false false seqHeap_composite
    rfl rfl

/-- C4 as stated fails in both directions. On `instHeap` the built-in
`Array.prototype` is an Array object, yet `o.prototypes = Array.prototype`
throws; the object `Object.create(Set.prototype)` at 12 is neither a Set object
nor an Array object, yet the write succeeds and stores it as the prototype
list. -/
theorem invalid_assignment_counterexample :
    (isSetOrArray instHeap (.ref arrayProto) = true ∧
      Set 5 instHeap 11 "prototypes" (.ref arrayProto) = .error (.protoError, instHeap)) ∧
    (isSetOrArray instHeap (.ref 12) = false ∧
      Set 5 instHeap 11 "prototypes" (.ref 12) =
        .ok (writeField instHeap 9 "__prototypeList" (.ref 12))) :=
  ⟨⟨rfl, rfl⟩, rfl, rfl⟩

/-- A successful write of a name other than `prototypes` and `__proto__` is a
write of the receiver's own property, whatever chain the write walked. -/
theorem setProp_define (fuel : Nat) : ∀ (h : Heap) (a : Nat) (k : String) (v : Val) (r : Nat)
    (h' : Heap), k ≠ "prototypes" → k ≠ "__proto__" → setProp fuel h a k v r = .ok h' →
    defineOwn h r k v = .ok h' := by
  induction fuel with
  | zero => intro h a k v r h' _ _ hs; simp [setProp] at hs
  | succ n ih =>
    intro h a k v r h' hk hk2 hs
    unfold setProp at hs
    cases ha : h[a]? with
    | none => simp [ha] at hs
    | some ob =>
      have hacc : isAccessor ob k = false := isAccessor_of_name ob k hk2
      simp only [ha, hacc, Bool.false_eq_true, if_false] at hs
      split at hs
      · simp only [handler.setWith, hk, if_false] at hs
        exact ih _ _ _ _ _ _ hk hk2 hs
      · split at hs
        · cases hs
        · split at hs
          · exact hs
          · split at hs
            · exact hs
            · exact ih _ _ _ _ _ _ hk hk2 hs
      · split at hs
        · exact hs
        · split at hs
          · exact hs
          · exact ih _ _ _ _ _ _ hk hk2 hs

/-- A call in the model never completes normally: the closures only call
what they find for their name on `Object.prototype`, and no body of a function
found there is modelled. -/
theorem callClosure_not_ok (fuel : Nat) : ∀ (h : Heap) (f x : Val) (r : Val × Heap),
    callClosure fuel h f x ≠ .ok r := by
  induction fuel with
  | zero => intro h f x r; simp [callClosure]
  | succ n ih =>
    intro h f x r hs
    unfold callClosure at hs
    split at hs
    · split at hs
      · cases hs
      · split at hs
        · split at hs
          · cases hs
          · split at hs
            · exact ih _ _ _ _ hs
            · split at hs
              · cases hs
              · cases hs
              · exact ih _ _ _ _ hs
        · cases hs
        · cases hs
    · cases hs

theorem append_get_right (h l : Heap) (i : Nat) : (h ++ l)[h.length + i]? = l[i]? := by
  rw [List.getElem?_append_right (Nat.le_add_right _ _), Nat.add_sub_cancel_left]

/-- The four objects `newObject` allocates form a composite object. -/
theorem Composite_fresh (h0 : Heap) :
    Composite (h0 ++ [setObj [],
      { kind := .plain, fields := [("__prototypeList", .ref h0.length)],
        proto := some objectProto },
      { kind := .proxy (h0.length + 1), fields := [], proto := none },
      { kind := .plain, fields := [], proto := some (h0.length + 2) }])
      (h0.length + 3) (h0.length + 2) (h0.length + 1) h0.length := by
  refine ⟨⟨{ kind := .plain, fields := [], proto := some (h0.length + 2) }, ?_, rfl, rfl⟩, ?_,
    ⟨{ kind := .proxy (h0.length + 1), fields := [], proto := none }, ?_, rfl⟩,
    ⟨{ kind := .plain, fields := [("__prototypeList", .ref h0.length)],
        proto := some objectProto }, ?_, rfl, rfl⟩,
    ⟨{ kind := .plain, fields := [("__prototypeList", .ref h0.length)],
        proto := some objectProto }, ?_, rfl⟩,
    ⟨setObj [], [], ?_, rfl⟩, by omega⟩
  · exact append_get_right h0 _ 3
  · simp only [fieldsOf, append_get_right h0 _ 3]
    rfl
  · exact append_get_right h0 _ 2
  · exact append_get_right h0 _ 1
  · exact append_get_right h0 _ 1
  · exact append_get_right h0 _ 0

/-- A composite object is wired to its proxy and target, with its Set object
as prototype list. -/
theorem Composite_wired (h : Heap) (o p t s : Nat) (hc : Composite h o p t s) :
    Wired h o p t (.ref s) :=
  ⟨hc.obj, hc.noOwn, hc.proxy, hc.target, hc.apart⟩

/-- Allocation keeps an object wired. -/
theorem Wired_append (h l : Heap) (o p t : Nat) (L : Val) (hw : Wired h o p t L) :
    Wired (h ++ l) o p t L := by
  obtain ⟨ob, ho, hok, hop⟩ := hw.obj
  obtain ⟨pb, hp, hpk⟩ := hw.proxy
  obtain ⟨tb, ht, htk, htf⟩ := hw.target
  refine ⟨⟨ob, append_get h l o ob ho, hok, hop⟩, ?_, ⟨pb, append_get h l p pb hp, hpk⟩,
    ⟨tb, append_get h l t tb ht, htk, htf⟩, hw.apart⟩
  have := hw.noOwn
  simp only [fieldsOf, ho] at this
  simp only [fieldsOf, append_get h l o ob ho]
  exact this

/-- Replacing the prototype list of the target keeps the object wired, with
the new list. -/
theorem Wired_setList (h : Heap) (o p t : Nat) (L X : Val) (hw : Wired h o p t L) :
    Wired (writeField h t "__prototypeList" X) o p t X := by
  obtain ⟨ob, ho, hok, hop⟩ := hw.obj
  obtain ⟨pb, hp, hpk⟩ := hw.proxy
  obtain ⟨tb, ht, htk, htf⟩ := hw.target
  have hpt : p ≠ t := ne_of_kind h p t pb tb hp ht (by simp [hpk, htk])
  refine ⟨⟨ob, ?_, hok, hop⟩, ?_, ⟨pb, ?_, hpk⟩, ⟨_, writeField_at h t tb _ _ ht, htk, ?_⟩,
    hw.apart⟩
  · rw [writeField_other h t o _ _ hw.apart]; exact ho
  · have := hw.noOwn
    simp only [fieldsOf, ho] at this
    simp only [fieldsOf, writeField_other h t o _ _ hw.apart, ho]
    exact this
  · rw [writeField_other h t p _ _ hpt]; exact hp
  · exact assocGet_assocSet_same _ _ _

/-- Writing an own field other than `prototypes` keeps the object wired. -/
theorem Wired_writeField (h : Heap) (o p t : Nat) (L : Val) (k : String) (v : Val)
    (hw : Wired h o p t L) (hk : k ≠ "prototypes") :
    Wired (writeField h o k v) o p t L := by
  obtain ⟨ob, ho, hok, hop⟩ := hw.obj
  obtain ⟨pb, hp, hpk⟩ := hw.proxy
  obtain ⟨tb, ht, htk, htf⟩ := hw.target
  have hpo : p ≠ o := ne_of_kind h p o pb ob hp ho (by simp [hpk, hok])
  have hto : t ≠ o := Ne.symm hw.apart
  refine ⟨⟨_, writeField_at h o ob k v ho, hok, hop⟩, ?_, ⟨pb, ?_, hpk⟩, ⟨tb, ?_, htk, htf⟩,
    hw.apart⟩
  · have := hw.noOwn
    simp only [fieldsOf, ho] at this
    simp only [fieldsOf, writeField_at h o ob k v ho]
    rw [assocGet_assocSet_other _ _ _ _ (Ne.symm hk)]
    exact this
  · rw [writeField_other h o p _ _ hpo]; exact hp
  · rw [writeField_other h o t _ _ hto]; exact ht

/-- Reading `prototypes` on a wired object answers the prototype list its
target holds. -/
theorem Get_prototypes_wired (m : Nat) (h : Heap) (o p t : Nat) (L : Val)
    (hw : Wired h o p t L) : Get (m + 3) h o "prototypes" = .ok (L, h) := by
  obtain ⟨ob, ho, hok, hop⟩ := hw.obj
  obtain ⟨pb, hp, hpk⟩ := hw.proxy
  obtain ⟨tb, ht, htk, htf⟩ := hw.target
  have hno := hw.noOwn
  simp only [fieldsOf, ho] at hno
  have h1 : getProp (m + 3) h o "prototypes" = handler.get (m + 1) h t "prototypes" := by
    rw [getProp_up (m + 2) h o p ob _ ho (fun t' => by simp [hok])
      (by simpa [ownProps, exoticProps, hok] using hno) hop]
    exact getFrom_proxy (m + 1) h p t pb _ o hp hpk
  have h2 : getProp (m + 1) h t "__prototypeList" = .ok (.val L) :=
    getProp_own m h t tb _ _ ht (fun t' => by simp [htk])
      (by simp [ownProps, exoticProps, htk, htf]) (isAccessor_of_kind _ _ (by simp [htk]))
  have e1 : ¬ ("prototypes" = "addPrototype" ∨ "prototypes" = "removePrototype") := by decide
  have h3 : handler.get (m + 1) h t "prototypes" = .ok (.val L) := by
    simp only [handler.get, handler.getWith, e1, if_false, if_true]
    exact h2
  simp only [Get, h1, h3]

/-- A write of `prototypes` on a wired object that succeeds stores a new
prototype list in the target, after at most one allocation. -/
theorem Set_prototypes_wired (fuel : Nat) (h : Heap) (o p t : Nat) (L v : Val) (h' : Heap)
    (hw : Wired h o p t L) (hs : Set fuel h o "prototypes" v = .ok h') :
    ∃ L', Wired h' o p t L' := by
  obtain ⟨ob, ho, hok, hop⟩ := hw.obj
  obtain ⟨pb, hp, hpk⟩ := hw.proxy
  obtain ⟨tb, ht, htk, htf⟩ := hw.target
  have hno := hw.noOwn
  simp only [fieldsOf, ho] at hno
  have hlist : ∀ (n : Nat) (H : Heap) (X : Val) (H' : Heap), Wired H o p t L →
      setProp n H t "__prototypeList" X t = .ok H' → Wired H' o p t X := by
    intro n H X H' hW hS
    obtain ⟨tb2, ht2, htk2, htf2⟩ := hW.target
    cases n with
    | zero => simp [setProp] at hS
    | succ m =>
      rw [setProp_plain m H t tb2 _ X t ht2 htk2] at hS
      simp only [htf2] at hS
      rw [defineOwn_plain H t tb2 _ X ht2 htk2] at hS
      injection hS with hS
      subst hS
      exact Wired_setList H o p t L X hW
  match fuel, hs with
  | 0, hs => simp [Set, setProp] at hs
  | 1, hs =>
    rw [Set, setProp_plain 0 h o ob _ v o ho hok] at hs
    simp [hno, hop, setProp] at hs
  | n + 2, hs =>
    rw [Set, setProp_plain (n + 1) h o ob _ v o ho hok] at hs
    simp only [hno, hop] at hs
    rw [setProp_proxy n h p t pb _ v o hp hpk] at hs
    simp only [handler.set, handler.setWith, if_true] at hs
    split at hs
    · cases hs
    · exact ⟨_, hlist _ _ _ _ hw hs⟩
    · split at hs
      · cases hs
      · split at hs
        · cases hs
        · exact ⟨_, hlist _ _ _ _ (Wired_append h _ o p t L hw) hs⟩
      · cases hs

/-- Every successful `Set(o, k, v)` of a name other than `__proto__` on a wired
object leaves it wired (with the prototype list the write installed, if
any). -/
theorem Set_preserves (fuel : Nat) (h : Heap) (o p t : Nat) (L : Val) (k : String) (v : Val)
    (h' : Heap) (hw : Wired h o p t L) (hk2 : k ≠ "__proto__")
    (hs : Set fuel h o k v = .ok h') :
    ∃ L', Wired h' o p t L' := by
  obtain ⟨ob, ho, hok, hop⟩ := hw.obj
  by_cases hk : k = "prototypes"
  · subst hk
    exact Set_prototypes_wired fuel h o p t L v h' hw hs
  · have hd := setProp_define fuel h o k v o h' hk hk2 hs
    rw [defineOwn_plain h o ob k v ho hok] at hd
    injection hd with hd
    subst hd
    exact ⟨L, Wired_writeField h o p t L k v hw hk⟩

/-- The writes of `Object.assign(o, _from)` leave the object wired when no
property copied is named `__proto__`. -/
theorem assignAll_preserves (fuel : Nat) (o p t : Nat) (ps : List (String × Val)) :
    ∀ (h h' : Heap) (L : Val), Wired h o p t L → (∀ kv ∈ ps, kv.1 ≠ "__proto__") →
    assignAll fuel h o ps = .ok h' → ∃ L', Wired h' o p t L' := by
  induction ps with
  | nil =>
    intro h h' L hw _ hs
    simp only [assignAll] at hs
    injection hs with hs
    subst hs
    exact ⟨L, hw⟩
  | cons x xs ih =>
    intro h h' L hw hps hs
    obtain ⟨k, v⟩ := x
    simp only [assignAll] at hs
    cases h1 : Set fuel h o k v with
    | error e => simp [h1] at hs
    | ok h2 =>
      simp only [h1] at hs
      obtain ⟨L2, hw2⟩ := Set_preserves fuel h o p t L k v h2 hw
        (hps (k, v) (List.mem_cons_self _ _)) h1
      exact ih h2 h' L2 hw2 (fun kv hkv => hps kv (List.mem_cons_of_mem _ hkv)) hs

/-- A list of properties without the key `k` has no entry under `k`. -/
theorem ne_of_assocGet_none (ps : List (String × Val)) (k : String)
    (hn : assocGet ps k = none) : ∀ kv ∈ ps, kv.1 ≠ k := by
  induction ps with
  | nil => intro kv hkv; cases hkv
  | cons x xs ih =>
    obtain ⟨k', v'⟩ := x
    intro kv hkv
    by_cases hk : k' = k
    · simp [assocGet, hk] at hn
    · simp only [assocGet, hk, if_false] at hn
      rcases List.mem_cons.mp hkv with e | e
      · subst e; exact hk
      · exact ih hn kv e

/-- A read leaves an object wired: it allocates at most one closure. -/
theorem Get_preserves (fuel : Nat) (h : Heap) (a : Nat) (k : String) (v : Val) (h' : Heap)
    (o p t : Nat) (L : Val) (hw : Wired h o p t L) (hg : Get fuel h a k = .ok (v, h')) :
    Wired h' o p t L := by
  unfold Get at hg
  split at hg
  · cases hg
  · injection hg with hg; injection hg with _ hg; subst hg; exact hw
  · injection hg with hg; injection hg with _ hg; subst hg
    exact Wired_append h _ o p t L hw

theorem objectAssign_preserves (fuel : Nat) (h h' : Heap) (o p t : Nat) (L : Val) (frm : Val)
    (hw : Wired h o p t L) (hseed : SeedLacksProto h frm)
    (hs : objectAssign fuel h o frm = .ok h') :
    ∃ L', Wired h' o p t L' := by
  unfold objectAssign at hs
  split at hs
  · rename_i a
    split at hs
    · cases hs
    · rename_i sb hsb
      split at hs
      · cases hs
      · exact assignAll_preserves fuel o p t _ h h' L hw
          (ne_of_assocGet_none _ _ (hseed a sb rfl hsb)) hs
  · injection hs with hs; subst hs; exact ⟨L, hw⟩

/-- Whatever `newObject` returns for a seed without an own enumerable property
`__proto__` is wired to its proxy and target. -/
theorem newObject_wired (fuel : Nat) (h0 : Heap) (seed : Val) (o : Nat) (h : Heap)
    (hseed : SeedLacksProto h0 seed)
    (hs : newObject fuel h0 seed = .ok (.ref o, h)) : ∃ p t L, Wired h o p t L := by
  unfold newObject at hs
  simp only at hs
  have hc1 := Composite_wired _ _ _ _ _ (Composite_fresh h0)
  split at hs
  · cases hs
  · rename_i h3 hassign
    split at hs
    · rename_i a hfrom
      split at hs
      · cases hs
      · rename_i c h4 hget
        have hc2 : ∃ L', Wired h3 (h0.length + 3) (h0.length + 2) (h0.length + 1) L' := by
          by_cases hty : typeofObject h0 seed = true
          · simp only [hty, if_true] at hassign
            refine objectAssign_preserves fuel _ h3 _ _ _ _ _ hc1 ?_ hassign
            intro b sb hb hsb
            subst hb
            have hlt : b < h0.length := by
              have : typeofObject h0 (.ref b) = true := hty
              simp only [typeofObject] at this
              cases hb0 : h0[b]? with
              | none => simp [hb0] at this
              | some x => exact lt_of_get h0 b x hb0
            rw [List.getElem?_append_left hlt] at hsb
            exact hseed b sb rfl hsb
          · simp only [hty] at hassign
            refine objectAssign_preserves fuel _ h3 _ _ _ _ _
              (Wired_append _ _ _ _ _ _ hc1) ?_ hassign
            intro b sb hb hsb
            injection hb with hb
            subst hb
            have e : ((h0 ++ [setObj [],
                { kind := .plain, fields := [("__prototypeList", .ref h0.length)],
                  proto := some objectProto },
                { kind := .proxy (h0.length + 1), fields := [], proto := none },
                { kind := .plain, fields := [], proto := some (h0.length + 2) }]) ++
                [{ kind := .plain, fields := [], proto := some objectProto }])[h0.length + 4]? =
                some { kind := .plain, fields := [], proto := some objectProto } := by
              rw [List.getElem?_append_right (by simp)]
              simp
            rw [e] at hsb
            injection hsb with hsb
            subst hsb
            rfl
        obtain ⟨L', hc3⟩ := hc2
        have hc4 := Get_preserves fuel h3 a "constructor" c h4 _ _ _ _ hc3 hget
        split at hs
        · split at hs
          · cases hs
          · split at hs
            · cases hs
            · split at hs
              · cases hs
              · rename_i hcall
                exact absurd hcall (callClosure_not_ok _ _ _ _ _)
        · injection hs with hs
          injection hs with ho hh
          injection ho with ho
          subst ho; subst hh
          exact ⟨_, _, _, hc4⟩
    · cases hs

/-- Every heap reachable from `newObject` by writes on `o` of names other than
`__proto__` holds `o` wired to its proxy and target. -/
theorem Reachable_wired (o : Nat) (h : Heap) (hr : Reachable o h) :
    ∃ p t L, Wired h o p t L := by
  induction hr with
  | create fuel h0 seed h hseed hs => exact newObject_wired fuel h0 seed o h hseed hs
  | write fuel h k v h' _ hk hs ih =>
    obtain ⟨p, t, L, hw⟩ := ih
    obtain ⟨L', hw'⟩ := Set_preserves fuel h o p t L k v h' hw hk hs
    exact ⟨p, t, L', hw'⟩

/-- C5 (amended): for every object `o` that `newObject` returns for a seed
without an own enumerable property `__proto__` and that is then written by any
sequence of `Set(o, k, v)` on names other than `__proto__`, `o` still inherits
from its proxy and `Get(o, 'prototypes')` returns the value held in
`__prototypeList` of its target, its current prototype list: never an own field
of `o` and never a field of a prototype. -/
theorem reserved_name_protection (o : Nat) (h : Heap) (hr : Reachable o h) :
    ∃ p t L, Wired h o p t L ∧
      ∀ m, Get (m + 3) h o "prototypes" = .ok (L, h) := by
  obtain ⟨p, t, L, hw⟩ := Reachable_wired o h hr
  exact ⟨p, t, L, hw, fun m => Get_prototypes_wired m h o p t L hw⟩

/-- Witness for C5: `o = newObject()` on `seedHeap`, then `o.prototypes = [q]`
with `q = {prototypes: 1}`. -/
theorem reserved_name_protection_witness :
    ∃ p t L, Wired seedHeapAfter 13 p t L ∧
      ∀ m, Get (m + 3) seedHeapAfter 13 "prototypes" = .ok (L, seedHeapAfter) :=
  reserved_name_protection 13 seedHeapAfter
    (Reachable.write 5 _ "prototypes" (.ref 9) _
      (Reachable.create 3 seedHeap .undef _ (fun a sb e _ => by cases e) rfl) (by decide) rfl)

/-- C5 as stated fails after a write of `__proto__`. On `seedHeap`, with
`q = {prototypes: 1}` at 8, `o = newObject()` is the object at 13; the write
`o.__proto__ = q` reaches the accessor of `Object.prototype`, whose setter
makes `q` the `[[Prototype]]` of `o` in place of the proxy, and
`Get(o, 'prototypes')` then returns the field of `q`, while the prototype list
of the target at 11 is still the Set object at 10. The same happens inside
`newObject` for the seed `{"__proto__": q}` at 9 of `protoKeyHeap`, as
`JSON.parse` builds it: the object returned, at 13, inherits from `q`. -/
theorem reserved_name_counterexample :
    (∃ h1 h2, newObject 3 seedHeap .undef = .ok (.ref 13, h1) ∧
      Set 6 h1 13 "__proto__" (.ref 8) = .ok h2 ∧
      Get 4 h2 13 "prototypes" = .ok (.num 1, h2) ∧
      assocGet (fieldsOf h2 11) "__prototypeList" = some (.ref 10) ∧
      (∃ ob, h2[13]? = some ob ∧ ob.proto = some 8)) ∧
    (∃ h1, newObject 6 protoKeyHeap (.ref 9) = .ok (.ref 13, h1) ∧
      Get 4 h1 13 "prototypes" = .ok (.num 1, h1) ∧
      assocGet (fieldsOf h1 11) "__prototypeList" = some (.ref 10) ∧
      (∃ ob, h1[13]? = some ob ∧ ob.proto = some 8 ∧ ob.fields = [])) :=
  ⟨⟨_, _, rfl, rfl, rfl, rfl, _, rfl, rfl⟩, _, rfl, rfl, rfl, _, rfl, rfl, rfl⟩

/-- C6 (code at the failing input): on `seqHeap`, `Get(o, 'addPrototype')`
returns a closure, and calling it on `p1` raises a TypeError with any fuel:
`handler` has no member `addPrototype`. -/
theorem addPrototype_throws :
    Get 3 seqHeap 11 "addPrototype" =
      .ok (.ref 16, seqHeap ++ [closureObj "addPrototype" 9]) ∧
    ∀ n, callClosure (n + 2) (seqHeap ++ [closureObj "addPrototype" 9]) (.ref 16) (.ref 12) =
      .error .typeError := by
  refine ⟨rfl, fun n => ?_⟩
  rfl

/-- C7 (code at the failing input): on `seqHeap`, `Get(o, 'removePrototype')`
returns a closure, and calling it on `p1` raises a TypeError with any fuel:
`handler` has no member `removePrototype`. -/
theorem removePrototype_throws :
    Get 3 seqHeap 11 "removePrototype" =
      .ok (.ref 16, seqHeap ++ [closureObj "removePrototype" 9]) ∧
    ∀ n, callClosure (n + 2) (seqHeap ++ [closureObj "removePrototype" 9]) (.ref 16) (.ref 12) =
      .error .typeError := by
  refine ⟨rfl, fun n => ?_⟩
  rfl

theorem foldl_dedup_mem (l : List String) : ∀ (acc : List String) (k : String),
    k ∈ l.foldl (fun acc k => if k ∈ acc then acc else acc ++ [k]) acc ↔ k ∈ acc ∨ k ∈ l := by
  induction l with
  | nil => intro acc k; simp
  | cons x xs ih =>
    intro acc k
    simp only [List.foldl_cons, ih, List.mem_cons]
    by_cases hx : x ∈ acc
    · simp only [hx, if_true]
      constructor
      · rintro (h1 | h1)
        · exact Or.inl h1
        · exact Or.inr (Or.inr h1)
      · rintro (h1 | h1 | h1)
        · exact Or.inl h1
        · exact Or.inl (h1 ▸ hx)
        · exact Or.inr h1
    · simp only [hx, if_false, List.mem_append, List.mem_singleton]
      tauto

/-- The names of `Array.from(new Set(keys))` are the names of `keys`. -/
theorem dedupKeys_mem (l : List String) (k : String) : k ∈ dedupKeys l ↔ k ∈ l := by
  simp [dedupKeys, foldl_dedup_mem]

/-- The inner loop on a plain object adds its own keys and stops at
`Object.prototype`. -/
theorem walkChain_plain (f m : Nat) (h : Heap) (v : Val) (keys : List String)
    (hb : StdBase h) (hv : PlainMember h v) :
    walkChain (fun b => ownPropertyKeys (f + 1) h b) (getPrototypeOf (f + 1) h) (m + 2) v keys =
      .ok (keys ++ ownKeyNames h v) := by
  obtain ⟨a, ob, rfl, ha, hk, hp⟩ := hv
  obtain ⟨bb, hbb, -, hbp⟩ := hb
  have hne : a ≠ objectProto := by
    intro e; subst e; rw [ha] at hbb; cases hbb; rw [hp] at hbp; cases hbp
  have hne' : ¬ (Val.ref a = Val.ref objectProto) := fun e => hne (Val.ref.inj e)
  have h1 : ownPropertyKeys (f + 1) h a = .ok (ob.fields.map Prod.fst) := by
    simp [ownPropertyKeys, ha, hk, ownProps, exoticProps]
  have h2 : getPrototypeOf (f + 1) h a = .ok (.ref objectProto) := by
    simp [getPrototypeOf, ha, hk, hp]
  simp [walkChain, hne', h1, h2, ownKeyNames, fieldsOf, ha]

/-- The outer loop over plain objects concatenates their own keys. -/
theorem collectKeys_plain (f m : Nat) (h : Heap) (hb : StdBase h) (ms : List Val) :
    ∀ keys, (∀ v ∈ ms, PlainMember h v) →
    collectKeys (walkChain (fun b => ownPropertyKeys (f + 1) h b) (getPrototypeOf (f + 1) h)
      (m + 2)) ms keys = .ok (keys ++ ms.flatMap (ownKeyNames h)) := by
  induction ms with
  | nil => intro keys _; simp [collectKeys]
  | cons v vs ih =>
    intro keys hall
    simp only [collectKeys, walkChain_plain f m h v keys hb (hall v (List.mem_cons_self _ _))]
    rw [ih _ (fun x hx => hall x (List.mem_cons_of_mem _ hx))]
    simp [List.flatMap_cons]

/-- The list the `ownKeys` trap computes for a composite object whose
prototypes are plain objects: their own keys in list order, then `prototypes`,
deduplicated. -/
theorem proxyKeys_plain (n : Nat) (h : Heap) (o p t s : Nat) (hc : Composite h o p t s)
    (hb : StdBase h) (hpl : ∀ v ∈ membersOf h s, PlainMember h v) :
    proxyKeys (n + 2) h o =
      .ok (dedupKeys ((membersOf h s).flatMap (ownKeyNames h) ++ ["prototypes"])) := by
  obtain ⟨ob, ho, hok, hop⟩ := hc.obj
  obtain ⟨pb, hp, hpk⟩ := hc.proxy
  simp only [proxyKeys, ho, hop, hp, hpk, handler.ownKeys, handler.ownKeysWith,
    getProp_protoList (n + 1) h o p t s hc, iterate_protoList h o p t s hc]
  have := collectKeys_plain (n + 1) n h hb (membersOf h s) [] hpl
  simp only [List.nil_append] at this
  simp only [this]

/-- The `ownKeys` trap computes the union of the prototypes' keys: for every
composite object `o` over a standard base object whose prototypes are plain
objects, the trap of the proxy `o` inherits from succeeds and its names are
exactly the own key names of the prototypes together with `prototypes`. -/
theorem trap_union (n : Nat) (h : Heap) (o p t s : Nat) (hc : Composite h o p t s)
    (hb : StdBase h) (hpl : ∀ v ∈ membersOf h s, PlainMember h v) :
    ∃ ks, proxyKeys (n + 2) h o = .ok ks ∧
      ∀ k, k ∈ ks ↔ (k = "prototypes" ∨ ∃ v ∈ membersOf h s, k ∈ ownKeyNames h v) := by
  refine ⟨_, proxyKeys_plain n h o p t s hc hb hpl, fun k => ?_⟩
  rw [dedupKeys_mem]
  simp only [List.mem_append, List.mem_flatMap, List.mem_singleton]
  constructor
  · rintro (h1 | h1)
    · exact Or.inr h1
    · exact Or.inl h1
  · rintro (h1 | h1)
    · exact Or.inr h1
    · exact Or.inl h1

/-- On `unionHeap`, with `p1 = {a, b}` and `p2 = {b, c}`, the list of the trap
is `a, b, c, prototypes`. -/
theorem trap_union_witness :
    (∃ ks, proxyKeys 2 unionHeap 11 = .ok ks ∧
      ∀ k, k ∈ ks ↔ (k = "prototypes" ∨ ∃ v ∈ membersOf unionHeap 8, k ∈ ownKeyNames unionHeap v)) ∧
    proxyKeys 2 unionHeap 11 = .ok ["a", "b", "c", "prototypes"] :=
  ⟨trap_union 0 unionHeap 11 10 9 8
    ⟨⟨_, rfl, rfl, rfl⟩, rfl, ⟨_, rfl, rfl⟩, ⟨_, rfl, rfl, rfl⟩, ⟨_, rfl, rfl⟩,
      ⟨_, _, rfl, rfl⟩, by decide⟩
    ⟨_, rfl, rfl, rfl⟩
    (fun v hv => by
      have hv' : v ∈ [Val.ref 12, Val.ref 13] := hv
      simp only [List.mem_cons, List.mem_singleton, List.not_mem_nil, or_false] at hv'
      rcases hv' with rfl | rfl
      · exact ⟨12, _, rfl, rfl, rfl, rfl⟩
      · exact ⟨13, _, rfl, rfl, rfl, rfl⟩),
   rfl⟩

/-- C10 (code at the failing inputs): `newObject(null)` raises a TypeError on
every heap, at the read `_from.constructor`; and `newObject(seed)` for the
array seed at 14 of `seqHeap` raises a TypeError, at the call of
`Object.getPrototypeFor`. -/
theorem newObject_throws :
    (∀ fuel h, newObject fuel h .null = .error .typeError) ∧
    newObject 10 seqHeap (.ref 14) = .error .typeError := by
  refine ⟨fun fuel h => ?_, rfl⟩
  simp [newObject, typeofObject, objectAssign]

/-- Soundness of the inner loop: if the walk from `v` completes, its result
keeps the keys gathered so far and holds every key reachable from `v`, provided
the keys of proxies are sound at this fuel. -/
theorem walkChain_sound (h : Heap) (f : Nat)
    (hP : ∀ a ob t ks, h[a]? = some ob → ob.kind = .proxy t →
      ownPropertyKeys f h a = .ok ks →
      ∀ ms v k, TargetList h t ms → v ∈ ms → KeyReach h v k → k ∈ ks) :
    ∀ (n : Nat) (v : Val) (keys ks : List String),
    walkChain (fun b => ownPropertyKeys f h b) (getPrototypeOf f h) n v keys = .ok ks →
    (∀ k ∈ keys, k ∈ ks) ∧ ∀ k, KeyReach h v k → k ∈ ks := by
  intro n
  induction n with
  | zero => intro v keys ks hw; simp [walkChain] at hw
  | succ n ih =>
    intro v keys ks hw
    unfold walkChain at hw
    by_cases hv : v = .ref objectProto
    · simp only [hv, if_true] at hw
      injection hw with hw
      subst hw
      refine ⟨fun k hk => hk, fun k hr => ?_⟩
      rw [hv] at hr
      cases hr with
      | own a ob k hne => exact absurd rfl hne
      | up a ob q k hne => exact absurd rfl hne
      | member a ob t ms v k hne => exact absurd rfl hne
    · simp only [hv, if_false] at hw
      cases v with
      | ref a =>
        simp only at hw
        cases hk1 : ownPropertyKeys f h a with
        | error e => simp [hk1] at hw
        | ok ks1 =>
          simp only [hk1] at hw
          cases hp1 : getPrototypeOf f h a with
          | error e => simp [hp1] at hw
          | ok v' =>
            simp only [hp1] at hw
            obtain ⟨hkeep, hreach⟩ := ih v' (keys ++ ks1) ks hw
            refine ⟨fun k hk => hkeep k (List.mem_append_left _ hk), fun k hr => ?_⟩
            cases hr with
            | own a' ob k' hne ha hnp hmem =>
              cases f with
              | zero => simp [ownPropertyKeys] at hk1
              | succ g =>
                have : ownPropertyKeys (g + 1) h a = .ok ((ownProps ob).map Prod.fst) := by
                  unfold ownPropertyKeys
                  simp only [ha]
                rw [this] at hk1
                injection hk1 with hk1
                subst hk1
                exact hkeep k (List.mem_append_right _ hmem)
            | up a' ob q k' hne ha hnp hq hrq =>
              cases f with
              | zero => simp [ownPropertyKeys] at hk1
              | succ g =>
                have : getPrototypeOf (g + 1) h a = .ok (.ref q) := by
                  unfold getPrototypeOf
                  simp only [ha, hq]
                rw [this] at hp1
                injection hp1 with hp1
                subst hp1
                exact hreach k hrq
            | member a' ob t ms w k' hne ha hpk htl hw' hrw =>
              exact hkeep k (List.mem_append_right _ (hP a ob t ks1 ha hpk hk1 ms w k htl hw' hrw))
      | _ => simp at hw

/-- Soundness of the outer loop over the members of a prototype list. -/
theorem collectKeys_sound (h : Heap) (walk : Val → List String → Except Err (List String))
    (hw : ∀ v keys ks, walk v keys = .ok ks →
      (∀ k ∈ keys, k ∈ ks) ∧ ∀ k, KeyReach h v k → k ∈ ks) :
    ∀ (ms : List Val) (keys ks : List String), collectKeys walk ms keys = .ok ks →
    (∀ k ∈ keys, k ∈ ks) ∧ ∀ v ∈ ms, ∀ k, KeyReach h v k → k ∈ ks := by
  intro ms
  induction ms with
  | nil =>
    intro keys ks hc
    simp only [collectKeys] at hc
    injection hc with hc
    subst hc
    exact ⟨fun k hk => hk, fun v hv => by cases hv⟩
  | cons x xs ih =>
    intro keys ks hc
    simp only [collectKeys] at hc
    cases h1 : walk x keys with
    | error e => simp [h1] at hc
    | ok keys' =>
      simp only [h1] at hc
      obtain ⟨hk1, hr1⟩ := hw x keys keys' h1
      obtain ⟨hk2, hr2⟩ := ih keys' ks hc
      refine ⟨fun k hk => hk2 k (hk1 k hk), fun v hv k hr => ?_⟩
      rcases List.mem_cons.mp hv with rfl | hv'
      · exact hk2 k (hr1 k hr)
      · exact hr2 v hv' k hr

/-- The trap reads the prototype list of a well-formed target. -/
theorem getProp_targetList (g : Nat) (h : Heap) (t : Nat) (ms : List Val)
    (htl : TargetList h t ms) :
    ∃ s, getProp (g + 1) h t "__prototypeList" = .ok (.val (.ref s)) ∧
      iterate h (.val (.ref s)) = .ok ms := by
  obtain ⟨tb, s, sb, ht, htk, htf, hs, hsk⟩ := htl
  refine ⟨s, getProp_own g h t tb _ _ ht (fun t' => by simp [htk]) ?_
    (isAccessor_of_kind _ _ (by simp [htk])), ?_⟩
  · simp [ownProps, exoticProps, htk, htf]
  · simp [iterate, hs, hsk]

/-- Soundness of the body of the trap at fuel `f`, given soundness of the keys
of proxies at fuel `f`. -/
theorem ownKeysWith_sound (h : Heap) (f : Nat)
    (hP : ∀ a ob t ks, h[a]? = some ob → ob.kind = .proxy t →
      ownPropertyKeys f h a = .ok ks →
      ∀ ms v k, TargetList h t ms → v ∈ ms → KeyReach h v k → k ∈ ks)
    (t : Nat) (ks : List String)
    (hs : handler.ownKeysWith (fun b => ownPropertyKeys f h b) f h t = .ok ks)
    (ms : List Val) (v : Val) (k : String) (htl : TargetList h t ms) (hv : v ∈ ms)
    (hr : KeyReach h v k) : k ∈ ks := by
  cases f with
  | zero => simp [handler.ownKeysWith, getProp, getFrom] at hs
  | succ g =>
    obtain ⟨s, hg, hi⟩ := getProp_targetList g h t ms htl
    simp only [handler.ownKeysWith, hg, hi] at hs
    cases hc : collectKeys (walkChain (fun b => ownPropertyKeys (g + 1) h b)
        (getPrototypeOf (g + 1) h) (g + 1)) ms [] with
    | error e => simp [hc] at hs
    | ok keys =>
      simp only [hc] at hs
      injection hs with hs
      subst hs
      have hsound := collectKeys_sound h _
        (fun v keys ks hw => walkChain_sound h (g + 1) hP (g + 1) v keys ks hw) ms [] keys hc
      rw [dedupKeys_mem]
      exact List.mem_append_left _ (hsound.2 v hv k hr)

/-- Soundness of `Reflect.ownKeys` on proxies, at every fuel. -/
theorem ownPropertyKeys_sound (h : Heap) (f : Nat) :
    ∀ a ob t ks, h[a]? = some ob → ob.kind = .proxy t →
      ownPropertyKeys f h a = .ok ks →
      ∀ ms v k, TargetList h t ms → v ∈ ms → KeyReach h v k → k ∈ ks := by
  induction f with
  | zero => intro a ob t ks _ _ hs; simp [ownPropertyKeys] at hs
  | succ g ih =>
    intro a ob t ks ha hk hs ms v k htl hv hr
    unfold ownPropertyKeys at hs
    simp only [ha, hk] at hs
    exact ownKeysWith_sound h g ih t ks hs ms v k htl hv hr

/-- Whenever the `ownKeys` trap for a composite object completes, its list
holds every key reachable from a member of the prototype list. -/
theorem proxyKeys_sound (fuel : Nat) (h : Heap) (o p t s : Nat) (ks : List String)
    (hc : Composite h o p t s) (he : proxyKeys fuel h o = .ok ks) (v : Val) (k : String)
    (hv : v ∈ membersOf h s) (hr : KeyReach h v k) : k ∈ ks := by
  obtain ⟨ob, ho, hok, hop⟩ := hc.obj
  obtain ⟨pb, hp, hpk⟩ := hc.proxy
  obtain ⟨tb, ht, htk, htf⟩ := hc.target
  obtain ⟨sb, ms, hs, hsk⟩ := hc.list
  have hms : membersOf h s = ms := by simp [membersOf, hs, hsk]
  simp only [proxyKeys, ho, hop, hp, hpk, handler.ownKeys] at he
  exact ownKeysWith_sound h fuel (ownPropertyKeys_sound h fuel) t ks he ms v k
    ⟨tb, s, sb, ht, htk, htf, hs, hsk⟩ (hms ▸ hv) hr

theorem WalkOk_mono (h : Heap) (v : Val) (N N' : Nat) (hw : WalkOk h v N) (hle : N ≤ N') :
    WalkOk h v N' :=
  fun f n hf hn keys => hw f n (Nat.le_trans hle hf) (Nat.le_trans hle hn) keys

/-- One fuel bound serves all the members of a list. -/
theorem WalkOk_list (h : Heap) (ms : List Val) (hall : ∀ v, v ∈ ms → ∃ N, WalkOk h v N) :
    ∃ N, ∀ v, v ∈ ms → WalkOk h v N := by
  induction ms with
  | nil => exact ⟨0, fun v hv => by cases hv⟩
  | cons x xs ih =>
    obtain ⟨N1, h1⟩ := hall x (List.mem_cons_self _ _)
    obtain ⟨N2, h2⟩ := ih (fun v hv => hall v (List.mem_cons_of_mem _ hv))
    refine ⟨max N1 N2, fun v hv => ?_⟩
    rcases List.mem_cons.mp hv with rfl | hv'
    · exact WalkOk_mono h v N1 _ h1 (Nat.le_max_left _ _)
    · exact WalkOk_mono h v N2 _ (h2 v hv') (Nat.le_max_right _ _)

/-- The outer loop completes when the inner loop completes on every member. -/
theorem collectKeys_ok (walk : Val → List String → Except Err (List String)) (ms : List Val)
    (hw : ∀ v, v ∈ ms → ∀ keys, ∃ ks, walk v keys = .ok ks) :
    ∀ keys, ∃ ks, collectKeys walk ms keys = .ok ks := by
  induction ms with
  | nil => intro keys; exact ⟨keys, rfl⟩
  | cons x xs ih =>
    intro keys
    obtain ⟨k1, h1⟩ := hw x (List.mem_cons_self _ _) keys
    obtain ⟨k2, h2⟩ := ih (fun v hv => hw v (List.mem_cons_of_mem _ hv)) k1
    exact ⟨k2, by simp only [collectKeys, h1, h2]⟩

/-- The body of the trap completes on a well-formed target whose members all
complete at fuel `g + 1`. -/
theorem ownKeysWith_ok (h : Heap) (g : Nat) (t : Nat) (ms : List Val) (N : Nat)
    (htl : TargetList h t ms) (hms : ∀ v, v ∈ ms → WalkOk h v N) (hN : N ≤ g + 1) :
    ∃ ks, handler.ownKeysWith (fun b => ownPropertyKeys (g + 1) h b) (g + 1) h t = .ok ks := by
  obtain ⟨s, hg, hi⟩ := getProp_targetList g h t ms htl
  obtain ⟨keys, hk⟩ := collectKeys_ok
    (walkChain (fun b => ownPropertyKeys (g + 1) h b) (getPrototypeOf (g + 1) h) (g + 1)) ms
    (fun v hv keys => hms v hv (g + 1) (g + 1) hN hN keys) []
  exact ⟨dedupKeys (keys ++ ["prototypes"]), by simp only [handler.ownKeysWith, hg, hi, hk]⟩

/-- On a grounded prototype graph the inner loop completes with enough fuel. -/
theorem Grounded_walk (h : Heap) (v : Val) (hg : Grounded h v) : ∃ N, WalkOk h v N := by
  induction hg with
  | base =>
    refine ⟨1, fun f n _ hn keys => ?_⟩
    obtain ⟨n', rfl⟩ : ∃ n', n = n' + 1 := ⟨n - 1, by omega⟩
    exact ⟨keys, by simp [walkChain]⟩
  | obj a ob q hne ha hnp hq _ ih =>
    obtain ⟨N, hN⟩ := ih
    refine ⟨N + 1, fun f n hf hn keys => ?_⟩
    obtain ⟨f', rfl⟩ : ∃ f', f = f' + 1 := ⟨f - 1, by omega⟩
    obtain ⟨n', rfl⟩ : ∃ n', n = n' + 1 := ⟨n - 1, by omega⟩
    have hne' : ¬ (Val.ref a = Val.ref objectProto) := fun e => hne (Val.ref.inj e)
    have h1 : ownPropertyKeys (f' + 1) h a = .ok ((ownProps ob).map Prod.fst) := by
      unfold ownPropertyKeys
      simp only [ha]
    have h2 : getPrototypeOf (f' + 1) h a = .ok (.ref q) := by
      unfold getPrototypeOf
      simp only [ha, hq]
    obtain ⟨ks, hks⟩ := hN (f' + 1) n' (by omega) (by omega) (keys ++ (ownProps ob).map Prod.fst)
    exact ⟨ks, by simp only [walkChain, hne', if_false, h1, h2, hks]⟩
  | proxy a ob t ms tb q hne ha hk htl ht htp _ _ ihms ihq =>
    obtain ⟨N1, hN1⟩ := WalkOk_list h ms ihms
    obtain ⟨N2, hN2⟩ := ihq
    refine ⟨max N1 N2 + 2, fun f n hf hn keys => ?_⟩
    obtain ⟨f', rfl⟩ : ∃ f', f = f' + 2 := ⟨f - 2, by omega⟩
    obtain ⟨n', rfl⟩ : ∃ n', n = n' + 1 := ⟨n - 1, by omega⟩
    have hm1 : N1 ≤ max N1 N2 := Nat.le_max_left _ _
    have hm2 : N2 ≤ max N1 N2 := Nat.le_max_right _ _
    have hne' : ¬ (Val.ref a = Val.ref objectProto) := fun e => hne (Val.ref.inj e)
    obtain ⟨ks1, hks1⟩ := ownKeysWith_ok h f' t ms N1 htl hN1 (by omega)
    have h1 : ownPropertyKeys (f' + 2) h a = .ok ks1 := by
      unfold ownPropertyKeys
      simp only [ha, hk]
      exact hks1
    have htk : ∀ t', tb.kind ≠ .proxy t' := by
      obtain ⟨tb', s, sb, ht', htk', -⟩ := htl
      rw [ht] at ht'
      cases ht'
      intro t' e
      rw [htk'] at e
      cases e
    have h2 : getPrototypeOf (f' + 2) h a = .ok (.ref q) := by
      unfold getPrototypeOf
      simp only [ha, hk]
      unfold getPrototypeOf
      simp only [ht, htp]
    obtain ⟨ks, hks⟩ := hN2 (f' + 2) n' (by omega) (by omega) (keys ++ ks1)
    exact ⟨ks, by simp only [walkChain, hne', if_false, h1, h2, hks]⟩

/-- On `cycleHeap`, where the composite object is its own prototype, the trap
runs out of fuel however much it is given. -/
theorem cycle_ownKeys (n : Nat) :
    handler.ownKeysWith (fun b => ownPropertyKeys n cycleHeap b) n cycleHeap 9 =
      .error .outOfFuel := by
  induction n with
  | zero => rfl
  | succ m ih =>
    cases m with
    | zero => rfl
    | succ j =>
      have hg : getProp (j + 2) cycleHeap 9 "__prototypeList" = .ok (.val (.ref 8)) := rfl
      have hi : iterate cycleHeap (.val (.ref 8)) = .ok [.ref 11] := rfl
      have hk11 : ownPropertyKeys (j + 2) cycleHeap 11 = .ok ["k"] := rfl
      have hp11 : getPrototypeOf (j + 2) cycleHeap 11 = .ok (.ref 10) := rfl
      have hk10 : ownPropertyKeys (j + 2) cycleHeap 10 =
          handler.ownKeysWith (fun b => ownPropertyKeys (j + 1) cycleHeap b) (j + 1)
            cycleHeap 9 := rfl
      have e1 : ¬ (Val.ref 11 = Val.ref objectProto) := by decide
      have e2 : ¬ (Val.ref 10 = Val.ref objectProto) := by decide
      unfold handler.ownKeysWith
      simp only [hg, hi, collectKeys, walkChain, e1, e2, if_false, hk11, hp11, hk10, ih]

/-- The `ownKeys` trap for the composite object of `cycleHeap` never
completes. -/
theorem cycle_proxyKeys (n : Nat) : proxyKeys n cycleHeap 11 = .error .outOfFuel := by
  have h1 : proxyKeys n cycleHeap 11 =
      handler.ownKeysWith (fun b => ownPropertyKeys n cycleHeap b) n cycleHeap 9 := rfl
  rw [h1, cycle_ownKeys]

/-- C9 (amended): for every composite object `o` whose prototype graph is
grounded (finite, acyclic, every member an object whose host chain ends at the
universal base object), the `ownKeys` trap of the proxy `o` inherits from,
`Reflect.ownKeys(Object.getPrototypeOf(o))`, completes with enough fuel, and
every name `k` that is an own key of an object reachable from a member of the
prototype list of `o` below the universal base object (the member itself, an
object on its host prototype chain, or anything so reachable from the
prototype list of a composite prototype) is a member of its result. What a key
enumeration of `o` itself returns is not part of the statement. -/
theorem transitive_enumeration (h : Heap) (o p t s : Nat) (hc : Composite h o p t s)
    (hg : ∀ v, v ∈ membersOf h s → Grounded h v) :
    ∃ N, ∀ fuel, N ≤ fuel → ∃ ks, proxyKeys fuel h o = .ok ks ∧
      ∀ v, v ∈ membersOf h s → ∀ k, KeyReach h v k → k ∈ ks := by
  obtain ⟨ob, ho, hok, hop⟩ := hc.obj
  obtain ⟨pb, hp, hpk⟩ := hc.proxy
  obtain ⟨tb, ht, htk, htf⟩ := hc.target
  obtain ⟨sb, ms, hs, hsk⟩ := hc.list
  have hms : membersOf h s = ms := by simp [membersOf, hs, hsk]
  have htl : TargetList h t ms := ⟨tb, s, sb, ht, htk, htf, hs, hsk⟩
  obtain ⟨N, hN⟩ := WalkOk_list h ms (fun v hv => Grounded_walk h v (hg v (hms ▸ hv)))
  refine ⟨N + 1, fun fuel hf => ?_⟩
  obtain ⟨g, rfl⟩ : ∃ g, fuel = g + 1 := ⟨fuel - 1, by omega⟩
  obtain ⟨ks, hks⟩ := ownKeysWith_ok h g t ms N htl hN (by omega)
  have he : proxyKeys (g + 1) h o = .ok ks := by
    simp only [proxyKeys, ho, hop, hp, hpk, handler.ownKeys]
    exact hks
  exact ⟨ks, he, fun v hv k hr => proxyKeys_sound (g + 1) h o p t s ks hc he v k hv hr⟩

/-- Witness for C9 on `graphHeap`: the prototypes are an instance of a shape
and a composite object with a prototype of its own; the list of the trap holds
the keys of every level. -/
theorem transitive_enumeration_witness :
    (∃ N, ∀ fuel, N ≤ fuel → ∃ ks, proxyKeys fuel graphHeap 11 = .ok ks ∧
      ∀ v, v ∈ membersOf graphHeap 8 → ∀ k, KeyReach graphHeap v k → k ∈ ks) ∧
    proxyKeys 3 graphHeap 11 = .ok ["own", "greet", "x", "deep", "prototypes"] :=
  ⟨transitive_enumeration graphHeap 11 10 9 8
    ⟨⟨_, rfl, rfl, rfl⟩, rfl, ⟨_, rfl, rfl⟩, ⟨_, rfl, rfl, rfl⟩, ⟨_, rfl, rfl⟩,
      ⟨_, _, rfl, rfl⟩, by decide⟩
    (fun v hv => by
      have hv' : v ∈ [Val.ref 12, Val.ref 17] := hv
      simp only [List.mem_cons, List.mem_singleton, List.not_mem_nil, or_false] at hv'
      rcases hv' with rfl | rfl
      · exact Grounded.obj 12 _ 13 (by decide) rfl (fun t e => by cases e) rfl
          (Grounded.obj 13 _ 0 (by decide) rfl (fun t e => by cases e) rfl Grounded.base)
      · exact Grounded.obj 17 _ 16 (by decide) rfl (fun t e => by cases e) rfl
          (Grounded.proxy 16 _ 15 [.ref 18] _ 0 (by decide) rfl rfl
            ⟨_, 14, _, rfl, rfl, rfl, rfl, rfl⟩ rfl rfl
            (fun w hw => by
              have hw' : w = Val.ref 18 := by simpa using hw
              subst hw'
              exact Grounded.obj 18 _ 0 (by decide) rfl (fun t e => by cases e) rfl
                Grounded.base)
            Grounded.base)),
   rfl⟩

/-- C9 as stated fails. On `baseHeap` the only prototype is `Object.prototype`,
`constructor` is an own key of that direct prototype, the key enumeration of
`o` is empty and the list of the `ownKeys` trap is `prototypes` alone: its loop
stops at `Object.prototype`. On `cycleHeap` the composite object lists itself
as prototype, `k` is an own key of that direct prototype, and the trap
completes with no fuel. On `graphHeap` the name `greet` is an own key of the
object on the host chain of the first prototype, and the key enumeration of `o`
is empty, while the list of the trap holds it. -/
theorem transitive_enumeration_counterexample :
    (membersOf baseHeap 8 = [.ref objectProto] ∧
      "constructor" ∈ ownKeyNames baseHeap (.ref objectProto) ∧
      (∀ n, Enumerate (n + 1) baseHeap 11 = .ok []) ∧
      ∀ n, proxyKeys (n + 1) baseHeap 11 = .ok ["prototypes"]) ∧
    (membersOf cycleHeap 8 = [.ref 11] ∧ "k" ∈ ownKeyNames cycleHeap (.ref 11) ∧
      ¬ ∃ n ks, proxyKeys n cycleHeap 11 = .ok ks) ∧
    (membersOf graphHeap 8 = [.ref 12, .ref 17] ∧ KeyReach graphHeap (.ref 12) "greet" ∧
      (∀ n, Enumerate (n + 1) graphHeap 11 = .ok []) ∧
      proxyKeys 3 graphHeap 11 = .ok ["own", "greet", "x", "deep", "prototypes"]) := by
  refine ⟨⟨rfl, by decide, fun n => rfl, fun n => rfl⟩, ⟨rfl, by decide, ?_⟩,
    rfl, ?_, fun n => rfl, rfl⟩
  · rintro ⟨n, ks, he⟩
    rw [cycle_proxyKeys] at he
    cases he
  · exact KeyReach.up 12 _ 13 "greet" (by decide) rfl (fun t e => by cases e) rfl
      (KeyReach.own 13 _ "greet" (by decide) rfl (fun t e => by cases e) (by decide))

/-- A composite object is not the universal base object. -/
theorem Composite_ne_base (h : Heap) (o p t s : Nat) (hc : Composite h o p t s)
    (hb : StdBase h) : o ≠ objectProto := by
  obtain ⟨ob, ho, -, hop⟩ := hc.obj
  obtain ⟨bb, hbb, -, hbp⟩ := hb
  intro e
  subst e
  rw [ho] at hbb
  cases hbb
  rw [hop] at hbp
  cases hbp

theorem StdBase_writeField (h : Heap) (o : Nat) (k : String) (v : Val) (hb : StdBase h)
    (hne : o ≠ objectProto) : StdBase (writeField h o k v) := by
  obtain ⟨bb, hbb, hbk, hbp⟩ := hb
  exact ⟨bb, by rw [writeField_other h o objectProto k v (Ne.symm hne)]; exact hbb, hbk, hbp⟩

theorem assignHeap_other (o a : Nat) (hne : a ≠ o) (ps : List (String × Val)) :
    ∀ h : Heap, (assignHeap h o ps)[a]? = h[a]? := by
  induction ps with
  | nil => intro h; rfl
  | cons x xs ih =>
    intro h
    simp only [assignHeap, List.foldl_cons] at ih ⊢
    rw [ih, writeField_other h o a _ _ hne]

theorem assignHeap_at (o : Nat) (ps : List (String × Val)) :
    ∀ (h : Heap) (ob : Obj), h[o]? = some ob →
    (assignHeap h o ps)[o]? = some { ob with fields := assignFields ob.fields ps } := by
  induction ps with
  | nil => intro h ob ho; exact ho
  | cons x xs ih =>
    intro h ob ho
    simp only [assignHeap, assignFields, List.foldl_cons] at ih ⊢
    exact ih _ _ (writeField_at h o ob x.1 x.2 ho)

/-- The writes of `Object.assign` on a composite object: when no key is
`prototypes` or `__proto__`, every write succeeds and goes to an own field. -/
theorem assignAll_fields (n : Nat) (o p t s : Nat) (ps : List (String × Val))
    (hps : ∀ kv ∈ ps, kv.1 ≠ "prototypes") (hps2 : ∀ kv ∈ ps, kv.1 ≠ "__proto__") :
    ∀ h : Heap, Composite h o p t s → StdBase h →
    assignAll (n + 4) h o ps = .ok (assignHeap h o ps) := by
  induction ps with
  | nil => intro h _ _; rfl
  | cons x xs ih =>
    intro h hc hb
    obtain ⟨k, v⟩ := x
    have hk : k ≠ "prototypes" := hps (k, v) (List.mem_cons_self _ _)
    have hk2 : k ≠ "__proto__" := hps2 (k, v) (List.mem_cons_self _ _)
    simp only [assignAll, Set_field n h o p t s k v hc hb hk hk2]
    exact ih (fun kv hkv => hps kv (List.mem_cons_of_mem _ hkv))
      (fun kv hkv => hps2 kv (List.mem_cons_of_mem _ hkv)) _
      (Composite_writeField h o p t s k v hc hk)
      (StdBase_writeField h o k v hb (Composite_ne_base h o p t s hc hb))

theorem assocGet_append_none (fs : List (String × Val)) (k k2 : String) (v : Val)
    (h1 : assocGet fs k2 = none) (hne : k ≠ k2) : assocGet (fs ++ [(k, v)]) k2 = none := by
  induction fs with
  | nil => simp [assocGet, hne]
  | cons x xs ih =>
    obtain ⟨k', v'⟩ := x
    by_cases hk : k' = k2
    · simp [assocGet, hk] at h1
    · simp only [assocGet, hk, if_false] at h1
      simp only [List.cons_append, assocGet, hk, if_false]
      exact ih h1

theorem assocSet_absent (fs : List (String × Val)) (k : String) (v : Val)
    (h1 : assocGet fs k = none) : assocSet fs k v = fs ++ [(k, v)] := by
  induction fs with
  | nil => rfl
  | cons x xs ih =>
    obtain ⟨k', v'⟩ := x
    by_cases hk : k' = k
    · simp [assocGet, hk] at h1
    · simp only [assocGet, hk, if_false] at h1
      simp only [assocSet, hk, if_false, List.cons_append, ih h1]

/-- Writing properties with distinct new keys appends them in order. -/
theorem assignFields_nodup (ps : List (String × Val)) :
    ∀ fs : List (String × Val), (∀ kv ∈ ps, assocGet fs kv.1 = none) →
    (ps.map Prod.fst).Nodup → assignFields fs ps = fs ++ ps := by
  induction ps with
  | nil => intro fs _ _; simp [assignFields]
  | cons x xs ih =>
    intro fs hfs hnd
    obtain ⟨k, v⟩ := x
    have hk : assocGet fs k = none := hfs (k, v) (List.mem_cons_self _ _)
    simp only [List.map_cons, List.nodup_cons] at hnd
    simp only [assignFields, List.foldl_cons, assocSet_absent fs k v hk] at ih ⊢
    rw [ih (fs ++ [(k, v)]) ?_ hnd.2]
    · simp
    · intro kv hkv
      refine assocGet_append_none fs k kv.1 v (hfs kv (List.mem_cons_of_mem _ hkv)) ?_
      intro e
      exact hnd.1 (List.mem_map.mpr ⟨kv, hkv, e.symm⟩)

theorem assocGet_none_ne (fs : List (String × Val)) (k : String) (h1 : assocGet fs k = none) :
    ∀ kv ∈ fs, kv.1 ≠ k := by
  induction fs with
  | nil => intro kv hkv; cases hkv
  | cons x xs ih =>
    obtain ⟨k', v'⟩ := x
    by_cases hk : k' = k
    · simp [assocGet, hk] at h1
    · simp only [assocGet, hk, if_false] at h1
      intro kv hkv
      rcases List.mem_cons.mp hkv with rfl | hkv'
      · exact hk
      · exact ih h1 kv hkv'

/-- The run of `newObject` on a plain seed without own keys `prototypes`,
`__proto__` and `constructor`: it returns the new object at the fourth
allocated address, in the heap where the seed's fields have been written to
it. -/
theorem newObject_plain_seed (n : Nat) (h : Heap) (a : Nat) (sb : Obj)
    (hs : h[a]? = some sb) (hplain : sb.kind = .plain) (hproto : sb.proto = some objectProto)
    (hnp : assocGet sb.fields "prototypes" = none)
    (hnq : assocGet sb.fields "__proto__" = none)
    (hnc : assocGet sb.fields "constructor" = none)
    (hb : StdBase h) (hbc : BaseCtor h) :
    newObject (n + 4) h (.ref a) =
      .ok (.ref (h.length + 3), assignHeap (allocHeap h) (h.length + 3) sb.fields) := by
  have hc1 : Composite (allocHeap h) (h.length + 3) (h.length + 2) (h.length + 1) h.length :=
    Composite_fresh h
  have hb1 : StdBase (allocHeap h) := by
    obtain ⟨bb, hbb, hbk, hbp⟩ := hb
    exact ⟨bb, append_get h _ _ bb hbb, hbk, hbp⟩
  have hs1 : (allocHeap h)[a]? = some sb := append_get h _ a sb hs
  have hao : a ≠ h.length + 3 := Nat.ne_of_lt (Nat.lt_add_right 3 (lt_of_get h a sb hs))
  have hassign := assignAll_fields n (h.length + 3) (h.length + 2) (h.length + 1) h.length
    sb.fields (assocGet_none_ne sb.fields "prototypes" hnp)
    (assocGet_none_ne sb.fields "__proto__" hnq) (allocHeap h) hc1 hb1
  have hs3 : (assignHeap (allocHeap h) (h.length + 3) sb.fields)[a]? = some sb := by
    rw [assignHeap_other (h.length + 3) a hao]; exact hs1
  obtain ⟨bb, hbb, hbk, hbp⟩ := hb1
  have hbo : objectProto ≠ h.length + 3 :=
    Ne.symm (Composite_ne_base _ _ _ _ _ hc1 ⟨bb, hbb, hbk, hbp⟩)
  have hb3 : (assignHeap (allocHeap h) (h.length + 3) sb.fields)[objectProto]? = some bb := by
    rw [assignHeap_other (h.length + 3) objectProto hbo]; exact hbb
  have hbf : assocGet bb.fields "constructor" = some (.ref objectCtor) := by
    have := hbc
    obtain ⟨bb0, hbb0, -, -⟩ := hb
    have e : bb0 = bb := by
      have := append_get h [setObj [],
        { kind := .plain, fields := [("__prototypeList", .ref h.length)],
          proto := some objectProto },
        { kind := .proxy (h.length + 1), fields := [], proto := none },
        { kind := .plain, fields := [], proto := some (h.length + 2) }] objectProto bb0 hbb0
      rw [allocHeap] at hbb
      rw [this] at hbb
      exact Option.some.inj hbb
    subst e
    simpa [BaseCtor, fieldsOf, hbb0] using hbc
  have hget : Get (n + 4) (assignHeap (allocHeap h) (h.length + 3) sb.fields) a "constructor" =
      .ok (.ref objectCtor, assignHeap (allocHeap h) (h.length + 3) sb.fields) := by
    have h1 := getProp_up (n + 3) _ a objectProto sb "constructor" hs3
      (fun t' => by simp [hplain]) (by simpa [ownProps, exoticProps, hplain] using hnc) hproto
    have h2 := getFrom_own (n + 2) _ objectProto bb "constructor" (.ref objectCtor) a hb3
      (fun t' => by simp [hbk])
      (by simpa [ownProps, exoticProps, hbk, assocGet] using hbf)
      (isAccessor_of_name _ _ (by decide))
    simp only [Get, h1, h2]
  have hty : typeofObject h (.ref a) = true := by simp [typeofObject, hs, hplain]
  have hoa : objectAssign (n + 4) (allocHeap h) (h.length + 3) (.ref a) =
      .ok (assignHeap (allocHeap h) (h.length + 3) sb.fields) := by
    simp only [objectAssign, hs1, hplain, enumProps]
    exact hassign
  unfold newObject
  simp only [hty, if_true]
  rw [allocHeap] at hoa hget
  simp only [hoa, hget]
  simp [allocHeap]

theorem Composite_assignHeap (o p t s : Nat) (ps : List (String × Val))
    (hps : ∀ kv ∈ ps, kv.1 ≠ "prototypes") :
    ∀ h : Heap, Composite h o p t s → Composite (assignHeap h o ps) o p t s := by
  induction ps with
  | nil => intro h hc; exact hc
  | cons x xs ih =>
    intro h hc
    simp only [assignHeap, List.foldl_cons] at ih ⊢
    exact ih (fun kv hkv => hps kv (List.mem_cons_of_mem _ hkv)) _
      (Composite_writeField h o p t s x.1 x.2 hc (hps x (List.mem_cons_self _ _)))

/-- The heap `newObject` leaves for a plain seed with distinct keys, none of
them `prototypes`: the new object is composite with an empty prototype list,
its fields are the seed's, and the seed and the base object are untouched. -/
theorem seed_heap_facts (h : Heap) (a : Nat) (sb : Obj)
    (hs : h[a]? = some sb) (hnp : assocGet sb.fields "prototypes" = none)
    (hnd : (sb.fields.map Prod.fst).Nodup) (hb : StdBase h) :
    Composite (assignHeap (allocHeap h) (h.length + 3) sb.fields)
      (h.length + 3) (h.length + 2) (h.length + 1) h.length ∧
    membersOf (assignHeap (allocHeap h) (h.length + 3) sb.fields) h.length = [] ∧
    (assignHeap (allocHeap h) (h.length + 3) sb.fields)[h.length + 3]? =
      some { kind := .plain, fields := sb.fields, proto := some (h.length + 2) } ∧
    (assignHeap (allocHeap h) (h.length + 3) sb.fields)[a]? = some sb ∧
    StdBase (assignHeap (allocHeap h) (h.length + 3) sb.fields) := by
  have hc1 : Composite (allocHeap h) (h.length + 3) (h.length + 2) (h.length + 1) h.length :=
    Composite_fresh h
  have hb1 : StdBase (allocHeap h) := by
    obtain ⟨bb, hbb, hbk, hbp⟩ := hb
    exact ⟨bb, append_get h _ _ bb hbb, hbk, hbp⟩
  have hao : a ≠ h.length + 3 := Nat.ne_of_lt (Nat.lt_add_right 3 (lt_of_get h a sb hs))
  have hso : h.length ≠ h.length + 3 := by omega
  have hbo : objectProto ≠ h.length + 3 := Ne.symm (Composite_ne_base _ _ _ _ _ hc1 hb1)
  refine ⟨Composite_assignHeap _ _ _ _ _ (assocGet_none_ne sb.fields "prototypes" hnp) _ hc1,
    ?_, ?_, ?_, ?_⟩
  · have h0 : (allocHeap h)[h.length]? = some (setObj []) := append_get_right h _ 0
    simp [membersOf, assignHeap_other (h.length + 3) h.length hso, h0, setObj]
  · have h3 : (allocHeap h)[h.length + 3]? =
        some { kind := .plain, fields := [], proto := some (h.length + 2) } :=
      append_get_right h _ 3
    rw [assignHeap_at (h.length + 3) sb.fields (allocHeap h) _ h3]
    simp only [assignFields_nodup sb.fields [] (fun kv _ => rfl) hnd, List.nil_append]
  · rw [assignHeap_other (h.length + 3) a hao]
    exact append_get h _ a sb hs
  · obtain ⟨bb, hbb, hbk, hbp⟩ := hb1
    exact ⟨bb, by rw [assignHeap_other (h.length + 3) objectProto hbo]; exact hbb, hbk, hbp⟩

/-- C11 (amended): for every plain-object seed `s` with distinct keys, none of
them `prototypes`, `__proto__` or `constructor`, over a standard base object,
`newObject(s)` returns a composite object with an empty prototype list whose
own fields are exactly the properties of `s`, so that `Get(newObject(s), k)`
is `s[k]` for every key `k` of `s`. -/
theorem seed_copy (n m : Nat) (h : Heap) (a : Nat) (sb : Obj)
    (hs : h[a]? = some sb) (hplain : sb.kind = .plain) (hproto : sb.proto = some objectProto)
    (hnp : assocGet sb.fields "prototypes" = none)
    (hnq : assocGet sb.fields "__proto__" = none)
    (hnc : assocGet sb.fields "constructor" = none)
    (hnd : (sb.fields.map Prod.fst).Nodup) (hb : StdBase h) (hbc : BaseCtor h) :
    ∃ h', newObject (n + 4) h (.ref a) = .ok (.ref (h.length + 3), h') ∧
      Composite h' (h.length + 3) (h.length + 2) (h.length + 1) h.length ∧
      membersOf h' h.length = [] ∧
      fieldsOf h' (h.length + 3) = sb.fields ∧
      ∀ k v, assocGet sb.fields k = some v → Get (m + 1) h' (h.length + 3) k = .ok (v, h') := by
  obtain ⟨hc, hm, ho, -, -⟩ := seed_heap_facts h a sb hs hnp hnd hb
  refine ⟨_, newObject_plain_seed n h a sb hs hplain hproto hnp hnq hnc hb hbc, hc, hm, ?_, ?_⟩
  · simp [fieldsOf, ho]
  · intro k v hkv
    have := getProp_own m _ (h.length + 3) _ k v ho (fun t' => by simp)
      (by simpa [ownProps, exoticProps] using hkv) (isAccessor_of_kind _ _ (by simp))
    simp only [Get, this]

/-- Witness for C11 on `plainSeedHeap`, whose seed is `{x: 1, y: 2}`. -/
theorem seed_copy_witness :
    ∃ h', newObject 4 plainSeedHeap (.ref 8) = .ok (.ref 12, h') ∧
      Composite h' 12 11 10 9 ∧ membersOf h' 9 = [] ∧
      fieldsOf h' 12 = [("x", .num 1), ("y", .num 2)] ∧
      ∀ k v, assocGet [("x", Val.num 1), ("y", Val.num 2)] k = some v →
        Get 1 h' 12 k = .ok (v, h') :=
  seed_copy 0 0 plainSeedHeap 8 _ rfl rfl rfl rfl rfl rfl (by decide) ⟨_, rfl, rfl, rfl⟩ rfl

/-- C11 as stated fails. On `protoSeedHeap` the plain seed `{prototypes: [q]}`
gives an object whose prototype list is `{q}`, not empty, with no own field
`prototypes`, and `Get(o, 'prototypes')` is that Set, not the seed's array;
and `newObject` throws on the plain seed `{prototypes: 5}`. On `protoKeyHeap`
the plain seed `{"__proto__": q}`, whose key is an own enumerable property,
gives an object without own fields that inherits from `q` and no longer from
its proxy, and `Get(o, '__proto__')` is `q` read from the accessor. -/
theorem seed_copy_counterexample :
    (∃ h', newObject 6 protoSeedHeap (.ref 10) = .ok (.ref 15, h') ∧
      membersOf h' 16 = [.ref 8] ∧ fieldsOf h' 15 = [] ∧
      Get 3 h' 15 "prototypes" = .ok (.ref 16, h') ∧
      assocGet (fieldsOf h' 10) "prototypes" = some (.ref 9)) ∧
    newObject 6 protoSeedHeap (.ref 11) = .error .protoError ∧
    (∃ h', newObject 6 protoKeyHeap (.ref 9) = .ok (.ref 13, h') ∧
      fieldsOf protoKeyHeap 9 = [("__proto__", .ref 8)] ∧
      fieldsOf h' 13 = [] ∧
      (∃ ob, h'[13]? = some ob ∧ ob.proto = some 8) ∧
      Get 4 h' 13 "__proto__" = .ok (.ref 8, h')) :=
  ⟨⟨_, rfl, rfl, rfl, rfl, rfl⟩, rfl, _, rfl, rfl, rfl, ⟨_, rfl, rfl⟩, rfl⟩

/-- C12 (amended): for every plain seed `s` with distinct keys, none of them
`prototypes`, `__proto__` or `constructor`, over a standard base object, and
every key `k` with `s[k] = v` when `o = newObject(s)` is built: a later write
`s[k] = w` succeeds and leaves `Get(o, k)` equal to `v`, and a later
`Set(o, k, w)` succeeds and leaves `s[k]` equal to `v`. -/
theorem seed_copy_independence (n m : Nat) (h : Heap) (a : Nat) (sb : Obj) (k : String)
    (v w : Val)
    (hs : h[a]? = some sb) (hplain : sb.kind = .plain) (hproto : sb.proto = some objectProto)
    (hnp : assocGet sb.fields "prototypes" = none)
    (hnq : assocGet sb.fields "__proto__" = none)
    (hnc : assocGet sb.fields "constructor" = none)
    (hnd : (sb.fields.map Prod.fst).Nodup) (hb : StdBase h) (hbc : BaseCtor h)
    (hkv : assocGet sb.fields k = some v) :
    ∃ h', newObject (n + 4) h (.ref a) = .ok (.ref (h.length + 3), h') ∧
      (∃ h2, Set (n + 1) h' a k w = .ok h2 ∧ assocGet (fieldsOf h2 a) k = some w ∧
        Get (m + 1) h2 (h.length + 3) k = .ok (v, h2)) ∧
      (∃ h2, Set (n + 4) h' (h.length + 3) k w = .ok h2 ∧
        Get (m + 1) h2 (h.length + 3) k = .ok (w, h2) ∧
        assocGet (fieldsOf h2 a) k = some v) := by
  obtain ⟨hc, -, ho, ha, hb'⟩ := seed_heap_facts h a sb hs hnp hnd hb
  have hk : k ≠ "prototypes" := by
    intro e; rw [e, hnp] at hkv; cases hkv
  have hk2 : k ≠ "__proto__" := by
    intro e; rw [e, hnq] at hkv; cases hkv
  have hao : a ≠ h.length + 3 := Nat.ne_of_lt (Nat.lt_add_right 3 (lt_of_get h a sb hs))
  refine ⟨_, newObject_plain_seed n h a sb hs hplain hproto hnp hnq hnc hb hbc, ?_, ?_⟩
  · generalize assignHeap (allocHeap h) (h.length + 3) sb.fields = H at hc ho ha hb' ⊢
    refine ⟨writeField H a k w, ?_, ?_, ?_⟩
    · rw [Set, setProp_plain n H a sb k w a ha hplain]
      simp only [hkv]
      exact defineOwn_plain H a sb k w ha hplain
    · simp only [fieldsOf, writeField_at H a sb k w ha]
      exact assocGet_assocSet_same _ _ _
    · have ho' := ho
      rw [← writeField_other H a (h.length + 3) k w (Ne.symm hao)] at ho'
      have := getProp_own m (writeField H a k w) (h.length + 3) _ k v ho' (fun t' => by simp)
        (by simpa [ownProps, exoticProps] using hkv) (isAccessor_of_kind _ _ (by simp))
      simp only [Get, this]
  · generalize assignHeap (allocHeap h) (h.length + 3) sb.fields = H at hc ho ha hb' ⊢
    refine ⟨writeField H (h.length + 3) k w,
      Set_field n H _ _ _ _ k w hc hb' hk hk2, Get_writeField m H _ _ k w ho rfl, ?_⟩
    simp only [fieldsOf, writeField_other H (h.length + 3) a k w hao, ha]
    exact hkv

/-- Witness for C12 on `plainSeedHeap` with `s = {x: 1, y: 2}`, `k = x` and
`w = 2`. -/
theorem seed_copy_independence_witness :
    ∃ h', newObject 4 plainSeedHeap (.ref 8) = .ok (.ref 12, h') ∧
      (∃ h2, Set 1 h' 8 "x" (.num 2) = .ok h2 ∧ assocGet (fieldsOf h2 8) "x" = some (.num 2) ∧
        Get 1 h2 12 "x" = .ok (.num 1, h2)) ∧
      (∃ h2, Set 4 h' 12 "x" (.num 2) = .ok h2 ∧ Get 1 h2 12 "x" = .ok (.num 2, h2) ∧
        assocGet (fieldsOf h2 8) "x" = some (.num 1)) :=
  seed_copy_independence 0 0 plainSeedHeap 8 _ "x" (.num 1) (.num 2) rfl rfl rfl rfl rfl rfl
    (by decide) ⟨_, rfl, rfl, rfl⟩ rfl rfl

/-- C12 as stated fails at the keys `prototypes` and `__proto__`. On
`protoSeedHeap` the seed is `s = {prototypes: [q]}`, so `s[k] = v` with `v` the
array at 9 when `o = newObject(s)` is built; after the later write
`s.prototypes = 0`, `Get(o, 'prototypes')` is the Set at 16, not `v`. On
`protoNumHeap` the seed is `s = {"__proto__": 5}`, whose key is an own
enumerable property, so `s[k] = v` with `v = 5` when `o = newObject(s)` is
built, at 12; the copy of that key is dropped by the setter of the accessor,
and after the later write `s['__proto__'] = 6`, `Get(o, '__proto__')` is
`Object.prototype`, not `v`. -/
theorem seed_copy_independence_counterexample :
    (∃ h' h2, newObject 6 protoSeedHeap (.ref 10) = .ok (.ref 15, h') ∧
      assocGet (fieldsOf h' 10) "prototypes" = some (.ref 9) ∧
      Set 1 h' 10 "prototypes" (.num 0) = .ok h2 ∧
      assocGet (fieldsOf h2 10) "prototypes" = some (.num 0) ∧
      Get 3 h2 15 "prototypes" = .ok (.ref 16, h2)) ∧
    (∃ h' h2, newObject 6 protoNumHeap (.ref 8) = .ok (.ref 12, h') ∧
      assocGet (fieldsOf h' 8) "__proto__" = some (.num 5) ∧
      fieldsOf h' 12 = [] ∧
      Set 1 h' 8 "__proto__" (.num 6) = .ok h2 ∧
      assocGet (fieldsOf h2 8) "__proto__" = some (.num 6) ∧
      Get 4 h2 12 "__proto__" = .ok (.ref objectProto, h2)) :=
  ⟨⟨_, _, rfl, rfl, rfl, rfl, rfl⟩, _, _, rfl, rfl, rfl, rfl, rfl, rfl⟩

/-- C13 (code at the failing input): on `shapeHeap`, `newObject(seed)` for the
instance at 10 of a custom shape raises a TypeError with any fuel, at the call
of `Object.getPrototypeFor`, which is not a function; the out-of-fuel answers
below that are the only other results. The prototype object of the shape is
never registered. -/
theorem newObject_shape_throws :
    Get 2 shapeHeap 10 "constructor" = .ok (.ref 8, shapeHeap) ∧
    Get 2 shapeHeap 10 "greet" = .ok (.num 2, shapeHeap) ∧
    (∀ n, newObject (n + 4) shapeHeap (.ref 10) = .error .typeError) ∧
    ∀ n, ¬ ∃ r, newObject n shapeHeap (.ref 10) = .ok r := by
  refine ⟨rfl, rfl, fun n => rfl, fun n => ?_⟩
  rintro ⟨r, hr⟩
  match n, hr with
  | 0, hr => cases hr
  | 1, hr => cases hr
  | 2, hr => cases hr
  | 3, hr => cases hr
  | n + 4, hr =>
    have h4 : newObject (n + 4) shapeHeap (.ref 10) = .error .typeError := rfl
    rw [h4] at hr
    cases hr

/-- C14 (amended): for every composite object `o` over a standard base object,
every name `k` other than `prototypes` and `__proto__` and every value `v`,
`Set(o, k, v)` succeeds and changes only the own field `k` of `o`: every other
object of the heap is the same after the call, so are the prototype list of `o`
(members and order), the other fields of `o`, and every field of every
prototype in the list other than `o` itself. -/
theorem set_frame (n : Nat) (h : Heap) (o p t s : Nat) (k : String) (v : Val)
    (hc : Composite h o p t s) (hb : StdBase h) (hk : k ≠ "prototypes")
    (hk2 : k ≠ "__proto__") :
    ∃ h', Set (n + 4) h o k v = .ok h' ∧
      (∀ a, a ≠ o → h'[a]? = h[a]?) ∧
      Composite h' o p t s ∧
      membersOf h' s = membersOf h s ∧
      assocGet (fieldsOf h' o) k = some v ∧
      (∀ k2, k2 ≠ k → assocGet (fieldsOf h' o) k2 = assocGet (fieldsOf h o) k2) ∧
      (∀ a, .ref a ∈ membersOf h s → a ≠ o → fieldsOf h' a = fieldsOf h a) := by
  obtain ⟨ob, ho, hok, hop⟩ := hc.obj
  obtain ⟨sb, ms, hs, hsk⟩ := hc.list
  have hso : s ≠ o := ne_of_kind h s o sb ob hs ho (by simp [hsk, hok])
  refine ⟨writeField h o k v, Set_field n h o p t s k v hc hb hk hk2,
    fun a ha => writeField_other h o a k v ha, Composite_writeField h o p t s k v hc hk,
    ?_, ?_, ?_, ?_⟩
  · simp [membersOf, writeField_other h o s k v hso]
  · simp only [fieldsOf, writeField_at h o ob k v ho]
    exact assocGet_assocSet_same _ _ _
  · intro k2 hk2
    simp only [fieldsOf, writeField_at h o ob k v ho, ho]
    exact assocGet_assocSet_other _ _ _ _ hk2
  · intro a _ hao
    simp only [fieldsOf, writeField_other h o a k v hao]

/-- Witness for C14 on `threeHeap`, whose prototypes all define `k`. -/
theorem set_frame_witness :
    ∃ h', Set 4 threeHeap 11 "k" (.num 7) = .ok h' ∧
      (∀ a, a ≠ 11 → h'[a]? = threeHeap[a]?) ∧
      Composite h' 11 10 9 8 ∧
      membersOf h' 8 = membersOf threeHeap 8 ∧
      assocGet (fieldsOf h' 11) "k" = some (.num 7) ∧
      (∀ k2, k2 ≠ "k" → assocGet (fieldsOf h' 11) k2 = assocGet (fieldsOf threeHeap 11) k2) ∧
      (∀ a, .ref a ∈ membersOf threeHeap 8 → a ≠ 11 → fieldsOf h' a = fieldsOf threeHeap a) :=
  set_frame 0 threeHeap 11 10 9 8 "k" (.num 7)
    ⟨⟨_, rfl, rfl, rfl⟩, rfl, ⟨_, rfl, rfl⟩, ⟨_, rfl, rfl, rfl⟩, ⟨_, rfl, rfl⟩,
      ⟨_, _, rfl, rfl⟩, by decide⟩
    ⟨_, rfl, rfl, rfl⟩ (by decide) (by decide)

/-- C14 as stated fails when `o` is a member of its own prototype list, and at
the name `__proto__`. On `cycleHeap` the object at 11 lists itself, and
`Set(o, 'k', 5)` changes the field `k` of that prototype from 1 to 5. On
`seqHeap`, `Set(o, '__proto__', p1)` with the plain object `p1` at 12 writes no
own field of `o`: the setter of the accessor replaces the `[[Prototype]]` of
`o`, the proxy at 10, by `p1`. -/
theorem set_frame_counterexample :
    (∃ h', Set 4 cycleHeap 11 "k" (.num 5) = .ok h' ∧
      Val.ref 11 ∈ membersOf cycleHeap 8 ∧ membersOf h' 8 = membersOf cycleHeap 8 ∧
      assocGet (fieldsOf cycleHeap 11) "k" = some (.num 1) ∧
      assocGet (fieldsOf h' 11) "k" = some (.num 5)) ∧
    (∃ h', Set 6 seqHeap 11 "__proto__" (.ref 12) = .ok h' ∧
      (∃ ob, seqHeap[11]? = some ob ∧ ob.proto = some 10) ∧
      (∃ ob, h'[11]? = some ob ∧ ob.proto = some 12) ∧
      assocGet (fieldsOf h' 11) "__proto__" = none) :=
  ⟨⟨_, rfl, by decide, rfl, rfl, rfl⟩, _, rfl, ⟨_, rfl, rfl⟩, ⟨_, rfl, rfl⟩, rfl⟩

/-- The loop falls through when every member's read is `undefined`. -/
theorem firstDefined_none (f : Val → Except Err Res) (ms : List Val)
    (hall : ∀ v, v ∈ ms → f v = .ok (.val .undef)) : firstDefined f ms = .ok none := by
  induction ms with
  | nil => rfl
  | cons x xs ih =>
    simp only [firstDefined, hall x (List.mem_cons_self _ _)]
    exact ih (fun v hv => hall v (List.mem_cons_of_mem _ hv))

/-- One fuel bound serves all the members of a list, for any property of a
member that is kept when the fuel grows. -/
theorem fuel_bound_list (P : Val → Nat → Prop) (ms : List Val)
    (hall : ∀ v, v ∈ ms → ∃ N, ∀ f, N ≤ f → P v f) :
    ∃ N, ∀ v, v ∈ ms → ∀ f, N ≤ f → P v f := by
  induction ms with
  | nil => exact ⟨0, fun v hv => by cases hv⟩
  | cons x xs ih =>
    obtain ⟨N1, h1⟩ := hall x (List.mem_cons_self _ _)
    obtain ⟨N2, h2⟩ := ih (fun v hv => hall v (List.mem_cons_of_mem _ hv))
    refine ⟨max N1 N2, fun v hv f hf => ?_⟩
    rcases List.mem_cons.mp hv with rfl | hv'
    · exact h1 f (Nat.le_trans (Nat.le_max_left _ _) hf)
    · exact h2 v hv' f (Nat.le_trans (Nat.le_max_right _ _) hf)

/-- Where a name is defined nowhere below an object, its read is `undefined`
with enough fuel, whatever the receiver. -/
theorem Absent_getFrom (h : Heap) (k : String) (v : Val)
    (hk : k ≠ "prototypes" ∧ k ≠ "addPrototype" ∧ k ≠ "removePrototype")
    (ha : Absent h k v) :
    ∃ N, ∀ f, N ≤ f → ∀ b r, v = .ref b → getFrom f h b k r = .ok (.val .undef) := by
  obtain ⟨hk1, hk2, hk3⟩ := hk
  induction ha with
  | leaf a ob ha hnp hown hp =>
    refine ⟨1, fun f hf b r hb => ?_⟩
    injection hb with hb
    subst hb
    obtain ⟨f', rfl⟩ : ∃ f', f = f' + 1 := ⟨f - 1, by omega⟩
    unfold getFrom
    simp only [ha, hown, hp]
  | up a ob q ha hnp hown hp _ ih =>
    obtain ⟨N, hN⟩ := ih
    refine ⟨N + 1, fun f hf b r hb => ?_⟩
    injection hb with hb
    subst hb
    obtain ⟨f', rfl⟩ : ∃ f', f = f' + 1 := ⟨f - 1, by omega⟩
    rw [getFrom_up f' h a q ob k r ha hnp hown hp]
    exact hN f' (by omega) q r rfl
  | proxy a ob t ms ha hkind htl hms _ ihms iht =>
    have ihms' : ∀ v, v ∈ ms → ∃ N, ∀ f, N ≤ f → lookup f h v k = .ok (.val .undef) := by
      intro v hv
      obtain ⟨N, hN⟩ := ihms v hv
      refine ⟨N, fun f hf => ?_⟩
      cases hms v hv with
      | leaf b _ _ _ _ _ => exact hN f hf b b rfl
      | up b _ _ _ _ _ _ _ => exact hN f hf b b rfl
      | proxy b _ _ _ _ _ _ _ _ => exact hN f hf b b rfl
    obtain ⟨N1, hN1⟩ := fuel_bound_list (fun v f => lookup f h v k = .ok (.val .undef)) ms ihms'
    obtain ⟨N2, hN2⟩ := iht
    refine ⟨max N1 N2 + 2, fun f hf b r hb => ?_⟩
    injection hb with hb
    subst hb
    obtain ⟨f', rfl⟩ : ∃ f', f = f' + 2 := ⟨f - 2, by omega⟩
    have hm1 : N1 ≤ max N1 N2 := Nat.le_max_left _ _
    have hm2 : N2 ≤ max N1 N2 := Nat.le_max_right _ _
    obtain ⟨s, hg, hi⟩ := getProp_targetList f' h t ms htl
    have hfd := firstDefined_none (memberGet (fun b n => getProp (f' + 1) h b n) k) ms
      (fun v hv => hN1 v hv (f' + 1) (by omega))
    have ht : getProp (f' + 1) h t k = .ok (.val .undef) := hN2 (f' + 1) (by omega) t t rfl
    rw [getFrom_proxy (f' + 1) h a t ob k r ha hkind]
    simp only [handler.get, handler.getWith, hk1, hk2, hk3, or_self, if_false, hg, hi, hfd, ht]

/-- Where a name is defined nowhere below a value, its read is `undefined`
with enough fuel. -/
theorem Absent_lookup (h : Heap) (k : String) (v : Val)
    (hk : k ≠ "prototypes" ∧ k ≠ "addPrototype" ∧ k ≠ "removePrototype")
    (ha : Absent h k v) : ∃ N, ∀ f, N ≤ f → lookup f h v k = .ok (.val .undef) := by
  obtain ⟨N, hN⟩ := Absent_getFrom h k v hk ha
  refine ⟨N, fun f hf => ?_⟩
  cases ha with
  | leaf b _ _ _ _ _ => exact hN f hf b b rfl
  | up b _ _ _ _ _ _ _ => exact hN f hf b b rfl
  | proxy b _ _ _ _ _ _ _ _ => exact hN f hf b b rfl

/-- On `cycleHeap`, where the composite object is its own prototype, a read of
a name defined nowhere runs out of fuel however much it is given. -/
theorem cycle_getProp (n : Nat) :
    (∀ r, getFrom n cycleHeap 10 "z" r = .error .outOfFuel) ∧
    (∀ r, getFrom (n + 1) cycleHeap 10 "z" r = .error .outOfFuel) := by
  induction n with
  | zero => exact ⟨fun _ => rfl, fun _ => rfl⟩
  | succ m ih =>
    refine ⟨ih.2, fun r => ?_⟩
    have h0 : getFrom (m + 2) cycleHeap 10 "z" r = handler.get (m + 1) cycleHeap 9 "z" := rfl
    have hg : getProp (m + 1) cycleHeap 9 "__prototypeList" = .ok (.val (.ref 8)) := rfl
    have hi : iterate cycleHeap (.val (.ref 8)) = .ok [.ref 11] := rfl
    have h11 : getProp (m + 1) cycleHeap 11 "z" = getFrom m cycleHeap 10 "z" 11 := rfl
    have e1 : ¬ ("z" = "addPrototype" ∨ "z" = "removePrototype") := by decide
    have e2 : ¬ ("z" = "prototypes") := by decide
    rw [h0]
    simp only [handler.get, handler.getWith, e1, e2, if_false, hg, hi, firstDefined, memberGet,
      h11, ih.1 11]

/-- C15 (amended): for every composite object `o`, every name `k` that is none
of `prototypes`, `addPrototype`, `removePrototype`, is not an own field of `o`,
and is defined nowhere in the finite acyclic graph below the proxy of `o` (the
objects of its prototype list with their host chains and prototype lists, and
the private target of `o` with its host chain, the universal base object
included), `Get(o, k)` completes with enough fuel and returns `undefined`. -/
theorem missing_lookup_total (h : Heap) (o p t s : Nat) (k : String)
    (hc : Composite h o p t s) (hown : assocGet (fieldsOf h o) k = none)
    (hk : k ≠ "prototypes" ∧ k ≠ "addPrototype" ∧ k ≠ "removePrototype")
    (hab : Absent h k (.ref p)) :
    ∃ N, ∀ fuel, N ≤ fuel → Get fuel h o k = .ok (.undef, h) := by
  obtain ⟨ob, ho, hok, hop⟩ := hc.obj
  have hf : fieldsOf h o = ob.fields := by simp [fieldsOf, ho]
  obtain ⟨N, hN⟩ := Absent_getFrom h k (.ref p) hk hab
  refine ⟨N + 1, fun fuel hfuel => ?_⟩
  obtain ⟨f', rfl⟩ : ∃ f', fuel = f' + 1 := ⟨fuel - 1, by omega⟩
  have h1 := getProp_up f' h o p ob k ho (fun t' => by simp [hok])
    (by simpa [ownProps, exoticProps, hok, hf] using hown) hop
  have h2 := hN f' (by omega) p o rfl
  simp only [Get, h1, h2]

/-- Witness for C15 on `unionHeap`, whose prototypes define `a`, `b`, `c`, read
at the name `zzz`. -/
theorem missing_lookup_total_witness :
    ∃ N, ∀ fuel, N ≤ fuel → Get fuel unionHeap 11 "zzz" = .ok (.undef, unionHeap) :=
  missing_lookup_total unionHeap 11 10 9 8 "zzz"
    ⟨⟨_, rfl, rfl, rfl⟩, rfl, ⟨_, rfl, rfl⟩, ⟨_, rfl, rfl, rfl⟩, ⟨_, rfl, rfl⟩,
      ⟨_, _, rfl, rfl⟩, by decide⟩
    rfl (by decide)
    (Absent.proxy 10 _ 9 [.ref 12, .ref 13] rfl rfl ⟨_, 8, _, rfl, rfl, rfl, rfl, rfl⟩
      (fun v hv => by
        have hv' : v ∈ [Val.ref 12, Val.ref 13] := hv
        simp only [List.mem_cons, List.mem_singleton, List.not_mem_nil, or_false] at hv'
        rcases hv' with rfl | rfl
        · exact Absent.up 12 _ 0 rfl (fun t e => by cases e) rfl rfl
            (Absent.leaf 0 _ rfl (fun t e => by cases e) rfl rfl)
        · exact Absent.up 13 _ 0 rfl (fun t e => by cases e) rfl rfl
            (Absent.leaf 0 _ rfl (fun t e => by cases e) rfl rfl))
      (Absent.up 9 _ 0 rfl (fun t e => by cases e) rfl rfl
        (Absent.leaf 0 _ rfl (fun t e => by cases e) rfl rfl)))

/-- C15 as stated fails. On `cycleHeap` the only prototype of the composite
object is the object itself, `z` is defined nowhere, and `Get(o, 'z')`
completes with no fuel. On `seqHeap` the prototype list is empty, yet
`Get(o, '__prototypeList')` is the Set held by the private target and
`Get(o, 'constructor')` is `Object`, found on the universal base object. -/
theorem missing_lookup_counterexample :
    (membersOf cycleHeap 8 = [.ref 11] ∧ assocGet (fieldsOf cycleHeap 11) "z" = none ∧
      ∀ n, Get n cycleHeap 11 "z" = .error .outOfFuel) ∧
    (membersOf seqHeap 8 = [] ∧ assocGet (fieldsOf seqHeap 11) "__prototypeList" = none ∧
      (∀ n, Get (n + 3) seqHeap 11 "__prototypeList" = .ok (.ref 8, seqHeap)) ∧
      assocGet (fieldsOf seqHeap 11) "constructor" = none ∧
      ∀ n, Get (n + 4) seqHeap 11 "constructor" = .ok (.ref objectCtor, seqHeap)) := by
  refine ⟨⟨rfl, rfl, fun n => ?_⟩, rfl, rfl, fun n => rfl, rfl, fun n => rfl⟩
  cases n with
  | zero => rfl
  | succ m =>
    have h1 : getProp (m + 1) cycleHeap 11 "z" = getFrom m cycleHeap 10 "z" 11 := rfl
    simp only [Get, h1, (cycle_getProp m).1 11]

/-- What the standard shape of a target gives. -/
theorem targetStd_spec (h : Heap) (t : Nat) (hstd : targetStd h t = true) :
    (∃ ms, TargetList h t ms) ∧ ∃ tb, h[t]? = some tb ∧ tb.proto = some objectProto := by
  unfold targetStd at hstd
  cases ht : h[t]? with
  | none => simp [ht] at hstd
  | some tb =>
    simp only [ht] at hstd
    split at hstd
    · rename_i q s hkind hproto hfield
      simp only [Bool.and_eq_true, decide_eq_true_eq] at hstd
      obtain ⟨hq, hset⟩ := hstd
      cases hs : h[s]? with
      | none => simp [hs] at hset
      | some sb =>
        simp only [hs] at hset
        cases hsk : sb.kind with
        | set ms =>
          exact ⟨⟨ms, tb, s, sb, ht, hkind, hfield, hs, hsk⟩, tb, rfl, by rw [hproto, hq]⟩
        | _ => simp [hsk] at hset
    · cases hstd

theorem ProxiesStd_spec (h : Heap) (hps : ProxiesStd h) (a : Nat) (ob : Obj) (t : Nat)
    (ha : h[a]? = some ob) (hk : ob.kind = .proxy t) :
    (∃ ms, TargetList h t ms) ∧ ∃ tb, h[t]? = some tb ∧ tb.proto = some objectProto := by
  have hmem : ob ∈ h := List.getElem?_mem ha
  have := List.all_eq_true.mp hps ob hmem
  simp only [proxyStd, hk] at this
  exact targetStd_spec h t this

/-- Completeness of the inner loop: every key of the result was gathered
before, is `prototypes` (added by the trap of a composite prototype), or is
reachable from `v`. -/
theorem walkChain_complete (h : Heap) (f : Nat) (hps : ProxiesStd h)
    (hP : ∀ a ob t ks, h[a]? = some ob → ob.kind = .proxy t →
      ownPropertyKeys f h a = .ok ks →
      ∀ k, k ∈ ks → k = "prototypes" ∨ ∃ ms v, TargetList h t ms ∧ v ∈ ms ∧ KeyReach h v k) :
    ∀ (n : Nat) (v : Val) (keys ks : List String),
    walkChain (fun b => ownPropertyKeys f h b) (getPrototypeOf f h) n v keys = .ok ks →
    ∀ k, k ∈ ks → k ∈ keys ∨ k = "prototypes" ∨ KeyReach h v k := by
  intro n
  induction n with
  | zero => intro v keys ks hw; simp [walkChain] at hw
  | succ n ih =>
    intro v keys ks hw k hk
    unfold walkChain at hw
    by_cases hv : v = .ref objectProto
    · simp only [hv, if_true] at hw
      injection hw with hw
      subst hw
      exact Or.inl hk
    · simp only [hv, if_false] at hw
      cases v with
      | ref a =>
        have hne : a ≠ objectProto := fun e => hv (by rw [e])
        simp only at hw
        cases hk1 : ownPropertyKeys f h a with
        | error e => simp [hk1] at hw
        | ok ks1 =>
          simp only [hk1] at hw
          cases hp1 : getPrototypeOf f h a with
          | error e => simp [hp1] at hw
          | ok v' =>
            simp only [hp1] at hw
            cases f with
            | zero => simp [ownPropertyKeys] at hk1
            | succ g =>
              cases ha : h[a]? with
              | none => simp [ownPropertyKeys, ha] at hk1
              | some ob =>
                by_cases hpx : ∃ t, ob.kind = .proxy t
                · obtain ⟨t, hkind⟩ := hpx
                  obtain ⟨⟨ms0, tb0, s0, sb0, ht0, htk0, -⟩, tb, ht, htp⟩ :=
                    ProxiesStd_spec h hps a ob t ha hkind
                  rw [ht0] at ht
                  cases ht
                  have hv' : v' = .ref objectProto := by
                    unfold getPrototypeOf at hp1
                    simp only [ha, hkind] at hp1
                    cases g with
                    | zero => simp [getPrototypeOf] at hp1
                    | succ g' =>
                      unfold getPrototypeOf at hp1
                      simp only [ht0, htk0, htp] at hp1
                      injection hp1 with hp1
                      exact hp1.symm
                  rcases ih v' (keys ++ ks1) ks hw k hk with h1 | h1 | h1
                  · rcases List.mem_append.mp h1 with h2 | h2
                    · exact Or.inl h2
                    · rcases hP a ob t ks1 ha hkind hk1 k h2 with h3 | ⟨ms, w, htl, hw', hr⟩
                      · exact Or.inr (Or.inl h3)
                      · exact Or.inr (Or.inr (KeyReach.member a ob t ms w k hne ha hkind htl hw' hr))
                  · exact Or.inr (Or.inl h1)
                  · rw [hv'] at h1
                    cases h1 with
                    | own a' ob' k' hne' => exact absurd rfl hne'
                    | up a' ob' q' k' hne' => exact absurd rfl hne'
                    | member a' ob' t' ms' v'' k' hne' => exact absurd rfl hne'
                · have hnp : ∀ t, ob.kind ≠ .proxy t := fun t e => hpx ⟨t, e⟩
                  have hks1 : ks1 = (ownProps ob).map Prod.fst := by
                    unfold ownPropertyKeys at hk1
                    simp only [ha] at hk1
                    injection hk1 with hk1
                    exact hk1.symm
                  have hv' : v' = (match ob.proto with | none => .null | some q => .ref q) := by
                    unfold getPrototypeOf at hp1
                    simp only [ha] at hp1
                    cases hq : ob.proto with
                    | none => simp only [hq] at hp1; injection hp1 with hp1; exact hp1.symm
                    | some q => simp only [hq] at hp1; injection hp1 with hp1; exact hp1.symm
                  rcases ih v' (keys ++ ks1) ks hw k hk with h1 | h1 | h1
                  · rcases List.mem_append.mp h1 with h2 | h2
                    · exact Or.inl h2
                    · exact Or.inr (Or.inr (KeyReach.own a ob k hne ha hnp (hks1 ▸ h2)))
                  · exact Or.inr (Or.inl h1)
                  · cases hq : ob.proto with
                    | none =>
                      rw [hv'] at h1
                      simp only [hq] at h1
                      cases h1
                    | some q =>
                      rw [hv'] at h1
                      simp only [hq] at h1
                      exact Or.inr (Or.inr (KeyReach.up a ob q k hne ha hnp hq h1))
      | _ => simp at hw

/-- Completeness of the outer loop over the members of a prototype list. -/
theorem collectKeys_complete (h : Heap) (walk : Val → List String → Except Err (List String))
    (hw : ∀ v keys ks, walk v keys = .ok ks →
      ∀ k, k ∈ ks → k ∈ keys ∨ k = "prototypes" ∨ KeyReach h v k) :
    ∀ (ms : List Val) (keys ks : List String), collectKeys walk ms keys = .ok ks →
    ∀ k, k ∈ ks → k ∈ keys ∨ k = "prototypes" ∨ ∃ v, v ∈ ms ∧ KeyReach h v k := by
  intro ms
  induction ms with
  | nil =>
    intro keys ks hc k hk
    simp only [collectKeys] at hc
    injection hc with hc
    subst hc
    exact Or.inl hk
  | cons x xs ih =>
    intro keys ks hc k hk
    simp only [collectKeys] at hc
    cases h1 : walk x keys with
    | error e => simp [h1] at hc
    | ok keys' =>
      simp only [h1] at hc
      rcases ih keys' ks hc k hk with h2 | h2 | ⟨v, hv, hr⟩
      · rcases hw x keys keys' h1 k h2 with h3 | h3 | h3
        · exact Or.inl h3
        · exact Or.inr (Or.inl h3)
        · exact Or.inr (Or.inr ⟨x, List.mem_cons_self _ _, h3⟩)
      · exact Or.inr (Or.inl h2)
      · exact Or.inr (Or.inr ⟨v, List.mem_cons_of_mem _ hv, hr⟩)

/-- The members a standard target is read to have are the members of its
prototype list. -/
theorem TargetList_unique (h : Heap) (t : Nat) (ms ms' : List Val) (h1 : TargetList h t ms)
    (h2 : TargetList h t ms') : ms = ms' := by
  obtain ⟨tb, s, sb, ht, -, hf, hs, hk⟩ := h1
  obtain ⟨tb', s', sb', ht', -, hf', hs', hk'⟩ := h2
  rw [ht] at ht'
  cases ht'
  rw [hf] at hf'
  cases hf'
  rw [hs] at hs'
  cases hs'
  rw [hk] at hk'
  cases hk'
  rfl

/-- Completeness of the body of the trap at fuel `f`, given completeness of
the keys of proxies at fuel `f`. -/
theorem ownKeysWith_complete (h : Heap) (f : Nat) (hps : ProxiesStd h)
    (hP : ∀ a ob t ks, h[a]? = some ob → ob.kind = .proxy t →
      ownPropertyKeys f h a = .ok ks →
      ∀ k, k ∈ ks → k = "prototypes" ∨ ∃ ms v, TargetList h t ms ∧ v ∈ ms ∧ KeyReach h v k)
    (t : Nat) (ms : List Val) (htl : TargetList h t ms) (ks : List String)
    (hs : handler.ownKeysWith (fun b => ownPropertyKeys f h b) f h t = .ok ks)
    (k : String) (hk : k ∈ ks) :
    k = "prototypes" ∨ ∃ v, v ∈ ms ∧ KeyReach h v k := by
  cases f with
  | zero => simp [handler.ownKeysWith, getProp, getFrom] at hs
  | succ g =>
    obtain ⟨s, hg, hi⟩ := getProp_targetList g h t ms htl
    simp only [handler.ownKeysWith, hg, hi] at hs
    cases hc : collectKeys (walkChain (fun b => ownPropertyKeys (g + 1) h b)
        (getPrototypeOf (g + 1) h) (g + 1)) ms [] with
    | error e => simp [hc] at hs
    | ok keys =>
      simp only [hc] at hs
      injection hs with hs
      subst hs
      rw [dedupKeys_mem] at hk
      rcases List.mem_append.mp hk with h1 | h1
      · rcases collectKeys_complete h _
          (fun v keys ks hw => walkChain_complete h (g + 1) hps hP (g + 1) v keys ks hw)
          ms [] keys hc k h1 with h2 | h2 | h2
        · cases h2
        · exact Or.inl h2
        · exact Or.inr h2
      · exact Or.inl (List.mem_singleton.mp h1)

/-- Completeness of `Reflect.ownKeys` on proxies, at every fuel. -/
theorem ownPropertyKeys_complete (h : Heap) (hps : ProxiesStd h) (f : Nat) :
    ∀ a ob t ks, h[a]? = some ob → ob.kind = .proxy t →
      ownPropertyKeys f h a = .ok ks →
      ∀ k, k ∈ ks → k = "prototypes" ∨ ∃ ms v, TargetList h t ms ∧ v ∈ ms ∧ KeyReach h v k := by
  induction f with
  | zero => intro a ob t ks _ _ hs; simp [ownPropertyKeys] at hs
  | succ g ih =>
    intro a ob t ks ha hk hs k hkk
    unfold ownPropertyKeys at hs
    simp only [ha, hk] at hs
    obtain ⟨⟨ms, htl⟩, -⟩ := ProxiesStd_spec h hps a ob t ha hk
    rcases ownKeysWith_complete h g hps ih t ms htl ks hs k hkk with h1 | ⟨v, hv, hr⟩
    · exact Or.inl h1
    · exact Or.inr ⟨ms, v, htl, hv, hr⟩

/-- Whenever the `ownKeys` trap for a composite object completes, each name
of its list is `prototypes` or a key reachable from a member of the prototype
list. -/
theorem proxyKeys_complete (fuel : Nat) (h : Heap) (o p t s : Nat) (ks : List String)
    (hc : Composite h o p t s) (hps : ProxiesStd h) (he : proxyKeys fuel h o = .ok ks)
    (k : String) (hk : k ∈ ks) :
    k = "prototypes" ∨ ∃ v, v ∈ membersOf h s ∧ KeyReach h v k := by
  obtain ⟨ob, ho, hok, hop⟩ := hc.obj
  obtain ⟨pb, hp, hpk⟩ := hc.proxy
  obtain ⟨tb, ht, htk, htf⟩ := hc.target
  obtain ⟨sb, ms, hs, hsk⟩ := hc.list
  have hms : membersOf h s = ms := by simp [membersOf, hs, hsk]
  simp only [proxyKeys, ho, hop, hp, hpk, handler.ownKeys] at he
  rw [hms]
  exact ownKeysWith_complete h fuel hps (ownPropertyKeys_complete h hps fuel) t ms
    ⟨tb, s, sb, ht, htk, htf, hs, hsk⟩ ks he k hk

/-- The `ownKeys` trap leaves own fields out: for every composite object `o`
in a heap whose proxies have standard targets, and every name `k` other than
`prototypes` that is an own field of `o` but an own key of no object reachable
through the prototype list of `o`, whenever the trap of the proxy `o` inherits
from returns a list, `k` is not in it. -/
theorem trap_excludes_own (h : Heap) (o p t s : Nat) (k : String)
    (hc : Composite h o p t s) (hps : ProxiesStd h) (hk : k ≠ "prototypes")
    (_hfield : assocGet (fieldsOf h o) k ≠ none)
    (hno : ∀ v, v ∈ membersOf h s → ¬ KeyReach h v k) :
    ∀ fuel ks, proxyKeys fuel h o = .ok ks → k ∉ ks := by
  intro fuel ks he hmem
  rcases proxyKeys_complete fuel h o p t s ks hc hps he k hmem with h1 | ⟨v, hv, hr⟩
  · exact hk h1
  · exact hno v hv hr

/-- A key reachable from a plain object is one of its own keys. -/
theorem KeyReach_plain (h : Heap) (a : Nat) (ob : Obj) (k : String) (ha : h[a]? = some ob)
    (hk : ob.kind = .plain) (hp : ob.proto = some objectProto) (hr : KeyReach h (.ref a) k) :
    k ∈ ob.fields.map Prod.fst := by
  cases hr with
  | own a' ob' k' hne hob hnp hmem =>
    rw [ha] at hob
    cases hob
    simpa [ownProps, exoticProps, hk] using hmem
  | up a' ob' q k' hne hob hnp hq hrq =>
    rw [ha] at hob
    cases hob
    rw [hp] at hq
    cases hq
    cases hrq with
    | own a2 ob2 k2 hne2 => exact absurd rfl hne2
    | up a2 ob2 q2 k2 hne2 => exact absurd rfl hne2
    | member a2 ob2 t2 ms2 v2 k2 hne2 => exact absurd rfl hne2
  | member a' ob' t ms v k' hne hob hkind =>
    rw [ha] at hob
    cases hob
    rw [hk] at hkind
    cases hkind

/-- On `ownHeap` the own field `mine` of the composite object is not in the
list of the trap, which is `a, b, c, prototypes`. -/
theorem trap_excludes_own_witness :
    (∀ fuel ks, proxyKeys fuel ownHeap 11 = .ok ks → "mine" ∉ ks) ∧
    proxyKeys 2 ownHeap 11 = .ok ["a", "b", "c", "prototypes"] :=
  ⟨trap_excludes_own ownHeap 11 10 9 8 "mine"
    ⟨⟨_, rfl, rfl, rfl⟩, rfl, ⟨_, rfl, rfl⟩, ⟨_, rfl, rfl, rfl⟩, ⟨_, rfl, rfl⟩,
      ⟨_, _, rfl, rfl⟩, by decide⟩
    rfl (by decide) (by decide)
    (fun v hv hr => by
      have hv' : v ∈ [Val.ref 12, Val.ref 13] := hv
      simp only [List.mem_cons, List.mem_singleton, List.not_mem_nil, or_false] at hv'
      rcases hv' with rfl | rfl
      · exact absurd (KeyReach_plain ownHeap 12 _ "mine" rfl rfl rfl hr) (by decide)
      · exact absurd (KeyReach_plain ownHeap 13 _ "mine" rfl rfl rfl hr) (by decide)),
   rfl⟩

theorem foldl_dedup_nodup (l : List String) : ∀ acc : List String, acc.Nodup →
    (l.foldl (fun acc k => if k ∈ acc then acc else acc ++ [k]) acc).Nodup := by
  induction l with
  | nil => intro acc hacc; exact hacc
  | cons x xs ih =>
    intro acc hacc
    simp only [List.foldl_cons]
    by_cases hx : x ∈ acc
    · simp only [hx, if_true]
      exact ih acc hacc
    · simp only [hx, if_false]
      apply ih
      rw [List.nodup_append]
      refine ⟨hacc, List.nodup_singleton x, ?_⟩
      intro a ha hb
      rw [List.mem_singleton] at hb
      exact hx (hb ▸ ha)

/-- The list `Array.from(new Set(keys))` holds no name twice. -/
theorem dedupKeys_nodup (l : List String) : (dedupKeys l).Nodup :=
  foldl_dedup_nodup l [] List.nodup_nil

/-- Every list the trap returns is a deduplicated list that had `prototypes`
appended. -/
theorem proxyKeys_form (fuel : Nat) (h : Heap) (o : Nat) (ks : List String)
    (he : proxyKeys fuel h o = .ok ks) : ∃ keys, ks = dedupKeys (keys ++ ["prototypes"]) := by
  unfold proxyKeys at he
  split at he
  · cases he
  · split at he
    · cases he
    · split at he
      · cases he
      · split at he
        · simp only [handler.ownKeys, handler.ownKeysWith] at he
          split at he
          · cases he
          · split at he
            · cases he
            · split at he
              · cases he
              · rename_i keys _
                injection he with he
                exact ⟨keys, he.symm⟩
        · cases he

/-- The list of the `ownKeys` trap is duplicate-free: whenever the trap of the
proxy `o` inherits from returns a list, the list holds no name twice and holds
the reserved name `prototypes` exactly once. -/
theorem trap_duplicate_free (fuel : Nat) (h : Heap) (o : Nat) (ks : List String)
    (he : proxyKeys fuel h o = .ok ks) : ks.Nodup ∧ ks.count "prototypes" = 1 := by
  obtain ⟨keys, rfl⟩ := proxyKeys_form fuel h o ks he
  have hnd := dedupKeys_nodup (keys ++ ["prototypes"])
  have hmem : "prototypes" ∈ dedupKeys (keys ++ ["prototypes"]) := by
    rw [dedupKeys_mem]
    simp
  exact ⟨hnd, List.count_eq_one_of_mem hnd hmem⟩

/-- On `threeHeap`, whose three prototypes share the key `k` and two of them
have an own key `prototypes`, the list of the trap is `k, prototypes`. -/
theorem trap_duplicate_free_witness :
    proxyKeys 2 threeHeap 11 = .ok ["k", "prototypes"] ∧
    (["k", "prototypes"] : List String).Nodup ∧
    (["k", "prototypes"] : List String).count "prototypes" = 1 :=
  ⟨rfl, trap_duplicate_free 2 threeHeap 11 ["k", "prototypes"] rfl⟩

/-- C18: for every composite object `o` without an own field `k`, where `k` is
none of `prototypes`, `addPrototype`, `removePrototype`: `Get(o, k)` is the
read `p1[k]` of the first member `p1` of the prototype list whose read is not
`undefined`, the members before it, whose reads are `undefined`, being skipped
whether or not they define `k`; when every member's read is `undefined`,
`Get(o, k)` is the read of `k` on the private target of `o`; and the read
`p[k]` on a member that is an object is the full `Get(p, k)`. -/
theorem get_skips_undefined (n : Nat) (h : Heap) (o p t s : Nat) (k : String)
    (hc : Composite h o p t s) (hown : assocGet (fieldsOf h o) k = none)
    (hk : k ≠ "prototypes" ∧ k ≠ "addPrototype" ∧ k ≠ "removePrototype") :
    (∀ pre p1 rest v, membersOf h s = pre ++ p1 :: rest →
      (∀ q, q ∈ pre → lookup n h q k = .ok (.val .undef)) →
      lookup n h p1 k = .ok (.val v) → v ≠ .undef → Get (n + 2) h o k = .ok (v, h)) ∧
    ((∀ q, q ∈ membersOf h s → lookup n h q k = .ok (.val .undef)) →
      Get (n + 2) h o k = Get n h t k) ∧
    (∀ a v, lookup n h (.ref a) k = .ok (.val v) → Get n h a k = .ok (v, h)) := by
  obtain ⟨hk1, hk2, hk3⟩ := hk
  refine ⟨?_, ?_, ?_⟩
  · intro pre p1 rest v hms hpre hp1 hv
    cases n with
    | zero => cases p1 <;> simp [lookup, memberGet, getProp, getFrom] at hp1
    | succ m =>
      have hfd := firstDefined_skip (memberGet (fun b n => getProp (m + 1) h b n) k) pre rest
        p1 (.val v) hpre hp1 (by simpa using hv)
      simp only [Get, Get_to_trap (m + 1) h o p t s k hc hown, handler.get, handler.getWith,
        hk1, hk2, hk3, or_self, if_false, getProp_protoList m h o p t s hc,
        iterate_protoList h o p t s hc, hms, hfd]
  · intro hall
    cases n with
    | zero =>
      have e0 : ∀ a nm, getProp 0 h a nm = .error .outOfFuel := fun _ _ => rfl
      simp only [Get, Get_to_trap 0 h o p t s k hc hown, handler.get, handler.getWith,
        hk1, hk2, hk3, or_self, if_false, e0]
    | succ m =>
      have hfd := firstDefined_none (memberGet (fun b n => getProp (m + 1) h b n) k)
        (membersOf h s) hall
      simp only [Get, Get_to_trap (m + 1) h o p t s k hc hown, handler.get, handler.getWith,
        hk1, hk2, hk3, or_self, if_false, getProp_protoList m h o p t s hc,
        iterate_protoList h o p t s hc, hfd]
  · intro a v hl
    simp only [lookup, memberGet] at hl
    simp only [Get, hl]

/-- Witness for C18. On `skipHeap` the member `{k: undefined}` is skipped and
`Get(o, k)` is the value of `{k: 1}`; on `unionHeap` no member defines
`__prototypeList` and the read falls back to the private target. -/
theorem get_skips_undefined_witness :
    Get 3 skipHeap 11 "k" = .ok (.num 1, skipHeap) ∧
    Get 4 unionHeap 11 "__prototypeList" = Get 2 unionHeap 9 "__prototypeList" :=
  ⟨(get_skips_undefined 1 skipHeap 11 10 9 8 "k"
      ⟨⟨_, rfl, rfl, rfl⟩, rfl, ⟨_, rfl, rfl⟩, ⟨_, rfl, rfl, rfl⟩, ⟨_, rfl, rfl⟩,
        ⟨_, _, rfl, rfl⟩, by decide⟩
      rfl (by decide)).1 [.ref 12] (.ref 13) [] (.num 1) rfl
      (fun q hq => by
        have hq' : q = Val.ref 12 := by simpa using hq
        subst hq'
        rfl)
      rfl (by simp),
   (get_skips_undefined 2 unionHeap 11 10 9 8 "__prototypeList"
      ⟨⟨_, rfl, rfl, rfl⟩, rfl, ⟨_, rfl, rfl⟩, ⟨_, rfl, rfl, rfl⟩, ⟨_, rfl, rfl⟩,
        ⟨_, _, rfl, rfl⟩, by decide⟩
      rfl (by decide)).2.1
      (fun q hq => by
        have hq' : q ∈ [Val.ref 12, Val.ref 13] := hq
        simp only [List.mem_cons, List.mem_singleton, List.not_mem_nil, or_false] at hq'
        rcases hq' with rfl | rfl <;> rfl)⟩

/-- The loop of `handler.get` settles on one result once the reads of all the
members have settled. -/
theorem firstDefined_stable (g : Nat → Val → Except Err Res) (ms : List Val)
    (hall : ∀ v, v ∈ ms → ∃ N r, ∀ f, N ≤ f → g f v = .ok r) :
    ∃ N r, ∀ f, N ≤ f → firstDefined (g f) ms = .ok r := by
  induction ms with
  | nil => exact ⟨0, none, fun f _ => rfl⟩
  | cons x xs ih =>
    obtain ⟨N1, r1, h1⟩ := hall x (List.mem_cons_self _ _)
    obtain ⟨N2, r2, h2⟩ := ih (fun v hv => hall v (List.mem_cons_of_mem _ hv))
    by_cases hr : r1 = .val .undef
    · refine ⟨max N1 N2, r2, fun f hf => ?_⟩
      have e1 := h1 f (Nat.le_trans (Nat.le_max_left _ _) hf)
      have e2 := h2 f (Nat.le_trans (Nat.le_max_right _ _) hf)
      rw [hr] at e1
      simp only [firstDefined, e1, e2]
    · refine ⟨N1, some r1, fun f hf => ?_⟩
      have e1 := h1 f hf
      cases r1 with
      | fresh a b => simp only [firstDefined, e1]
      | val w =>
        cases w with
        | undef => exact absurd rfl hr
        | _ => simp only [firstDefined, e1]

/-- The `[[Prototype]]` of an object that is not a proxy is read with any
fuel. -/
theorem getPrototypeOf_ordinary (f : Nat) (h : Heap) (a : Nat) (ob : Obj)
    (ha : h[a]? = some ob) (hnp : ∀ t, ob.kind ≠ .proxy t) :
    getPrototypeOf (f + 1) h a =
      .ok (match ob.proto with
        | none => .null
        | some q => .ref q) := by
  unfold getPrototypeOf
  simp only [ha]
  cases hkind : ob.kind with
  | proxy t => exact absurd hkind (hnp t)
  | _ => cases ob.proto <;> rfl

/-- The `[[Prototype]]` of the object at the top of a finite acyclic graph is
read with enough fuel. -/
theorem Acyclic_recv (h : Heap) (v : Val) (ha : Acyclic h v) :
    ∀ b, v = .ref b → ∃ M w, ∀ f, M ≤ f → getPrototypeOf f h b = .ok w := by
  cases ha with
  | leaf a ob ha hnp hp =>
    intro b hb
    injection hb with hb
    subst hb
    refine ⟨1, (match ob.proto with
      | none => .null
      | some q => .ref q), fun f hf => ?_⟩
    obtain ⟨f', rfl⟩ : ∃ f', f = f' + 1 := ⟨f - 1, by omega⟩
    exact getPrototypeOf_ordinary f' h a ob ha hnp
  | up a ob q ha hnp hp _ =>
    intro b hb
    injection hb with hb
    subst hb
    refine ⟨1, (match ob.proto with
      | none => .null
      | some q => .ref q), fun f hf => ?_⟩
    obtain ⟨f', rfl⟩ : ∃ f', f = f' + 1 := ⟨f - 1, by omega⟩
    exact getPrototypeOf_ordinary f' h a ob ha hnp
  | proxy a ob t ms ha hkind htl _ _ =>
    intro b hb
    injection hb with hb
    subst hb
    obtain ⟨tb, s, sb, ht, htk, -, -, -⟩ := htl
    refine ⟨2, (match tb.proto with
      | none => .null
      | some q => .ref q), fun f hf => ?_⟩
    obtain ⟨f', rfl⟩ : ∃ f', f = f' + 2 := ⟨f - 2, by omega⟩
    have e : getPrototypeOf (f' + 2) h a = getPrototypeOf (f' + 1) h t := by
      conv_lhs => unfold getPrototypeOf
      simp only [ha, hkind]
    rw [e]
    exact getPrototypeOf_ordinary f' h t tb ht (fun t' => by simp [htk])

/-- On a finite acyclic graph the read of any name settles on a result with
enough fuel, for every receiver whose `[[Prototype]]` can be read. -/
theorem Acyclic_getFrom (h : Heap) (k : String) (v : Val) (ha : Acyclic h v) :
    ∀ r, (∃ M w, ∀ f, M ≤ f → getPrototypeOf f h r = .ok w) →
    ∃ N res, ∀ f, N ≤ f → ∀ b, v = .ref b → getFrom f h b k r = .ok res := by
  have hown_case : ∀ (a : Nat) (ob : Obj) (w : Val) (r : Nat), h[a]? = some ob →
      (∀ t, ob.kind ≠ .proxy t) → assocGet (ownProps ob) k = some w →
      (∃ M w, ∀ f, M ≤ f → getPrototypeOf f h r = .ok w) →
      ∃ N res, ∀ f, N ≤ f → getFrom f h a k r = .ok res := by
    intro a ob w r ha hnp hown ⟨M, w', hM⟩
    cases hacc : isAccessor ob k with
    | false =>
      refine ⟨1, .val w, fun f hf => ?_⟩
      obtain ⟨f', rfl⟩ : ∃ f', f = f' + 1 := ⟨f - 1, by omega⟩
      exact getFrom_own f' h a ob k w r ha hnp hown hacc
    | true =>
      refine ⟨M + 1, .val w', fun f hf => ?_⟩
      obtain ⟨f', rfl⟩ : ∃ f', f = f' + 1 := ⟨f - 1, by omega⟩
      rw [getFrom_accessor f' h a ob k r ha hacc, hM (f' + 1) (by omega)]
  induction ha with
  | leaf a ob ha hnp hp =>
    intro r hr
    cases hown : assocGet (ownProps ob) k with
    | some w =>
      obtain ⟨N, res, hN⟩ := hown_case a ob w r ha hnp hown hr
      refine ⟨N, res, fun f hf b hb => ?_⟩
      injection hb with hb
      subst hb
      exact hN f hf
    | none =>
      refine ⟨1, .val .undef, fun f hf b hb => ?_⟩
      injection hb with hb
      subst hb
      obtain ⟨f', rfl⟩ : ∃ f', f = f' + 1 := ⟨f - 1, by omega⟩
      unfold getFrom
      simp only [ha, hown, hp]
  | up a ob q ha hnp hp _ ih =>
    intro r hr
    cases hown : assocGet (ownProps ob) k with
    | some w =>
      obtain ⟨N, res, hN⟩ := hown_case a ob w r ha hnp hown hr
      refine ⟨N, res, fun f hf b hb => ?_⟩
      injection hb with hb
      subst hb
      exact hN f hf
    | none =>
      obtain ⟨N, res, hN⟩ := ih r hr
      refine ⟨N + 1, res, fun f hf b hb => ?_⟩
      injection hb with hb
      subst hb
      obtain ⟨f', rfl⟩ : ∃ f', f = f' + 1 := ⟨f - 1, by omega⟩
      rw [getFrom_up f' h a q ob k r ha hnp hown hp]
      exact hN f' (by omega) q rfl
  | proxy a ob t ms ha hkind htl hms hta ihms iht =>
    intro r _
    have ihms' : ∀ v, v ∈ ms → ∃ N res, ∀ f, N ≤ f → lookup f h v k = .ok res := by
      intro v hv
      have hav := hms v hv
      have hvr : ∃ b, v = .ref b := by
        cases hav with
        | leaf b _ _ _ _ => exact ⟨b, rfl⟩
        | up b _ _ _ _ _ _ => exact ⟨b, rfl⟩
        | proxy b _ _ _ _ _ _ _ _ => exact ⟨b, rfl⟩
      obtain ⟨b, rfl⟩ := hvr
      obtain ⟨N, res, hN⟩ := ihms (.ref b) hv b (Acyclic_recv h (.ref b) hav b rfl)
      exact ⟨N, res, fun f hf => hN f hf b rfl⟩
    obtain ⟨tb, s, sb, ht, htk, htf, hs, hsk⟩ := htl
    have hg : ∀ f', getProp (f' + 1) h t "__prototypeList" = .ok (.val (.ref s)) := fun f' =>
      getProp_own f' h t tb "__prototypeList" (.ref s) ht (fun t' => by simp [htk])
        (by simp [ownProps, exoticProps, htk, htf]) (isAccessor_of_kind _ _ (by simp [htk]))
    have hi : iterate h (.val (.ref s)) = .ok ms := by simp [iterate, hs, hsk]
    by_cases hk1 : k = "addPrototype" ∨ k = "removePrototype"
    · refine ⟨1, .fresh k t, fun f hf b hb => ?_⟩
      injection hb with hb
      subst hb
      obtain ⟨f', rfl⟩ : ∃ f', f = f' + 1 := ⟨f - 1, by omega⟩
      rw [getFrom_proxy f' h a t ob k r ha hkind]
      simp only [handler.get, handler.getWith, hk1, if_true]
    · by_cases hk2 : k = "prototypes"
      · refine ⟨2, .val (.ref s), fun f hf b hb => ?_⟩
        injection hb with hb
        subst hb
        obtain ⟨f', rfl⟩ : ∃ f', f = f' + 2 := ⟨f - 2, by omega⟩
        rw [getFrom_proxy (f' + 1) h a t ob k r ha hkind]
        subst hk2
        have e1 : ¬ ("prototypes" = "addPrototype" ∨ "prototypes" = "removePrototype") := by
          decide
        simp only [handler.get, handler.getWith, e1, if_false, if_true, hg f']
      · obtain ⟨N1, r1, hN1⟩ := firstDefined_stable (fun f v => lookup f h v k) ms ihms'
        obtain ⟨N2, r2, hN2⟩ := iht t (Acyclic_recv h (.ref t) hta t rfl)
        cases r1 with
        | some r0 =>
          refine ⟨N1 + 2, r0, fun f hf b hb => ?_⟩
          injection hb with hb
          subst hb
          obtain ⟨f', rfl⟩ : ∃ f', f = f' + 2 := ⟨f - 2, by omega⟩
          have hfd := hN1 (f' + 1) (by omega)
          simp only [lookup] at hfd
          rw [getFrom_proxy (f' + 1) h a t ob k r ha hkind]
          simp only [handler.get, handler.getWith, hk1, hk2, if_false, hg f', hi]
          rw [show (memberGet (fun b n => getProp (f' + 1) h b n) k) =
            (fun v => memberGet (fun b n => getProp (f' + 1) h b n) k v) from rfl, hfd]
        | none =>
          refine ⟨max N1 N2 + 2, r2, fun f hf b hb => ?_⟩
          injection hb with hb
          subst hb
          obtain ⟨f', rfl⟩ : ∃ f', f = f' + 2 := ⟨f - 2, by omega⟩
          have hm1 : N1 ≤ max N1 N2 := Nat.le_max_left _ _
          have hm2 : N2 ≤ max N1 N2 := Nat.le_max_right _ _
          have hfd := hN1 (f' + 1) (by omega)
          have htg : getProp (f' + 1) h t k = .ok r2 := hN2 (f' + 1) (by omega) t rfl
          simp only [lookup] at hfd
          rw [getFrom_proxy (f' + 1) h a t ob k r ha hkind]
          simp only [handler.get, handler.getWith, hk1, hk2, if_false, hg f', hi]
          rw [show (memberGet (fun b n => getProp (f' + 1) h b n) k) =
            (fun v => memberGet (fun b n => getProp (f' + 1) h b n) k v) from rfl, hfd]
          exact htg

/-- On a finite acyclic graph the read of any name settles on a result with
enough fuel. -/
theorem Acyclic_lookup (h : Heap) (k : String) (v : Val) (ha : Acyclic h v) :
    ∃ N r, ∀ f, N ≤ f → lookup f h v k = .ok r := by
  have hvr : ∃ b, v = .ref b := by
    cases ha with
    | leaf b _ _ _ _ => exact ⟨b, rfl⟩
    | up b _ _ _ _ _ _ => exact ⟨b, rfl⟩
    | proxy b _ _ _ _ _ _ _ _ => exact ⟨b, rfl⟩
  obtain ⟨b, rfl⟩ := hvr
  obtain ⟨N, res, hN⟩ := Acyclic_getFrom h k (.ref b) ha b (Acyclic_recv h (.ref b) ha b rfl)
  exact ⟨N, res, fun f hf => hN f hf b rfl⟩

/-- C19: for every composite object `o` whose prototype graph is finite and
acyclic (the graph below its proxy: the members of its prototype list with
their host chains and their own prototype lists, and its target), and for every
name `k`, `Get(o, k)` runs to completion: there is a fuel bound from which it
returns one and the same result. -/
theorem get_terminates (h : Heap) (o p t s : Nat) (k : String) (hc : Composite h o p t s)
    (hac : Acyclic h (.ref p)) :
    ∃ N r, ∀ fuel, N ≤ fuel → Get fuel h o k = .ok r := by
  obtain ⟨ob, ho, hok, hop⟩ := hc.obj
  have hnp : ∀ t', ob.kind ≠ .proxy t' := fun t' => by simp [hok]
  cases hown : assocGet (ownProps ob) k with
  | some w =>
    refine ⟨1, (w, h), fun fuel hf => ?_⟩
    obtain ⟨f', rfl⟩ : ∃ f', fuel = f' + 1 := ⟨fuel - 1, by omega⟩
    simp only [Get, getProp_own f' h o ob k w ho hnp hown
      (isAccessor_of_kind _ _ (by simp [hok]))]
  | none =>
    obtain ⟨N, r0, hN⟩ := Acyclic_getFrom h k (.ref p) hac o
      ⟨1, (match ob.proto with
        | none => .null
        | some q => .ref q), fun f hf => by
        obtain ⟨f', rfl⟩ : ∃ f', f = f' + 1 := ⟨f - 1, by omega⟩
        exact getPrototypeOf_ordinary f' h o ob ho hnp⟩
    cases r0 with
    | val w =>
      refine ⟨N + 1, (w, h), fun fuel hf => ?_⟩
      obtain ⟨f', rfl⟩ : ∃ f', fuel = f' + 1 := ⟨fuel - 1, by omega⟩
      have h2 := hN f' (by omega) p rfl
      simp only [Get, getProp_up f' h o p ob k ho hnp hown hop, h2]
    | fresh nm tg =>
      refine ⟨N + 1, (.ref h.length, h ++ [closureObj nm tg]), fun fuel hf => ?_⟩
      obtain ⟨f', rfl⟩ : ∃ f', fuel = f' + 1 := ⟨fuel - 1, by omega⟩
      have h2 := hN f' (by omega) p rfl
      simp only [Get, getProp_up f' h o p ob k ho hnp hown hop, h2]

/-- Witness for C19 on `graphHeap`, whose prototypes are an instance of a shape
and a composite object with a prototype of its own; the name `deep` is found
two prototype lists down. -/
theorem get_terminates_witness :
    (∃ N r, ∀ fuel, N ≤ fuel → Get fuel graphHeap 11 "deep" = .ok r) ∧
    Get 7 graphHeap 11 "deep" = .ok (.num 4, graphHeap) :=
  ⟨get_terminates graphHeap 11 10 9 8 "deep"
    ⟨⟨_, rfl, rfl, rfl⟩, rfl, ⟨_, rfl, rfl⟩, ⟨_, rfl, rfl, rfl⟩, ⟨_, rfl, rfl⟩,
      ⟨_, _, rfl, rfl⟩, by decide⟩
    (Acyclic.proxy 10 _ 9 [.ref 12, .ref 17] rfl rfl ⟨_, 8, _, rfl, rfl, rfl, rfl, rfl⟩
      (fun v hv => by
        have hv' : v ∈ [Val.ref 12, Val.ref 17] := hv
        simp only [List.mem_cons, List.mem_singleton, List.not_mem_nil, or_false] at hv'
        rcases hv' with rfl | rfl
        · exact Acyclic.up 12 _ 13 rfl (fun t e => by cases e) rfl
            (Acyclic.up 13 _ 0 rfl (fun t e => by cases e) rfl
              (Acyclic.leaf 0 _ rfl (fun t e => by cases e) rfl))
        · exact Acyclic.up 17 _ 16 rfl (fun t e => by cases e) rfl
            (Acyclic.proxy 16 _ 15 [.ref 18] rfl rfl ⟨_, 14, _, rfl, rfl, rfl, rfl, rfl⟩
              (fun w hw => by
                have hw' : w = Val.ref 18 := by simpa using hw
                subst hw'
                exact Acyclic.up 18 _ 0 rfl (fun t e => by cases e) rfl
                  (Acyclic.leaf 0 _ rfl (fun t e => by cases e) rfl))
              (Acyclic.up 15 _ 0 rfl (fun t e => by cases e) rfl
                (Acyclic.leaf 0 _ rfl (fun t e => by cases e) rfl))))
      (Acyclic.up 9 _ 0 rfl (fun t e => by cases e) rfl
        (Acyclic.leaf 0 _ rfl (fun t e => by cases e) rfl))),
   rfl⟩

/-- When the loop of `handler.get` stops at a result, some member's read is
that result, and it is not `undefined`. -/
theorem firstDefined_some (g : Val → Except Err Res) (ms : List Val) (r : Res)
    (hfd : firstDefined g ms = .ok (some r)) :
    ∃ v, v ∈ ms ∧ g v = .ok r ∧ r ≠ .val .undef := by
  induction ms with
  | nil => simp [firstDefined] at hfd
  | cons x xs ih =>
    simp only [firstDefined] at hfd
    cases hx : g x with
    | error e => simp [hx] at hfd
    | ok rx =>
      by_cases hru : rx = .val .undef
      · rw [hx, hru] at hfd
        simp only at hfd
        obtain ⟨v, hv, hgv, hne⟩ := ih hfd
        exact ⟨v, List.mem_cons_of_mem _ hv, hgv, hne⟩
      · rw [hx] at hfd
        have hr : rx = r := by
          cases rx with
          | fresh a b => simp only at hfd; injection hfd with hfd; injection hfd
          | val w =>
            cases w with
            | undef => exact absurd rfl hru
            | _ => simp only at hfd; injection hfd with hfd; injection hfd
        subst hr
        exact ⟨x, List.mem_cons_self _ _, hx, hru⟩

theorem assocGet_some_mem (fs : List (String × Val)) (k : String) (w : Val)
    (h1 : assocGet fs k = some w) : k ∈ fs.map Prod.fst := by
  induction fs with
  | nil => simp [assocGet] at h1
  | cons x xs ih =>
    obtain ⟨k', v'⟩ := x
    by_cases hk : k' = k
    · simp [hk]
    · simp only [assocGet, hk, if_false] at h1
      simp only [List.map_cons, List.mem_cons]
      exact Or.inr (ih h1)

theorem TargetsLack_spec (h : Heap) (k : String) (htl : TargetsLack h k) (a : Nat) (ob : Obj)
    (t : Nat) (tb : Obj) (ha : h[a]? = some ob) (hk : ob.kind = .proxy t)
    (ht : h[t]? = some tb) : assocGet tb.fields k = none := by
  have := List.all_eq_true.mp htl ob (List.getElem?_mem ha)
  simp only [targetLacks, hk, ht, Option.isNone_iff_eq_none] at this
  exact this

/-- The read of a name the universal base object lacks, on that object, is
`undefined`, whatever the receiver. -/
theorem getFrom_base (g : Nat) (h : Heap) (k : String) (r : Nat) (hb : StdBase h)
    (hbk : assocGet (fieldsOf h objectProto) k = none) (hkp : k ≠ "__proto__") :
    getFrom (g + 1) h objectProto k r = .ok (.val .undef) := by
  obtain ⟨bb, hbb, hbkind, hbp⟩ := hb
  have hkp' : ¬ "__proto__" = k := fun e => hkp e.symm
  have hf : assocGet (ownProps bb) k = none := by
    simpa [fieldsOf, hbb, ownProps, exoticProps, hbkind, assocGet, hkp'] using hbk
  unfold getFrom
  simp only [hbb, hbkind, hf, hbp]

/-- Where neither the universal base object nor a private target defines `k`,
a read of `k` that is not `undefined` found `k` as a key reachable from the
object read. -/
theorem getFrom_source (h : Heap) (k : String) (hps : ProxiesStd h) (hb : StdBase h)
    (hbk : assocGet (fieldsOf h objectProto) k = none) (hkp : k ≠ "__proto__")
    (htl : TargetsLack h k)
    (hk : k ≠ "prototypes" ∧ k ≠ "addPrototype" ∧ k ≠ "removePrototype") (f : Nat) :
    ∀ (a r0 : Nat) (r : Res), a ≠ objectProto → getFrom f h a k r0 = .ok r → r ≠ .val .undef →
    KeyReach h (.ref a) k := by
  obtain ⟨hk1, hk2, hk3⟩ := hk
  induction f with
  | zero => intro a r0 r _ hg; simp [getFrom] at hg
  | succ f ih =>
    intro a r0 r hne hg hr
    cases ha : h[a]? with
    | none => simp [getFrom, ha] at hg
    | some ob =>
      by_cases hpx : ∃ t, ob.kind = .proxy t
      · obtain ⟨t, hkind⟩ := hpx
        obtain ⟨⟨ms, htlist⟩, tb, ht, htp⟩ := ProxiesStd_spec h hps a ob t ha hkind
        have hlack := TargetsLack_spec h k htl a ob t tb ha hkind ht
        have htkind : tb.kind = .plain := by
          obtain ⟨tb', s, sb, ht', htk', -⟩ := htlist
          rw [ht] at ht'
          cases ht'
          exact htk'
        rw [getFrom_proxy f h a t ob k r0 ha hkind] at hg
        cases f with
        | zero =>
          simp only [handler.get, handler.getWith, hk1, hk2, hk3, or_self, if_false,
            getProp, getFrom] at hg
          cases hg
        | succ g =>
          obtain ⟨s, hgl, hi⟩ := getProp_targetList g h t ms htlist
          simp only [handler.get, handler.getWith, hk1, hk2, hk3, or_self, if_false,
            hgl, hi] at hg
          cases hfd : firstDefined (memberGet (fun b n => getProp (g + 1) h b n) k) ms with
          | error e => simp [hfd] at hg
          | ok res =>
            cases res with
            | some r' =>
              simp only [hfd] at hg
              injection hg with hg
              subst hg
              obtain ⟨v, hv, hgv, -⟩ := firstDefined_some _ ms r' hfd
              cases v with
              | ref b =>
                simp only [memberGet] at hgv
                have hbne : b ≠ objectProto := by
                  intro e
                  subst e
                  have hgv' : getFrom (g + 1) h objectProto k objectProto = .ok r' := hgv
                  rw [getFrom_base g h k objectProto hb hbk hkp] at hgv'
                  injection hgv' with hgv'
                  exact hr hgv'.symm
                exact KeyReach.member a ob t ms (.ref b) k hne ha hkind htlist hv
                  (ih b b r' hbne hgv hr)
              | _ => simp [memberGet] at hgv
            | none =>
              simp only [hfd] at hg
              have hown : assocGet (ownProps tb) k = none := by
                simpa [ownProps, exoticProps, htkind] using hlack
              rw [getProp_up g h t objectProto tb k ht (fun t' => by simp [htkind]) hown htp]
                at hg
              cases g with
              | zero => simp [getFrom] at hg
              | succ g' =>
                rw [getFrom_base g' h k t hb hbk hkp] at hg
                injection hg with hg
                exact absurd hg.symm hr
      · have hnp : ∀ t, ob.kind ≠ .proxy t := fun t e => hpx ⟨t, e⟩
        cases hown : assocGet (ownProps ob) k with
        | some w =>
          exact KeyReach.own a ob k hne ha hnp (assocGet_some_mem _ k w hown)
        | none =>
          cases hq : ob.proto with
          | none =>
            have : getFrom (f + 1) h a k r0 = .ok (.val .undef) := by
              unfold getFrom
              simp only [ha, hown, hq]
            rw [this] at hg
            injection hg with hg
            exact absurd hg.symm hr
          | some q =>
            rw [getFrom_up f h a q ob k r0 ha hnp hown hq] at hg
            have hqne : q ≠ objectProto := by
              intro e
              subst e
              cases f with
              | zero => simp [getFrom] at hg
              | succ g =>
                rw [getFrom_base g h k r0 hb hbk hkp] at hg
                injection hg with hg
                exact hr hg.symm
            exact KeyReach.up a ob q k hne ha hnp hq (ih q r0 r hqne hg hr)

/-- The members of the prototype list of `graphHeap` are grounded. -/
theorem graphHeap_grounded : ∀ v, v ∈ membersOf graphHeap 8 → Grounded graphHeap v := by
  intro v hv
  have hv' : v ∈ [Val.ref 12, Val.ref 17] := hv
  simp only [List.mem_cons, List.mem_singleton, List.not_mem_nil, or_false] at hv'
  rcases hv' with rfl | rfl
  · exact Grounded.obj 12 _ 13 (by decide) rfl (fun t e => by cases e) rfl
      (Grounded.obj 13 _ 0 (by decide) rfl (fun t e => by cases e) rfl Grounded.base)
  · exact Grounded.obj 17 _ 16 (by decide) rfl (fun t e => by cases e) rfl
      (Grounded.proxy 16 _ 15 [.ref 18] _ 0 (by decide) rfl rfl
        ⟨_, 14, _, rfl, rfl, rfl, rfl, rfl⟩ rfl rfl
        (fun w hw => by
          have hw' : w = Val.ref 18 := by simpa using hw
          subst hw'
          exact Grounded.obj 18 _ 0 (by decide) rfl (fun t e => by cases e) rfl
            Grounded.base)
        Grounded.base)

/-- C20 (amended): for every composite object `o` with a grounded prototype
graph (finite, acyclic, every member an object whose host chain ends at the
universal base object), in a heap whose proxies have standard targets, and
every name `k` that is not an own field of `o`, is none of `prototypes`,
`addPrototype`, `removePrototype`, is not an own key of the universal base
object (its accessor `__proto__` included) and is not a field of a private
target: if `Get(o, k)` returns a value other than `undefined`, then the
`ownKeys` trap of the proxy `o` inherits from,
`Reflect.ownKeys(Object.getPrototypeOf(o))`, completes with enough fuel and `k`
is a member of its result. What a key enumeration of `o` itself returns is not
part of the statement. -/
theorem resolution_enumeration_agree (h : Heap) (o p t s : Nat) (k : String) (v : Val)
    (fuel : Nat) (h' : Heap)
    (hc : Composite h o p t s) (hps : ProxiesStd h) (hb : StdBase h)
    (hbk : assocGet (fieldsOf h objectProto) k = none) (hkp : k ≠ "__proto__")
    (htl : TargetsLack h k)
    (hk : k ≠ "prototypes" ∧ k ≠ "addPrototype" ∧ k ≠ "removePrototype")
    (hown : assocGet (fieldsOf h o) k = none)
    (hg : ∀ w, w ∈ membersOf h s → Grounded h w)
    (hget : Get fuel h o k = .ok (v, h')) (hv : v ≠ .undef) :
    ∃ N, ∀ fuel', N ≤ fuel' → ∃ ks, proxyKeys fuel' h o = .ok ks ∧ k ∈ ks := by
  obtain ⟨ob, ho, hok, hop⟩ := hc.obj
  obtain ⟨pb, hp, hpk⟩ := hc.proxy
  obtain ⟨tb, ht, htk, htf⟩ := hc.target
  obtain ⟨sb, ms, hs, hsk⟩ := hc.list
  have hms : membersOf h s = ms := by simp [membersOf, hs, hsk]
  have htlist : TargetList h t ms := ⟨tb, s, sb, ht, htk, htf, hs, hsk⟩
  have hf : fieldsOf h o = ob.fields := by simp [fieldsOf, ho]
  have hnp : ∀ t', ob.kind ≠ .proxy t' := fun t' => by simp [hok]
  have hown' : assocGet (ownProps ob) k = none := by
    simpa [ownProps, exoticProps, hok, hf] using hown
  -- the read that `Get` performed is not `undefined`
  have hsrc : ∃ f r, getFrom f h p k o = .ok r ∧ r ≠ .val .undef := by
    cases fuel with
    | zero => simp [Get, getProp, getFrom] at hget
    | succ f =>
      simp only [Get, getProp_up f h o p ob k ho hnp hown' hop] at hget
      cases hr : getFrom f h p k o with
      | error e => simp [hr] at hget
      | ok r =>
        refine ⟨f, r, hr, ?_⟩
        intro e
        rw [hr, e] at hget
        simp only at hget
        injection hget with hget
        injection hget with hget1 hget2
        exact hv hget1.symm
  obtain ⟨f, r, hr, hrne⟩ := hsrc
  have hpne : p ≠ objectProto := by
    obtain ⟨bb, hbb, hbkind, -⟩ := hb
    exact ne_of_kind h p objectProto pb bb hp hbb (by simp [hpk, hbkind])
  have hreach := getFrom_source h k hps hb hbk hkp htl hk f p o r hpne hr hrne
  have hmember : ∃ w, w ∈ ms ∧ KeyReach h w k := by
    cases hreach with
    | own a' ob' k' hne' hob' hnp' =>
      rw [hp] at hob'
      cases hob'
      exact absurd hpk (hnp' t)
    | up a' ob' q' k' hne' hob' hnp' =>
      rw [hp] at hob'
      cases hob'
      exact absurd hpk (hnp' t)
    | member a' ob' t' ms' w k' hne' hob' hkind' htl' hw hrw =>
      rw [hp] at hob'
      cases hob'
      rw [hpk] at hkind'
      cases hkind'
      exact ⟨w, TargetList_unique h t ms' ms htl' htlist ▸ hw, hrw⟩
  obtain ⟨w, hw, hrw⟩ := hmember
  obtain ⟨N, hN⟩ := WalkOk_list h ms (fun x hx => Grounded_walk h x (hg x (hms ▸ hx)))
  refine ⟨N + 1, fun fuel' hf' => ?_⟩
  obtain ⟨g, rfl⟩ : ∃ g, fuel' = g + 1 := ⟨fuel' - 1, by omega⟩
  obtain ⟨ks, hks⟩ := ownKeysWith_ok h g t ms N htlist hN (by omega)
  have he : proxyKeys (g + 1) h o = .ok ks := by
    simp only [proxyKeys, ho, hop, hp, hpk, handler.ownKeys]
    exact hks
  exact ⟨ks, he, proxyKeys_sound (g + 1) h o p t s ks hc he w k (hms ▸ hw) hrw⟩

/-- Witness for C20 on `graphHeap`: `Get(o, 'deep')` is 4, found two prototype
lists down, and `deep` is in the list of the trap. -/
theorem resolution_enumeration_agree_witness :
    (∃ N, ∀ fuel', N ≤ fuel' → ∃ ks, proxyKeys fuel' graphHeap 11 = .ok ks ∧ "deep" ∈ ks) ∧
    Get 7 graphHeap 11 "deep" = .ok (.num 4, graphHeap) :=
  ⟨resolution_enumeration_agree graphHeap 11 10 9 8 "deep" (.num 4) 7 graphHeap
    ⟨⟨_, rfl, rfl, rfl⟩, rfl, ⟨_, rfl, rfl⟩, ⟨_, rfl, rfl, rfl⟩, ⟨_, rfl, rfl⟩,
      ⟨_, _, rfl, rfl⟩, by decide⟩
    rfl ⟨_, rfl, rfl, rfl⟩ rfl (by decide) rfl (by decide) rfl graphHeap_grounded rfl
    (by simp),
   rfl⟩

/-- C20 as stated fails. On `bareHeap` the only prototype is the empty plain
object `{}`, whose read of `constructor` is `Object`, found on the universal
base object: `Get(o, 'constructor')` is that value, supplied by the prototype,
while the key enumeration of `o` is empty and the list of the `ownKeys` trap is
`prototypes` alone. On `graphHeap` the composite prototype at 17 supplies
`__prototypeList`, the Set held by its private target, and that name is in
neither list. On `nullHeap` the graph is acyclic and the only prototype is
`Object.create(null)` with `k = 1`: `Get(o, 'k')` is 1, the key enumeration of
`o` is empty and the trap raises a TypeError, its loop reaching `null`. On
`unionHeap` the prototype `p1` supplies `a`, `Get(o, 'a')` is 1, and the key
enumeration of `o` is empty, while the list of the trap holds `a`. -/
theorem resolution_enumeration_counterexample :
    (membersOf bareHeap 8 = [.ref 12] ∧ assocGet (fieldsOf bareHeap 11) "constructor" = none ∧
      lookup 2 bareHeap (.ref 12) "constructor" = .ok (.val (.ref objectCtor)) ∧
      Get 4 bareHeap 11 "constructor" = .ok (.ref objectCtor, bareHeap) ∧
      (∀ n, Enumerate (n + 1) bareHeap 11 = .ok []) ∧
      ∀ n, proxyKeys (n + 2) bareHeap 11 = .ok ["prototypes"]) ∧
    (membersOf graphHeap 8 = [.ref 12, .ref 17] ∧
      assocGet (fieldsOf graphHeap 11) "__prototypeList" = none ∧
      lookup 4 graphHeap (.ref 12) "__prototypeList" = .ok (.val .undef) ∧
      lookup 4 graphHeap (.ref 17) "__prototypeList" = .ok (.val (.ref 14)) ∧
      Get 6 graphHeap 11 "__prototypeList" = .ok (.ref 14, graphHeap) ∧
      (∀ n, Enumerate (n + 1) graphHeap 11 = .ok []) ∧
      ∀ n, proxyKeys (n + 3) graphHeap 11 =
        .ok ["own", "greet", "x", "deep", "prototypes"]) ∧
    (membersOf nullHeap 8 = [.ref 12] ∧ assocGet (fieldsOf nullHeap 11) "k" = none ∧
      Acyclic nullHeap (.ref 10) ∧
      lookup 1 nullHeap (.ref 12) "k" = .ok (.val (.num 1)) ∧
      Get 3 nullHeap 11 "k" = .ok (.num 1, nullHeap) ∧
      (∀ n, Enumerate (n + 1) nullHeap 11 = .ok []) ∧
      ∀ n, proxyKeys (n + 2) nullHeap 11 = .error .typeError) ∧
    (membersOf unionHeap 8 = [.ref 12, .ref 13] ∧
      assocGet (fieldsOf unionHeap 11) "a" = none ∧
      lookup 1 unionHeap (.ref 12) "a" = .ok (.val (.num 1)) ∧
      Get 3 unionHeap 11 "a" = .ok (.num 1, unionHeap) ∧
      (∀ n, Enumerate (n + 1) unionHeap 11 = .ok []) ∧
      proxyKeys 2 unionHeap 11 = .ok ["a", "b", "c", "prototypes"]) := by
  refine ⟨⟨rfl, rfl, rfl, rfl, fun _ => rfl, fun _ => rfl⟩,
    ⟨rfl, rfl, rfl, rfl, rfl, fun _ => rfl, fun _ => rfl⟩,
    ⟨rfl, rfl, ?_, rfl, rfl, fun _ => rfl, fun _ => rfl⟩,
    rfl, rfl, rfl, rfl, fun _ => rfl, rfl⟩
  exact Acyclic.proxy 10 _ 9 [.ref 12] rfl rfl ⟨_, 8, _, rfl, rfl, rfl, rfl, rfl⟩
    (fun v hv => by
      have hv' : v = Val.ref 12 := by simpa using hv
      subst hv'
      exact Acyclic.leaf 12 _ rfl (fun t e => by cases e) rfl)
    (Acyclic.up 9 _ 0 rfl (fun t e => by cases e) rfl
      (Acyclic.leaf 0 _ rfl (fun t e => by cases e) rfl))

/-- The key enumeration of a composite object lists the names of its own
fields: the object is ordinary, and the `ownKeys` trap of the proxy it inherits
from is not consulted. -/
theorem Enumerate_own (n : Nat) (h : Heap) (o p t s : Nat) (hc : Composite h o p t s) :
    Enumerate (n + 1) h o = .ok ((fieldsOf h o).map Prod.fst) := by
  obtain ⟨ob, ho, hok, -⟩ := hc.obj
  simp [Enumerate, ownPropertyKeys, ho, hok, fieldsOf, ownProps, exoticProps]

/-- C8 (code at the failing input): on `unionHeap` the prototypes of the
composite object `o` at 11 are `p1 = {a, b}` and `p2 = {b, c}`, and the key
enumeration of `o` is empty with any fuel, not `a, b, c, prototypes`: `o` is an
ordinary object without own fields, and the `ownKeys` trap belongs to the proxy
`o` inherits from, which no key enumeration of `o` asks. Run on that proxy, the
trap computes the list the claim describes. -/
theorem enumeration_union_fails :
    membersOf unionHeap 8 = [.ref 12, .ref 13] ∧
    ownKeyNames unionHeap (.ref 12) = ["a", "b"] ∧
    ownKeyNames unionHeap (.ref 13) = ["b", "c"] ∧
    (∀ n, Enumerate (n + 1) unionHeap 11 = .ok []) ∧
    proxyKeys 2 unionHeap 11 = .ok ["a", "b", "c", "prototypes"] :=
  ⟨rfl, rfl, rfl, fun _ => rfl, rfl⟩

/-- C16 (code at the failing inputs): for every composite object `o`, the key
enumeration of `o` is the list of the names of its own fields, so every own
field `k` of `o` is a member of it, whatever the prototype list holds. -/
theorem enumeration_lists_own (n : Nat) (h : Heap) (o p t s : Nat) (k : String)
    (hc : Composite h o p t s) (hfield : assocGet (fieldsOf h o) k ≠ none) :
    ∃ ks, Enumerate (n + 1) h o = .ok ks ∧ k ∈ ks := by
  refine ⟨_, Enumerate_own n h o p t s hc, ?_⟩
  cases hk : assocGet (fieldsOf h o) k with
  | none => exact absurd hk hfield
  | some w => exact assocGet_some_mem _ k w hk

/-- Witness for C16 on `ownHeap`: the own field `mine` of the composite object,
a key of neither prototype, is enumerated. -/
theorem enumeration_lists_own_witness :
    (∃ ks, Enumerate 1 ownHeap 11 = .ok ks ∧ "mine" ∈ ks) ∧
    Enumerate 1 ownHeap 11 = .ok ["mine"] ∧
    "mine" ∉ ownKeyNames ownHeap (.ref 12) ∧ "mine" ∉ ownKeyNames ownHeap (.ref 13) ∧
    proxyKeys 2 ownHeap 11 = .ok ["a", "b", "c", "prototypes"] :=
  ⟨enumeration_lists_own 0 ownHeap 11 10 9 8 "mine"
    ⟨⟨_, rfl, rfl, rfl⟩, rfl, ⟨_, rfl, rfl⟩, ⟨_, rfl, rfl, rfl⟩, ⟨_, rfl, rfl⟩,
      ⟨_, _, rfl, rfl⟩, by decide⟩
    (by decide), rfl, by decide, by decide, rfl⟩

/-- C17 (code at the failing inputs): for every composite object `o`, the key
enumeration of `o` is the list of the names of its own fields, and the reserved
name `prototypes` is not in it: it occurs zero times, not once. -/
theorem enumeration_lacks_prototypes (n : Nat) (h : Heap) (o p t s : Nat)
    (hc : Composite h o p t s) :
    ∃ ks, Enumerate (n + 1) h o = .ok ks ∧ ks.count "prototypes" = 0 := by
  refine ⟨_, Enumerate_own n h o p t s hc, ?_⟩
  rw [List.count_eq_zero]
  intro hmem
  obtain ⟨kv, hkv, hk⟩ := List.mem_map.mp hmem
  exact ne_of_assocGet_none _ _ hc.noOwn kv hkv hk

/-- Witness for C17 on `threeHeap`, whose three prototypes share the key `k`
and two of them have an own key `prototypes`: the key enumeration of `o` is
empty, while the list of the trap is `k, prototypes`. -/
theorem enumeration_lacks_prototypes_witness :
    (∃ ks, Enumerate 1 threeHeap 11 = .ok ks ∧ ks.count "prototypes" = 0) ∧
    Enumerate 1 threeHeap 11 = .ok [] ∧
    proxyKeys 2 threeHeap 11 = .ok ["k", "prototypes"] :=
  ⟨enumeration_lacks_prototypes 0 threeHeap 11 10 9 8
    ⟨⟨_, rfl, rfl, rfl⟩, rfl, ⟨_, rfl, rfl⟩, ⟨_, rfl, rfl, rfl⟩, ⟨_, rfl, rfl⟩,
      ⟨_, _, rfl, rfl⟩, by decide⟩, rfl, rfl⟩

end ObjectTalk
